import Mathlib

/-!
# Tree search for the travelling salesperson problem (`src/main.c`)

A shallow embedding of the branch-and-bound tree search of `src/main.c`.

Modelling conventions.

* A C `int` is a mathematical integer (`Int`).  Signed overflow is undefined behaviour in C;
  the validity predicate `ValidMatrix` bounds every sum of `num_cities` matrix entries below
  `INT_MAX`, which keeps every sum the search forms inside the range of `int`
  (`good_sum_in_range`).
* For statements that reach sums outside that range, `feasible32`, `isNewBest32`, `addCity32`
  and `updateBest32` are the same functions with the sum as the usual targets compute it,
  modulo `2^32` (`wrapInt`).  On a valid matrix and tours that satisfy the tour invariant they
  are the functions with exact sums (`good_sums_exact`).
* The storage reached through a pointer `int*` is a function from cell index to cell content:
  `tour.cities i` is the C expression `tour->cities[i]`.  Writing cell `i` replaces the function
  at `i` and nowhere else.  The number of cells that `allocTour` reserves (`num_cities`) is not
  part of the function; `memcpy` in `copyTour` copies exactly the cells `0 .. num_cities - 1`.
* The contents of storage just returned by `malloc` are unspecified: they are the parameter
  `uninit`, over which every theorem quantifies.
* A stack (linked through `next`) is the list of its tours, top first.
* A loop that C runs until a condition fails is a recursive function with a fuel argument;
  running out of fuel is the fault `outOfFuel`, and theorems state that enough fuel yields a
  result.  Dereferencing the null pointer is the fault `nullDeref`.
* The threads of the parallel region are run one after the other: first the master's partition
  phase, then the drain of the shared stack by every thread in the order `drainOrder`, then the
  tree search of every thread in the order `searchOrder`.
* The input file is the list `tokens` of the integers that the successive calls of `fscanf`
  convert; a call that converts nothing leaves its target as it was.  `exit(-1)` in
  `readDigraph` is the result `.error` with the diagnostic that was printed.
* Array bounds are stated next to the flat storage: `addCityIndex` is the index of the cell
  that `addCity` writes, `allocatedCells` the number of cells that `allocTour` reserves, and
  `printedIndices` the indices that `main` reads for its output.
-/

namespace TreeSearch

/-! ## Data model -/

/-- Sentinel of `const int NO_CITY = -1;`. -/
def NO_CITY : Int := -1

/-- Largest value of a 32-bit `int`, the `INT_MAX` of `<limits.h>`. -/
def INT_MAX : Int := 2147483647

/-- Record `struct Tour`; the link `next` is represented by the position in a stack. -/
structure Tour where
  cities : Int → Int
  count : Int
  cost : Int

/-- Ways in which a run of the program stops without a result. -/
inductive Fault where
  | nullDeref
  | outOfFuel
  deriving DecidableEq, Repr

/-! ## Functions of `src/main.c` -/

/-- Function `pop`: the top of the stack (`none` for `NULL`) and the remaining stack. -/
def pop (stack : List Tour) : Option Tour × List Tour :=
  match stack with
  | [] => (none, [])
  | temp :: rest => (some temp, rest)

/-- Function `initTour`. -/
def initTour (num_cities : Int) (tour : Tour) : Tour :=
  { cities := fun i =>
      if 1 ≤ i ∧ i < num_cities then NO_CITY else if i = 0 then 0 else tour.cities i
    cost := 0
    count := 1 }

/-- Function `push`. -/
def push (stack : List Tour) (tour : Tour) : List Tour :=
  tour :: stack

/-- Function `travelCost`: the cell `digraph[city1*num_cities + city2]`. -/
def travelCost (num_cities : Int) (digraph : Int → Int) (city1 city2 : Int) : Int :=
  digraph (city1 * num_cities + city2)

/-- Function `isNewBest`. -/
def isNewBest (num_cities : Int) (digraph : Int → Int) (best_tour tour : Tour) : Bool :=
  let cost := tour.cost
  let cost := cost + travelCost num_cities digraph (tour.cities (tour.count - 1)) 0
  decide (cost < best_tour.cost)

/-- Function `addCity`. -/
def addCity (num_cities : Int) (digraph : Int → Int) (tour : Tour) (new_city : Int) : Tour :=
  let cities : Int → Int := fun i => if i = tour.count then new_city else tour.cities i
  { cities := cities
    cost := tour.cost + travelCost num_cities digraph (cities (tour.count - 1)) new_city
    count := tour.count + 1 }

/-- Function `visited`: scans the cells `1 .. count - 1`. -/
def visited (tour : Tour) (city : Int) : Bool :=
  (List.range (tour.count - 1).toNat).any fun (k : Nat) => tour.cities ((k : Int) + 1) == city

/-- Function `feasible`. -/
def feasible (num_cities : Int) (digraph : Int → Int) (best_tour tour : Tour)
    (newCity : Int) : Bool :=
  if tour.cost + travelCost num_cities digraph (tour.cities (tour.count - 1)) newCity
      > best_tour.cost then false
  else if visited tour newCity then false
  else true

/-- Function `copyTour`: `memcpy` of `num_cities` cells, then `count` and `cost`. -/
def copyTour (num_cities : Int) (src dst : Tour) : Tour :=
  { cities := fun i => if 0 ≤ i ∧ i < num_cities then src.cities i else dst.cities i
    count := src.count
    cost := src.cost }

/-- Function `allocTour` on a thread's stack of available tours; the call `allocTour(NULL)` is
the case of the empty list. -/
def allocTour (uninit : Tour) (available_stack : List Tour) : Tour × List Tour :=
  match available_stack with
  | [] => (uninit, [])
  | temp :: rest => (temp, rest)

/-- Function `pushCopy`: the new stack and the new stack of available tours. -/
def pushCopy (num_cities : Int) (uninit : Tour) (stack : List Tour) (tour : Tour)
    (available_stack : List Tour) : List Tour × List Tour :=
  let (temp, available_stack) := allocTour uninit available_stack
  (push stack (copyTour num_cities tour temp), available_stack)

/-- Function `updateBest`: the new value of the global `best_tour`. -/
def updateBest (num_cities : Int) (digraph : Int → Int) (best_tour newBest : Tour) : Tour :=
  if isNewBest num_cities digraph best_tour newBest then
    addCity num_cities digraph (copyTour num_cities newBest best_tour) 0
  else best_tour

/-- Function `removeLastCity`. -/
def removeLastCity (num_cities : Int) (digraph : Int → Int) (tour : Tour) : Tour :=
  { cost := tour.cost -
      travelCost num_cities digraph (tour.cities (tour.count - 2)) (tour.cities (tour.count - 1))
    cities := fun i => if i = tour.count - 1 then NO_CITY else tour.cities i
    count := tour.count - 1 }

/-! ## The parallel region of `main` -/

/-- Values of `city` in `for (int city = 1; city < num_cities; city++)`. -/
def citiesUp (num_cities : Int) : List Int :=
  (List.range (num_cities - 1).toNat).map fun (k : Nat) => (k : Int) + 1

/-- Values of `city` in `for (int city = num_cities - 1; city >= 1; city--)`. -/
def citiesDown (num_cities : Int) : List Int :=
  (citiesUp num_cities).reverse

/-- State of the partition phase: the shared `initial_partition_stack`, the master's
`available_stack`, and `current_size`. -/
structure PartState where
  initial_partition_stack : List Tour
  available_stack : List Tour
  current_size : Int

/-- Body of the `for` loop of the partition phase for one `city`, acting on the stacks, on
`curr_tour` and on `current_size`. -/
def partitionCity (num_cities : Int) (digraph : Int → Int) (uninit : Tour)
    (st : PartState × Tour) (city : Int) : PartState × Tour :=
  let curr_tour := st.2
  if !visited curr_tour city then
    let curr_tour := addCity num_cities digraph curr_tour city
    let (stack, avail) :=
      pushCopy num_cities uninit st.1.initial_partition_stack curr_tour st.1.available_stack
    let curr_tour := removeLastCity num_cities digraph curr_tour
    ({ initial_partition_stack := stack
       available_stack := avail
       current_size := st.1.current_size + 1 }, curr_tour)
  else st

/-- Body of `while (current_size < thread_count)`: one expansion of the top of the shared
stack.  Popping `NULL` is a fault, because `visited` and `push` dereference the tour. -/
def partitionStep (num_cities : Int) (digraph : Int → Int) (uninit : Tour)
    (s : PartState) : Except Fault PartState :=
  match pop s.initial_partition_stack with
  | (none, _) => .error .nullDeref
  | (some curr_tour, stack) =>
    let st := (citiesUp num_cities).foldl (partitionCity num_cities digraph uninit)
      ({ initial_partition_stack := stack
         available_stack := s.available_stack
         current_size := s.current_size - 1 }, curr_tour)
    .ok { st.1 with available_stack := push st.1.available_stack st.2 }

/-- Loop `while (current_size < thread_count)` of the partition phase. -/
def partitionLoop (num_cities : Int) (digraph : Int → Int) (uninit : Tour)
    (thread_count : Int) : Nat → PartState → Except Fault PartState
  | 0, s => if s.current_size < thread_count then .error .outOfFuel else .ok s
  | fuel + 1, s =>
    if s.current_size < thread_count then
      match partitionStep num_cities digraph uninit s with
      | .error e => .error e
      | .ok s1 => partitionLoop num_cities digraph uninit thread_count fuel s1
    else .ok s

/-- Block `omp master`: the partition phase from the tour that holds the hometown only. -/
def partitionPhase (num_cities : Int) (digraph : Int → Int) (uninit : Tour)
    (thread_count : Int) (fuel : Nat) : Except Fault PartState :=
  let initial_tour := initTour num_cities (allocTour uninit []).1
  partitionLoop num_cities digraph uninit thread_count fuel
    { initial_partition_stack := push [] initial_tour
      available_stack := []
      current_size := 0 + 1 }

/-- Value of `tour_count` for thread `thread_num`. -/
def tourCount (initial_partition_size thread_count thread_num : Int) : Int :=
  let quotient := Int.tdiv initial_partition_size thread_count
  let remainder := Int.tmod initial_partition_size thread_count
  if thread_num < remainder then quotient + 1 else quotient

/-- Value of `first_tour` for thread `thread_num`. -/
def firstTour (initial_partition_size thread_count thread_num : Int) : Int :=
  let quotient := Int.tdiv initial_partition_size thread_count
  let remainder := Int.tmod initial_partition_size thread_count
  if thread_num < remainder then thread_num * (quotient + 1)
  else thread_num * quotient + remainder

/-- Value of `last_tour` for thread `thread_num` before the drain loop. -/
def lastTour (initial_partition_size thread_count thread_num : Int) : Int :=
  firstTour initial_partition_size thread_count thread_num
    + tourCount initial_partition_size thread_count thread_num - 1

/-- Loop `for (last_tour; last_tour >= first_tour; last_tour--)` run for `n` rounds: moves the
top of the shared stack to the thread's stack.  Pushing a popped `NULL` is a fault. -/
def drainLoop : Nat → List Tour → List Tour → Except Fault (List Tour × List Tour)
  | 0, shared, stack => .ok (shared, stack)
  | n + 1, shared, stack =>
    match pop shared with
    | (none, _) => .error .nullDeref
    | (some temp, shared) => drainLoop n shared (push stack temp)

/-- Block `omp critical` of thread `thread_num`: the drain of its share. -/
def drain (initial_partition_size thread_count thread_num : Int)
    (shared stack : List Tour) : Except Fault (List Tour × List Tour) :=
  let first_tour := firstTour initial_partition_size thread_count thread_num
  let last_tour := lastTour initial_partition_size thread_count thread_num
  drainLoop (last_tour - first_tour + 1).toNat shared stack

/-- State of a thread in the tree search together with the global `best_tour`. -/
structure SearchState where
  stack : List Tour
  available_stack : List Tour
  best_tour : Tour

/-- Body of the `for` loop of the tree search for one `city`, acting on the thread's stacks and
on `curr_tour`. -/
def searchCity (num_cities : Int) (digraph : Int → Int) (uninit : Tour) (best_tour : Tour)
    (st : (List Tour × List Tour) × Tour) (city : Int) : (List Tour × List Tour) × Tour :=
  let curr_tour := st.2
  if feasible num_cities digraph best_tour curr_tour city then
    let curr_tour := addCity num_cities digraph curr_tour city
    let (stack, avail) := pushCopy num_cities uninit st.1.1 curr_tour st.1.2
    let curr_tour := removeLastCity num_cities digraph curr_tour
    ((stack, avail), curr_tour)
  else st

/-- Body of `while (stack != NULL)` on a nonempty stack (on the empty stack nothing is done). -/
def searchStep (num_cities : Int) (digraph : Int → Int) (uninit : Tour)
    (s : SearchState) : SearchState :=
  match pop s.stack with
  | (none, _) => s
  | (some curr_tour, stack) =>
    if curr_tour.count = num_cities then
      let best :=
        if isNewBest num_cities digraph s.best_tour curr_tour then
          updateBest num_cities digraph s.best_tour curr_tour
        else s.best_tour
      { stack := stack
        available_stack := push s.available_stack curr_tour
        best_tour := best }
    else
      let st := (citiesDown num_cities).foldl
        (searchCity num_cities digraph uninit s.best_tour) ((stack, s.available_stack), curr_tour)
      { stack := st.1.1
        available_stack := push st.1.2 st.2
        best_tour := s.best_tour }

/-- Loop `while (stack != NULL)` of the tree search. -/
def searchLoop (num_cities : Int) (digraph : Int → Int) (uninit : Tour) :
    Nat → SearchState → Except Fault SearchState
  | 0, s => if s.stack.isEmpty then .ok s else .error .outOfFuel
  | fuel + 1, s =>
    if s.stack.isEmpty then .ok s
    else searchLoop num_cities digraph uninit fuel (searchStep num_cities digraph uninit s)

/-- State of the parallel region: the shared stack, the global `best_tour`, and the private
`stack` and `available_stack` of every thread. -/
structure RunState where
  shared : List Tour
  best_tour : Tour
  thread_stack : Nat → List Tour
  thread_avail : Nat → List Tour

/-- Thread `t` drains its share of the shared stack. -/
def drainThread (initial_partition_size thread_count : Int) (r : RunState) (t : Nat) :
    Except Fault RunState :=
  match drain initial_partition_size thread_count (t : Int) r.shared (r.thread_stack t) with
  | .error e => .error e
  | .ok (shared, stack) =>
    .ok { r with shared := shared, thread_stack := fun u => if u = t then stack else r.thread_stack u }

/-- Thread `t` runs its tree search to the end. -/
def searchThread (num_cities : Int) (digraph : Int → Int) (uninit : Tour) (fuel : Nat)
    (r : RunState) (t : Nat) : Except Fault RunState :=
  match searchLoop num_cities digraph uninit fuel
      { stack := r.thread_stack t, available_stack := r.thread_avail t, best_tour := r.best_tour } with
  | .error e => .error e
  | .ok s =>
    .ok { r with
          best_tour := s.best_tour
          thread_stack := fun u => if u = t then s.stack else r.thread_stack u
          thread_avail := fun u => if u = t then s.available_stack else r.thread_avail u }

/-- Runs the steps of the threads listed in `order`, stopping at the first fault. -/
def runThreads (step : RunState → Nat → Except Fault RunState) :
    List Nat → RunState → Except Fault RunState
  | [], r => .ok r
  | t :: order, r =>
    match step r t with
    | .error e => .error e
    | .ok r1 => runThreads step order r1

/-- Value of `best_tour` before the parallel region. -/
def initialBest (num_cities : Int) (uninit : Tour) : Tour :=
  { initTour num_cities (allocTour uninit []).1 with cost := INT_MAX }

/-- The search of `main` from the creation of `best_tour` to the end of the parallel region;
the result is the final `best_tour`. -/
def treeSearch (num_cities : Int) (digraph : Int → Int) (uninit : Tour) (thread_count : Int)
    (drainOrder searchOrder : List Nat) (fuel : Nat) : Except Fault Tour :=
  match partitionPhase num_cities digraph uninit thread_count fuel with
  | .error e => .error e
  | .ok p =>
    let r0 : RunState :=
      { shared := p.initial_partition_stack
        best_tour := initialBest num_cities uninit
        thread_stack := fun _ => []
        thread_avail := fun u => if u = 0 then p.available_stack else [] }
    match runThreads (drainThread p.current_size thread_count) drainOrder r0 with
    | .error e => .error e
    | .ok r1 =>
      match runThreads (searchThread num_cities digraph uninit fuel) searchOrder r1 with
      | .error e => .error e
      | .ok r2 => .ok r2.best_tour

/-- Cells `0 .. num_cities` of the final `best_tour`, the values that `main` prints. -/
def printedTour (num_cities : Int) (best_tour : Tour) : List Int :=
  (List.range ((num_cities + 1).toNat)).map fun (i : Nat) => best_tour.cities (i : Int)

/-! ## Function `readDigraph` and the array indices of `addCity` and `main` -/

/-- Ways in which `readDigraph` ends the program with `exit(-1)`: the three diagnostics. -/
inductive ReadFault where
  | notPositive
  | diagonalNotZero
  | offDiagonalNotPositive (i j value : Int)
  deriving DecidableEq, Repr

/-- The two tests of `readDigraph` on the entry `value` just stored in
`digraph[i*num_cities + j]`: the diagnostic, if one of them fires. -/
def checkEntry (i j value : Int) : Option ReadFault :=
  if i = j ∧ value ≠ 0 then some .diagonalNotZero
  else if i ≠ j ∧ value ≤ 0 then some (.offDiagonalNotPositive i j value)
  else none

/-- Value of `digraph[k]` after its `fscanf`: `tokens` are the integers that the successive
calls of `fscanf` convert, the first of them being `num_cities`; a call that converts nothing
leaves the cell as `malloc` returned it (`garbage`). -/
def fileCell (garbage : Int → Int) (tokens : List Int) (k : Int) : Int :=
  if 0 ≤ k then tokens.getD (k.toNat + 1) (garbage k) else garbage k

/-- Function `readDigraph`: the nested loops stop at the first entry whose test fires.  The
global `num_cities` starts at 0 and keeps that value when the first `fscanf` converts
nothing. -/
def readDigraph (garbage : Int → Int) (tokens : List Int) :
    Except ReadFault (Int × (Int → Int)) :=
  let num_cities := tokens.headD 0
  if num_cities ≤ 0 then .error .notPositive
  else
    let digraph := fileCell garbage tokens
    match (List.range num_cities.toNat).findSome? fun (i : Nat) =>
        (List.range num_cities.toNat).findSome? fun (j : Nat) =>
          checkEntry (i : Int) (j : Int) (digraph ((i : Int) * num_cities + (j : Int))) with
    | some e => .error e
    | none => .ok (num_cities, digraph)

/-- Function `main` from `readDigraph` to the end of the parallel region: a failed read ends
the program before the search. -/
def mainRun (garbage : Int → Int) (uninit : Tour) (thread_count : Int) (tokens : List Int)
    (drainOrder searchOrder : List Nat) (fuel : Nat) : Except ReadFault (Except Fault Tour) :=
  match readDigraph garbage tokens with
  | .error e => .error e
  | .ok (num_cities, digraph) =>
    .ok (treeSearch num_cities digraph uninit thread_count drainOrder searchOrder fuel)

/-- Index of the cell that `addCity` writes: `tour->cities[tour->count] = new_city`. -/
def addCityIndex (tour : Tour) : Int :=
  tour.count

/-- Number of `int` cells of the array that `allocTour` reserves:
`malloc(num_cities * sizeof(int))`. -/
def allocatedCells (num_cities : Int) : Int :=
  num_cities

/-- Indices of the cells of `best_tour` that `main` prints: `0 .. num_cities - 1` in the loop,
then `num_cities`. -/
def printedIndices (num_cities : Int) : List Int :=
  ((List.range num_cities.toNat).map fun (i : Nat) => (i : Int)) ++ [num_cities]

/-! ## The sums in 32-bit `int`, and the values of `best_tour` during a run -/

/-- Least value of an `int` (`INT_MIN` of `limits.h`, the counterpart of `INT_MAX`). -/
def INT_MIN : Int := -2147483648

/-- Value that a 32-bit two's complement `int` holds when the exact result of an addition is
`x`: the representative of `x` modulo `2^32` in `[INT_MIN, INT_MAX]`.  The C standard leaves
signed overflow undefined; this is what the addition computes on the usual targets. -/
def wrapInt (x : Int) : Int :=
  (x + 2147483648) % 4294967296 - 2147483648

/-- Function `isNewBest` with its sum as a 32-bit `int`. -/
def isNewBest32 (num_cities : Int) (digraph : Int → Int) (best_tour tour : Tour) : Bool :=
  let cost := tour.cost
  let cost := wrapInt (cost + travelCost num_cities digraph (tour.cities (tour.count - 1)) 0)
  decide (cost < best_tour.cost)

/-- Function `addCity` with its sum as a 32-bit `int`. -/
def addCity32 (num_cities : Int) (digraph : Int → Int) (tour : Tour) (new_city : Int) : Tour :=
  let cities : Int → Int := fun i => if i = tour.count then new_city else tour.cities i
  { cities := cities
    cost := wrapInt
      (tour.cost + travelCost num_cities digraph (cities (tour.count - 1)) new_city)
    count := tour.count + 1 }

/-- Function `feasible` with its sum as a 32-bit `int`. -/
def feasible32 (num_cities : Int) (digraph : Int → Int) (best_tour tour : Tour)
    (newCity : Int) : Bool :=
  if wrapInt (tour.cost + travelCost num_cities digraph (tour.cities (tour.count - 1)) newCity)
      > best_tour.cost then false
  else if visited tour newCity then false
  else true

/-- The two tours that a call `updateBest(newBest)` reaches: the global `best_tour` and the
tour that its argument points to. -/
structure UpdateState where
  best_tour : Tour
  newBest : Tour

/-- Function `updateBest` with its sums as 32-bit `int`, on both tours that it reaches:
`copyTour(newBest, best_tour)` assigns through its second argument only, and
`addCity(best_tour, 0)` through its first. -/
def updateBest32 (num_cities : Int) (digraph : Int → Int) (s : UpdateState) : UpdateState :=
  if isNewBest32 num_cities digraph s.best_tour s.newBest then
    let s1 : UpdateState := { s with best_tour := copyTour num_cities s.newBest s.best_tour }
    { s1 with best_tour := addCity32 num_cities digraph s1.best_tour 0 }
  else s

/-- The values that `best_tour` takes during a call `updateBest(newBest)`, one after each
assignment, in order: after the `memcpy`, after `to->count = from->count` and after
`to->cost = from->cost` of `copyTour`, then after `tour->cities[tour->count] = 0`, after
`tour->cost += ...` and after `tour->count++` of `addCity`.  There is none when `isNewBest`
fails. -/
def updateBestPoints (num_cities : Int) (digraph : Int → Int) (best_tour newBest : Tour) :
    List Tour :=
  if isNewBest num_cities digraph best_tour newBest then
    let t1 : Tour := { best_tour with
      cities := fun i => if 0 ≤ i ∧ i < num_cities then newBest.cities i else best_tour.cities i }
    let t2 : Tour := { t1 with count := newBest.count }
    let t3 : Tour := { t2 with cost := newBest.cost }
    let t4 : Tour := { t3 with cities := fun i => if i = t3.count then 0 else t3.cities i }
    let t5 : Tour := { t4 with
      cost := t4.cost + travelCost num_cities digraph (t4.cities (t4.count - 1)) 0 }
    let t6 : Tour := { t5 with count := t5.count + 1 }
    [t1, t2, t3, t4, t5, t6]
  else []

/-- The values that `best_tour` takes during one loop body of the tree search. -/
def searchStepPoints (num_cities : Int) (digraph : Int → Int) (s : SearchState) : List Tour :=
  match pop s.stack with
  | (none, _) => []
  | (some curr_tour, _) =>
    if curr_tour.count = num_cities then
      if isNewBest num_cities digraph s.best_tour curr_tour then
        updateBestPoints num_cities digraph s.best_tour curr_tour
      else []
    else []

/-- Every value that `best_tour` takes during a sequence of loop bodies of the tree search,
each run on some thread's `stack` and `available_stack`, in order: the value before each loop
body, the values inside it, and the value after the last. -/
def bestPoints (num_cities : Int) (digraph : Int → Int) (uninit : Tour) :
    Tour → List (List Tour × List Tour) → List Tour
  | best, [] => [best]
  | best, sa :: steps =>
    best :: (searchStepPoints num_cities digraph
        { stack := sa.1, available_stack := sa.2, best_tour := best } ++
      bestPoints num_cities digraph uninit
        (searchStep num_cities digraph uninit
          { stack := sa.1, available_stack := sa.2, best_tour := best }).best_tour steps)

/-! ## Specification vocabulary -/

/-- Digraph whose cells are the entries of `rows` in row-major order (cells outside are 0). -/
def digraphOfRows (rows : List (List Int)) : Int → Int :=
  fun i => if 0 ≤ i then rows.flatten.getD i.toNat 0 else 0

/-- The example of the header comment of `src/main.c`. -/
def exampleRows : List (List Int) :=
  [[0, 1, 2, 3], [4, 0, 5, 6], [7, 8, 0, 9], [10, 11, 12, 0]]

/-- Sum of the travel costs along the cities `a, r₀, r₁, …`. -/
def costFrom (num_cities : Int) (digraph : Int → Int) : Int → List Int → Int
  | _, [] => 0
  | a, b :: rest => travelCost num_cities digraph a b + costFrom num_cities digraph b rest

/-- Sum of the travel costs between consecutive cities of a path. -/
def pathCost (num_cities : Int) (digraph : Int → Int) : List Int → Int
  | [] => 0
  | a :: rest => costFrom num_cities digraph a rest

/-- Last city of the path `a, r₀, r₁, …`. -/
def endOf : Int → List Int → Int
  | a, [] => a
  | _, b :: rest => endOf b rest

/-- Consecutive pairs of the path `a, r₀, r₁, …`. -/
def pairsFrom : Int → List Int → List (Int × Int)
  | _, [] => []
  | a, b :: rest => (a, b) :: pairsFrom b rest

/-- Cost of the cycle `0 -> ordering -> 0`. -/
def cycleCost (num_cities : Int) (digraph : Int → Int) (ordering : List Int) : Int :=
  pathCost num_cities digraph (0 :: (ordering ++ [0]))

/-- All orderings of the cities `1 .. num_cities - 1`. -/
def orderings (num_cities : Int) : List (List Int) :=
  (citiesUp num_cities).permutations

/-- A valid cost matrix: at least one city, zero diagonal, positive entries off the diagonal,
and every sum of `num_cities` entries below `INT_MAX`. -/
def ValidMatrix (num_cities : Int) (digraph : Int → Int) : Prop :=
  1 ≤ num_cities ∧
  (∀ i, 0 ≤ i → i < num_cities → travelCost num_cities digraph i i = 0) ∧
  (∀ i j, 0 ≤ i → i < num_cities → 0 ≤ j → j < num_cities → i ≠ j →
    0 < travelCost num_cities digraph i j) ∧
  (∀ l : List (Int × Int), (l.length : Int) = num_cities →
    (∀ p ∈ l, (0 ≤ p.1 ∧ p.1 < num_cities) ∧ (0 ≤ p.2 ∧ p.2 < num_cities)) →
    (l.map fun p => travelCost num_cities digraph p.1 p.2).sum < INT_MAX)

/-- Cells `0 .. count - 1` of a tour: the cities it has visited, hometown first. -/
def pathOf (tour : Tour) : List Int :=
  (List.range tour.count.toNat).map fun (i : Nat) => tour.cities (i : Int)

/-- Cells `1 .. count - 1` of a tour: the cities visited after the hometown. -/
def visitedOf (tour : Tour) : List Int :=
  (List.range (tour.count - 1).toNat).map fun (k : Nat) => tour.cities ((k : Int) + 1)

/-- The tour invariant: the tour starts at city 0, the cities after it are distinct cities of
`1 .. num_cities - 1`, and `cost` is the cost of the path. -/
def GoodTour (num_cities : Int) (digraph : Int → Int) (tour : Tour) : Prop :=
  1 ≤ tour.count ∧ tour.cities 0 = 0 ∧ (visitedOf tour).Nodup ∧
  (∀ c ∈ visitedOf tour, 1 ≤ c ∧ c < num_cities) ∧
  tour.cost = costFrom num_cities digraph 0 (visitedOf tour)

/-- The record `best` holds the cycle `0 -> ordering -> 0` and its cost. -/
def IsCycleRecord (num_cities : Int) (digraph : Int → Int) (ordering : List Int)
    (best : Tour) : Prop :=
  best.count = num_cities + 1 ∧ best.cost = cycleCost num_cities digraph ordering ∧
  printedTour num_cities best = 0 :: (ordering ++ [0])

/-- The record `best` holds a cycle of least cost among all orderings. -/
def Optimal (num_cities : Int) (digraph : Int → Int) (best : Tour) : Prop :=
  (∃ o ∈ orderings num_cities, IsCycleRecord num_cities digraph o best) ∧
  ∀ o ∈ orderings num_cities, best.cost ≤ cycleCost num_cities digraph o

/-- Value of `best_tour` after a sequence of loop bodies of the tree search, each run on some
thread's `stack` and `available_stack`. -/
def bestAfter (num_cities : Int) (digraph : Int → Int) (uninit : Tour) (best : Tour)
    (steps : List (List Tour × List Tour)) : Tour :=
  steps.foldl (fun b sa =>
    (searchStep num_cities digraph uninit
      { stack := sa.1, available_stack := sa.2, best_tour := b }).best_tour) best

/-! ## Vocabulary of the proofs -/

/-- Tour `u` agrees with `t` on `count`, `cost` and the cells below `count`. -/
def SameTour (t u : Tour) : Prop :=
  u.count = t.count ∧ u.cost = t.cost ∧ ∀ i, 0 ≤ i → i < t.count → u.cities i = t.cities i

/-- Tour `s` is `t` extended by the city `c`. -/
def IsChild (num_cities : Int) (digraph : Int → Int) (t : Tour) (c : Int) (s : Tour) : Prop :=
  s.count = t.count + 1 ∧
  s.cost = t.cost + travelCost num_cities digraph (t.cities (t.count - 1)) c ∧
  (∀ i, 0 ≤ i → i < t.count → s.cities i = t.cities i) ∧ s.cities t.count = c

/-- Bound on the number of loop bodies needed for a tour that lacks `m` cities. -/
def searchWeight (num_cities : Int) : Nat → Nat
  | 0 => 1
  | m + 1 => 1 + (num_cities - 1).toNat * searchWeight num_cities m

/-- Bound on the number of loop bodies that a stack needs. -/
def stackWeight (num_cities : Int) (stack : List Tour) : Nat :=
  (stack.map fun t => searchWeight num_cities (num_cities - t.count).toNat).sum

/-- What a finished tree search of `stack` guarantees about `best_tour` before and after. -/
def SearchPost (num_cities : Int) (digraph : Int → Int) (stack : List Tour)
    (b b2 : Tour) : Prop :=
  b2.cost ≤ b.cost ∧
  (∀ s ∈ stack, ∀ o, o.Perm (citiesUp num_cities) → visitedOf s <+: o →
    b2.cost ≤ cycleCost num_cities digraph o) ∧
  (b2 = b ∨ ∃ s ∈ stack, ∃ o, o.Perm (citiesUp num_cities) ∧ visitedOf s <+: o ∧
    IsCycleRecord num_cities digraph o b2)

/-- Visited lists of the children that the partition phase pushes for a tour with visited
list `r`, top of the stack first. -/
def absExpand (num_cities : Int) (r : List Int) : List (List Int) :=
  (((citiesUp num_cities).filter fun c => decide (c ∉ r)).reverse).map fun c => r ++ [c]

/-- The partition loop on the visited lists of the staged tours. -/
def absPartitionLoop (num_cities thread_count : Int) :
    Nat → List (List Int) → Except Fault (List (List Int))
  | 0, staged => if (staged.length : Int) < thread_count then .error .outOfFuel else .ok staged
  | fuel + 1, staged =>
    if (staged.length : Int) < thread_count then
      match staged with
      | [] => .error .nullDeref
      | r :: rest => absPartitionLoop num_cities thread_count fuel (absExpand num_cities r ++ rest)
    else .ok staged

/-- The tours of `stack` satisfy the tour invariant and have the visited lists `staged`. -/
def StackRep (num_cities : Int) (digraph : Int → Int) (stack : List Tour)
    (staged : List (List Int)) : Prop :=
  List.Forall₂ (fun t r => GoodTour num_cities digraph t ∧ visitedOf t = r) stack staged

/-- The staged tours of `p` satisfy the tour invariant, have the visited lists `staged`, and
`current_size` is their number. -/
def PartRep (num_cities : Int) (digraph : Int → Int) (p : PartState)
    (staged : List (List Int)) : Prop :=
  StackRep num_cities digraph p.initial_partition_stack staged ∧
  p.current_size = (staged.length : Int)

/-- Number of tours that the threads of `order` take from the shared stack. -/
def drainNeed (initial_partition_size thread_count : Int) (order : List Nat) : Nat :=
  (order.map fun (t : Nat) => (tourCount initial_partition_size thread_count (t : Int)).toNat).sum

/-- Stacks that occur during a run, for any contents of the other variables: the shared stack
of the partition phase, and the stacks of the threads during the drain and the tree search. -/
inductive StackReach (num_cities : Int) (digraph : Int → Int) (uninit : Tour) :
    List Tour → Prop
  | staging_init :
      StackReach num_cities digraph uninit (push [] (initTour num_cities (allocTour uninit []).1))
  | staging_step (p p2 : PartState) :
      StackReach num_cities digraph uninit p.initial_partition_stack →
      partitionStep num_cities digraph uninit p = .ok p2 →
      StackReach num_cities digraph uninit p2.initial_partition_stack
  | private_init : StackReach num_cities digraph uninit []
  | drain_shared (n : Nat) (shared stack shared2 stack2 : List Tour) :
      StackReach num_cities digraph uninit shared →
      StackReach num_cities digraph uninit stack →
      drainLoop n shared stack = .ok (shared2, stack2) →
      StackReach num_cities digraph uninit shared2
  | drain_private (n : Nat) (shared stack shared2 stack2 : List Tour) :
      StackReach num_cities digraph uninit shared →
      StackReach num_cities digraph uninit stack →
      drainLoop n shared stack = .ok (shared2, stack2) →
      StackReach num_cities digraph uninit stack2
  | search_step (s : SearchState) :
      StackReach num_cities digraph uninit s.stack →
      StackReach num_cities digraph uninit (searchStep num_cities digraph uninit s).stack

/-- A tour whose cells, `count` and `cost` are all zero. -/
def zeroTour : Tour :=
  { cities := fun _ => 0, count := 0, cost := 0 }

/-- Cost rows of two cities at distance 1 of each other. -/
def twoCityRows : List (List Int) :=
  [[0, 1], [1, 0]]

/-- The complete tour `0, 1` of the two cities. -/
def twoCityTour : Tour :=
  addCity 2 (digraphOfRows twoCityRows) (initTour 2 zeroTour) 1

/-! ## Vocabulary of the partition, ordering and bounds proofs -/

/-- Size of the shared stack after `d` expansions along the first descent of the partition
phase. -/
def descentSize (num_cities : Int) : Nat → Int
  | 0 => 1
  | d + 1 => descentSize num_cities d + (num_cities - 2 - (d : Int))

/-- Largest number of tours that the partition phase can stage. -/
def maxStaged (num_cities : Int) : Int :=
  1 + (num_cities - 1) * (num_cities - 2) / 2

/-- A list of distinct cities of `1 .. num_cities - 1`. -/
def ValidVisited (num_cities : Int) (r : List Int) : Prop :=
  r.Nodup ∧ ∀ c ∈ r, 1 ≤ c ∧ c < num_cities

/-- Every suffix of the staged list that starts with a tour of `d` visited cities has at most
`descentSize d` entries. -/
def SuffixBound (num_cities : Int) : List (List Int) → Prop
  | [] => True
  | r :: rest =>
    ((r :: rest).length : Int) ≤ descentSize num_cities r.length ∧ SuffixBound num_cities rest

/-- Bound on the number of loop bodies of the partition phase that a staged list allows. -/
def absWeight (num_cities : Int) (staged : List (List Int)) : Nat :=
  (staged.map fun r => searchWeight num_cities (num_cities - 1 - (r.length : Int)).toNat).sum

/-- Every ordering has exactly one entry of the staged list as a prefix. -/
def ExactCover (num_cities : Int) (staged : List (List Int)) : Prop :=
  ∀ o : List Int, o.Perm (citiesUp num_cities) →
    staged.countP (fun r => r.isPrefixOf o) = 1

/-- The staged list is the one of the first descent: its top has `d` visited cities, it has
`descentSize d` entries, all valid, and it covers every ordering exactly once. -/
def DescentInv (num_cities : Int) (staged : List (List Int)) : Prop :=
  (∃ r rest, staged = r :: rest ∧
    (staged.length : Int) = descentSize num_cities r.length) ∧
  (∀ x ∈ staged, ValidVisited num_cities x) ∧ ExactCover num_cities staged

/-- An entry that `readDigraph` rejects: nonzero on the diagonal, or not positive off it. -/
def Offending (i j value : Int) : Prop :=
  (i = j ∧ value ≠ 0) ∨ (i ≠ j ∧ value ≤ 0)

/-- The `num_cities` cells that `allocTour` reserves for the city array of a tour. -/
def cityArray (num_cities : Int) (tour : Tour) : List Int :=
  (List.range num_cities.toNat).map fun (i : Nat) => tour.cities (i : Int)

/-- The complete tour `0, 1, 2, 3` of the example of the header comment. -/
def exampleTour : Tour :=
  addCity 4 (digraphOfRows exampleRows)
    (addCity 4 (digraphOfRows exampleRows)
      (addCity 4 (digraphOfRows exampleRows) (initTour 4 zeroTour) 1) 2) 3

/-- Lexicographic order on city sequences: at the first position where they differ, the first
sequence has the smaller city. -/
def LexLess (a b : List Int) : Prop :=
  List.Lex (fun x y => x < y) a b

/-- The visited list `r` branches off before `r2`: after a common beginning, `r` continues
with a smaller city than `r2`. -/
def Before (r r2 : List Int) : Prop :=
  ∃ p c c2 x y, r = p ++ c :: x ∧ r2 = p ++ c2 :: y ∧ c < c2

/-- Every tour of the stack branches off before the tours below it. -/
def StackSorted (stack : List Tour) : Prop :=
  (stack.map visitedOf).Pairwise Before

/-- What a finished tree search of a sorted `stack` guarantees about `best_tour` before and
after: either nothing below the stack beats the old record, or the new record is the first
cheapest cycle below the stack. -/
def LexPost (num_cities : Int) (digraph : Int → Int) (stack : List Tour)
    (b b2 : Tour) : Prop :=
  (b2 = b ∧ ∀ s ∈ stack, ∀ o, o.Perm (citiesUp num_cities) → visitedOf s <+: o →
    b.cost ≤ cycleCost num_cities digraph o) ∨
  (∃ o, o.Perm (citiesUp num_cities) ∧ (∃ s ∈ stack, visitedOf s <+: o) ∧
    IsCycleRecord num_cities digraph o b2 ∧ cycleCost num_cities digraph o < b.cost ∧
    ∀ s ∈ stack, ∀ o2, o2.Perm (citiesUp num_cities) → visitedOf s <+: o2 →
      cycleCost num_cities digraph o ≤ cycleCost num_cities digraph o2 ∧
      (cycleCost num_cities digraph o2 = cycleCost num_cities digraph o →
        o2 = o ∨ LexLess o o2))

/-! ## Vocabulary of the overflow and record proofs -/

/-- Cost rows of three cities whose distances are all `INT_MAX`. -/
def hugeRows : List (List Int) :=
  [[0, 2147483647, 2147483647], [2147483647, 0, 2147483647], [2147483647, 2147483647, 0]]

/-- The tour `0, 1` of the three cities of `hugeRows`; its cost is `INT_MAX`. -/
def hugeTour : Tour :=
  addCity 3 (digraphOfRows hugeRows) (initTour 3 zeroTour) 1

/-- Cost rows of two cities at distance `INT_MAX` one way and 1 the other way. -/
def lopsidedRows : List (List Int) :=
  [[0, 2147483647], [1, 0]]

/-- The complete tour `0, 1` of the two cities of `lopsidedRows`; its cost is `INT_MAX`. -/
def lopsidedTour : Tour :=
  addCity 2 (digraphOfRows lopsidedRows) (initTour 2 zeroTour) 1

/-- The record `b` is at rest: as `main` created it, or the record of a complete cycle. -/
def BestSettled (num_cities : Int) (digraph : Int → Int) (uninit : Tour) (b : Tour) : Prop :=
  (b = initialBest num_cities uninit ∧ b.count = 1 ∧ b.cost = INT_MAX) ∨
  (b.count = num_cities + 1 ∧
    ∃ o ∈ orderings num_cities, IsCycleRecord num_cities digraph o b)

/-- The record `b` is inside `updateBest`: its cells `0 .. num_cities - 1` hold a complete
tour, and `count` is `num_cities`, or still what it was before the call. -/
def BestInUpdate (num_cities : Int) (b : Tour) : Prop :=
  (b.count = num_cities ∨ b.count = 1 ∨ b.count = num_cities + 1) ∧
  ∃ o ∈ orderings num_cities, cityArray num_cities b = 0 :: o

/-- Cost rows of two cities at distance `INT_MAX` of each other. -/
def farRows : List (List Int) :=
  [[0, 2147483647], [2147483647, 0]]

/-- The complete tour `0, 1` of the two cities of `farRows`; its cost is `INT_MAX`. -/
def farTour : Tour :=
  addCity 2 (digraphOfRows farRows) (initTour 2 zeroTour) 1

/-! ## Lemmas and theorems -/

theorem visited_iff_mem (t : Tour) (c : Int) : visited t c = true ↔ c ∈ visitedOf t := by
  simp only [visited, visitedOf, List.any_eq_true, List.mem_map, beq_iff_eq]

theorem costFrom_append (N : Int) (dg : Int → Int) (r : List Int) :
    ∀ (a c : Int), costFrom N dg a (r ++ [c]) = costFrom N dg a r + travelCost N dg (endOf a r) c := by
  induction r with
  | nil => intro a c; simp [costFrom, endOf]
  | cons b r ih =>
    intro a c
    show travelCost N dg a b + costFrom N dg b (r ++ [c]) = _
    rw [ih b c]
    simp only [costFrom, endOf]
    ring

theorem costFrom_append_list (N : Int) (dg : Int → Int) (r : List Int) :
    ∀ (a : Int) (r2 : List Int),
      costFrom N dg a (r ++ r2) = costFrom N dg a r + costFrom N dg (endOf a r) r2 := by
  induction r with
  | nil => intro a r2; simp [costFrom, endOf]
  | cons b r ih =>
    intro a r2
    show travelCost N dg a b + costFrom N dg b (r ++ r2) = _
    rw [ih b r2]
    simp only [costFrom, endOf]
    ring

theorem endOf_append (r : List Int) : ∀ (a c : Int), endOf a (r ++ [c]) = c := by
  induction r with
  | nil => intro a c; rfl
  | cons b r ih => intro a c; exact ih b c

theorem endOf_mem (r : List Int) : ∀ a : Int, endOf a r = a ∨ endOf a r ∈ r := by
  induction r with
  | nil => intro a; left; rfl
  | cons b r ih =>
    intro a
    right
    simp only [endOf]
    rcases ih b with h | h
    · rw [h]; exact List.mem_cons_self _ _
    · exact List.mem_cons_of_mem _ h

theorem costFrom_eq_sum (N : Int) (dg : Int → Int) (r : List Int) :
    ∀ a : Int, costFrom N dg a r = ((pairsFrom a r).map fun p => travelCost N dg p.1 p.2).sum := by
  induction r with
  | nil => intro a; rfl
  | cons b r ih => intro a; simp only [costFrom, pairsFrom, List.map_cons, List.sum_cons, ih b]

theorem pairsFrom_length (r : List Int) : ∀ a : Int, (pairsFrom a r).length = r.length := by
  induction r with
  | nil => intro a; rfl
  | cons b r ih => intro a; simp only [pairsFrom, List.length_cons, ih b]

theorem pairsFrom_mem (r : List Int) :
    ∀ (a : Int) (p : Int × Int), p ∈ pairsFrom a r → (p.1 = a ∨ p.1 ∈ r) ∧ p.2 ∈ r := by
  induction r with
  | nil => intro a p h; simp [pairsFrom] at h
  | cons b r ih =>
    intro a p h
    simp only [pairsFrom, List.mem_cons] at h
    rcases h with h | h
    · subst h; simp
    · have := ih b p h
      rcases this with ⟨h1 | h1, h2⟩
      · exact ⟨Or.inr (by rw [h1]; exact List.mem_cons_self _ _), List.mem_cons_of_mem _ h2⟩
      · exact ⟨Or.inr (List.mem_cons_of_mem _ h1), List.mem_cons_of_mem _ h2⟩

/-- Travel costs between cities in range are not negative. -/
theorem travelCost_nonneg (N : Int) (dg : Int → Int) (hv : ValidMatrix N dg) (i j : Int)
    (hi : 0 ≤ i ∧ i < N) (hj : 0 ≤ j ∧ j < N) : 0 ≤ travelCost N dg i j := by
  by_cases h : i = j
  · subst h; rw [hv.2.1 i hi.1 hi.2]
  · exact le_of_lt (hv.2.2.1 i j hi.1 hi.2 hj.1 hj.2 h)

theorem costFrom_nonneg (N : Int) (dg : Int → Int) (hv : ValidMatrix N dg) (r : List Int) :
    ∀ a : Int, (0 ≤ a ∧ a < N) → (∀ c ∈ r, 0 ≤ c ∧ c < N) → 0 ≤ costFrom N dg a r := by
  induction r with
  | nil => intro a _ _; exact le_refl _
  | cons b r ih =>
    intro a ha hr
    simp only [costFrom]
    have hb := hr b (List.mem_cons_self _ _)
    have h1 := travelCost_nonneg N dg hv a b ha hb
    have h2 := ih b hb (fun c hc => hr c (List.mem_cons_of_mem _ hc))
    omega

theorem mem_citiesUp (N c : Int) : c ∈ citiesUp N ↔ 1 ≤ c ∧ c < N := by
  simp only [citiesUp, List.mem_map, List.mem_range]
  constructor
  · rintro ⟨k, hk, rfl⟩; omega
  · rintro ⟨h1, h2⟩; exact ⟨(c - 1).toNat, by omega, by omega⟩

theorem citiesUp_nodup (N : Int) : (citiesUp N).Nodup := by
  unfold citiesUp
  refine List.Nodup.map ?_ (List.nodup_range _)
  intro a b h
  simp only at h
  omega

theorem citiesUp_length (N : Int) : (citiesUp N).length = (N - 1).toNat := by
  simp [citiesUp]

theorem mem_orderings (N : Int) (o : List Int) : o ∈ orderings N ↔ o.Perm (citiesUp N) := by
  simp only [orderings, List.mem_permutations]

/-- A duplicate-free list of cities in range of full length is an ordering. -/
theorem perm_citiesUp_of_full (N : Int) (r : List Int) (hnd : r.Nodup)
    (hr : ∀ c ∈ r, 1 ≤ c ∧ c < N) (hlen : (N - 1).toNat ≤ r.length) : r.Perm (citiesUp N) := by
  have hsub : r ⊆ citiesUp N := fun c hc => (mem_citiesUp N c).mpr (hr c hc)
  have hsp : r.Subperm (citiesUp N) := List.subperm_of_subset hnd hsub
  exact hsp.perm_of_length_le (by rw [citiesUp_length]; exact hlen)

theorem length_le_of_good (N : Int) (r : List Int) (hnd : r.Nodup)
    (hr : ∀ c ∈ r, 1 ≤ c ∧ c < N) : r.length ≤ (N - 1).toNat := by
  have hsub : r ⊆ citiesUp N := fun c hc => (mem_citiesUp N c).mpr (hr c hc)
  have := (List.subperm_of_subset hnd hsub).length_le
  rwa [citiesUp_length] at this

theorem visitedOf_length (t : Tour) : (visitedOf t).length = (t.count - 1).toNat := by
  simp [visitedOf]

theorem GoodTour.count_le {N : Int} {dg : Int → Int} {t : Tour} (h : GoodTour N dg t) :
    t.count ≤ N ∨ t.count = 1 := by
  have := length_le_of_good N (visitedOf t) h.2.2.1 h.2.2.2.1
  rw [visitedOf_length] at this
  have := h.1
  omega

theorem lastCity_eq (t : Tour) (h1 : 1 ≤ t.count) (h0 : t.cities 0 = 0) :
    t.cities (t.count - 1) = endOf 0 (visitedOf t) := by
  unfold visitedOf
  obtain ⟨n, hn⟩ : ∃ n : Nat, (t.count - 1).toNat = n := ⟨_, rfl⟩
  rw [hn]
  cases n with
  | zero =>
    have : t.count - 1 = 0 := by omega
    rw [this, h0]; rfl
  | succ m =>
    rw [List.range_succ, List.map_append, List.map_cons, List.map_nil, endOf_append]
    congr 1
    omega

theorem mem_visitedOf (t : Tour) (c : Int) :
    c ∈ visitedOf t ↔ ∃ i, 1 ≤ i ∧ i < t.count ∧ t.cities i = c := by
  simp only [visitedOf, List.mem_map, List.mem_range]
  constructor
  · rintro ⟨k, hk, rfl⟩
    exact ⟨(k : Int) + 1, by omega, by omega, rfl⟩
  · rintro ⟨i, h1, h2, rfl⟩
    refine ⟨(i - 1).toNat, by omega, ?_⟩
    congr 1
    omega

/-- With exact sums, `feasible(tour, c)` returns true if and only if `c` occurs at no position
of `[1, count)` of the tour and `tour.cost + cost(last visited city, c) <= best_tour.cost`;
an unvisited city whose extension costs exactly the current bound is feasible. -/
theorem feasible_exact_iff (num_cities : Int) (digraph : Int → Int) (best_tour tour : Tour) (c : Int) :
    (feasible num_cities digraph best_tour tour c = true ↔
      (∀ i, 1 ≤ i → i < tour.count → tour.cities i ≠ c) ∧
      tour.cost + travelCost num_cities digraph (tour.cities (tour.count - 1)) c
        ≤ best_tour.cost) ∧
    ((∀ i, 1 ≤ i → i < tour.count → tour.cities i ≠ c) →
      tour.cost + travelCost num_cities digraph (tour.cities (tour.count - 1)) c
        = best_tour.cost →
      feasible num_cities digraph best_tour tour c = true) := by
  have key : feasible num_cities digraph best_tour tour c = true ↔
      (∀ i, 1 ≤ i → i < tour.count → tour.cities i ≠ c) ∧
      tour.cost + travelCost num_cities digraph (tour.cities (tour.count - 1)) c
        ≤ best_tour.cost := by
    have hv : visited tour c = true ↔ ∃ i, 1 ≤ i ∧ i < tour.count ∧ tour.cities i = c := by
      rw [visited_iff_mem, mem_visitedOf]
    unfold feasible
    by_cases h1 : tour.cost + travelCost num_cities digraph (tour.cities (tour.count - 1)) c
        > best_tour.cost
    · simp only [h1, if_true]
      constructor
      · intro h; cases h
      · rintro ⟨_, h2⟩; omega
    · simp only [h1, if_false]
      by_cases h2 : visited tour c = true
      · simp only [h2, if_true]
        constructor
        · intro h; cases h
        · rintro ⟨h3, _⟩
          obtain ⟨i, hi1, hi2, hi3⟩ := hv.mp h2
          exact absurd hi3 (h3 i hi1 hi2)
      · simp only [h2, if_false]
        refine ⟨fun _ => ⟨?_, by omega⟩, fun _ => rfl⟩
        intro i hi1 hi2 hi3
        exact h2 (hv.mpr ⟨i, hi1, hi2, hi3⟩)
  exact ⟨key, fun h1 h2 => key.mpr ⟨h1, by omega⟩⟩

/-- Claim C10: `removeLastCity` undoes `addCity`.  For a tour with `count < num_cities` whose
cells `[count, num_cities)` hold `NO_CITY`, and every city `c`, `addCity(tour, c)` followed by
`removeLastCity(tour)` leaves the city array, `count` and `cost` as they were (the statement
needs no lower bound on `count`, so it covers `1 <= count`). -/
theorem removeLastCity_addCity (num_cities : Int) (digraph : Int → Int) (tour : Tour) (c : Int)
    (hlt : tour.count < num_cities)
    (hs : ∀ i, tour.count ≤ i → i < num_cities → tour.cities i = NO_CITY) :
    removeLastCity num_cities digraph (addCity num_cities digraph tour c) = tour := by
  obtain ⟨cities, count, cost⟩ := tour
  simp only [removeLastCity, addCity] at *
  have e1 : count + 1 - 2 ≠ count := by omega
  have e2 : count + 1 - 1 = count := by omega
  have e3 : count - 1 ≠ count := by omega
  simp only [e1, e2, e3, if_false, if_true]
  refine congr (congr (congrArg Tour.mk ?_) rfl) (by rw [show count + 1 - 2 = count - 1 by omega]; omega)
  funext i
  by_cases hi : i = count
  · subst hi
    simp only [if_true]
    exact (hs i (le_refl _) hlt).symm
  · simp only [hi, if_false]

/-- With exact sums and a complete candidate, `updateBest` overwrites `best_tour` exactly when
`candidate.cost + cost(last city, 0) < best_tour.cost`, with the candidate's cities followed by
0 and that sum as cost; otherwise it returns `best_tour` as it was. -/
theorem updateBest_exact_frame (num_cities : Int) (digraph : Int → Int) (best_tour candidate : Tour)
    (hN : 1 ≤ num_cities) (hc : candidate.count = num_cities) :
    (candidate.cost + travelCost num_cities digraph (candidate.cities (num_cities - 1)) 0
        < best_tour.cost →
      printedTour num_cities (updateBest num_cities digraph best_tour candidate)
          = pathOf candidate ++ [0] ∧
      (updateBest num_cities digraph best_tour candidate).cost
          = candidate.cost
            + travelCost num_cities digraph (candidate.cities (num_cities - 1)) 0) ∧
    (¬ candidate.cost + travelCost num_cities digraph (candidate.cities (num_cities - 1)) 0
        < best_tour.cost →
      updateBest num_cities digraph best_tour candidate = best_tour) := by
  have e1 : num_cities - 1 ≠ num_cities := by omega
  have e2 : 0 ≤ num_cities - 1 ∧ num_cities - 1 < num_cities := by omega
  constructor
  · intro h
    have hnew : isNewBest num_cities digraph best_tour candidate = true := by
      simp only [isNewBest, hc, decide_eq_true_eq]; exact h
    simp only [updateBest, hnew, if_true, addCity, copyTour, hc, e1, e2, if_false,
      and_self, printedTour, pathOf]
    refine ⟨?_, trivial⟩
    have hn : (num_cities + 1).toNat = num_cities.toNat + 1 := by omega
    rw [hn, List.range_succ, List.map_append]
    congr 1
    · apply List.map_congr_left
      intro i hi
      have hi2 := List.mem_range.mp hi
      have h3 : (i : Int) ≠ num_cities := by omega
      have h4 : 0 ≤ (i : Int) ∧ (i : Int) < num_cities := by omega
      simp only [h3, h4, if_false, and_self, if_true]
    · have h5 : ((num_cities.toNat : Nat) : Int) = num_cities := by omega
      simp only [List.map_cons, List.map_nil, h5, if_true]
  · intro h
    have hnew : isNewBest num_cities digraph best_tour candidate = false := by
      simp only [isNewBest, hc, decide_eq_false_iff_not]; exact h
    simp only [updateBest, hnew]
    rfl

theorem updateBest_cost_le (num_cities : Int) (digraph : Int → Int) (best_tour candidate : Tour)
    (h1 : 1 ≤ candidate.count) (h2 : candidate.count ≤ num_cities) :
    (updateBest num_cities digraph best_tour candidate).cost ≤ best_tour.cost := by
  unfold updateBest
  by_cases h : isNewBest num_cities digraph best_tour candidate = true
  · have h3 := h
    simp only [isNewBest, decide_eq_true_eq] at h3
    have e1 : candidate.count - 1 ≠ candidate.count := by omega
    have e2 : 0 ≤ candidate.count - 1 ∧ candidate.count - 1 < num_cities := by omega
    simp only [h, if_true, addCity, copyTour, e1, e2, if_false, and_self]
    omega
  · simp only [h]; exact le_refl _

theorem searchStep_cost_le (num_cities : Int) (digraph : Int → Int) (uninit : Tour)
    (hN : 1 ≤ num_cities) (s : SearchState) :
    (searchStep num_cities digraph uninit s).best_tour.cost ≤ s.best_tour.cost := by
  unfold searchStep
  rcases hp : pop s.stack with ⟨_ | curr, stack⟩
  · exact le_refl _
  · simp only
    by_cases hc : curr.count = num_cities
    · simp only [hc, if_true]
      by_cases hb : isNewBest num_cities digraph s.best_tour curr = true
      · simp only [hb, if_true]
        exact updateBest_cost_le num_cities digraph s.best_tour curr (by omega) (by omega)
      · simp only [hb]; exact le_refl _
    · simp only [hc, if_false]; exact le_refl _

theorem bestAfter_append (num_cities : Int) (digraph : Int → Int) (uninit best : Tour)
    (steps : List (List Tour × List Tour)) (x : List Tour × List Tour) :
    bestAfter num_cities digraph uninit best (steps ++ [x]) =
      (searchStep num_cities digraph uninit
        { stack := x.1, available_stack := x.2,
          best_tour := bestAfter num_cities digraph uninit best steps }).best_tour := by
  simp only [bestAfter, List.foldl_append, List.foldl_cons, List.foldl_nil]

theorem bestAfter_cost_le (num_cities : Int) (digraph : Int → Int) (uninit : Tour)
    (hN : 1 ≤ num_cities) (steps : List (List Tour × List Tour)) (best : Tour) :
    (bestAfter num_cities digraph uninit best steps).cost ≤ best.cost := by
  induction steps using List.reverseRecOn with
  | nil => exact le_refl _
  | append_singleton steps x ih =>
    rw [bestAfter_append]
    exact le_trans (searchStep_cost_le num_cities digraph uninit hN _) ih

/-- Claim C8: `best_tour.cost` never increases.  `updateBest` with a candidate tour
(`1 <= count <= num_cities`, the range of `count` in the data model) leaves a cost that is at
most the cost before; along every sequence of loop bodies of the tree search, whatever stacks
they run on, each body leaves a cost that is at most the cost before it; and from the initial
`best_tour`, whose cost is `INT_MAX`, the cost stays at most `INT_MAX`. -/
theorem best_cost_never_increases (num_cities : Int) (digraph : Int → Int) (uninit : Tour)
    (hN : 1 ≤ num_cities) :
    (∀ best_tour candidate : Tour, 1 ≤ candidate.count → candidate.count ≤ num_cities →
      (updateBest num_cities digraph best_tour candidate).cost ≤ best_tour.cost) ∧
    (∀ (best : Tour) (steps : List (List Tour × List Tour)) (x : List Tour × List Tour),
      (bestAfter num_cities digraph uninit best (steps ++ [x])).cost
        ≤ (bestAfter num_cities digraph uninit best steps).cost) ∧
    (initialBest num_cities uninit).cost = INT_MAX ∧
    (∀ steps : List (List Tour × List Tour),
      (bestAfter num_cities digraph uninit (initialBest num_cities uninit) steps).cost
        ≤ INT_MAX) := by
  refine ⟨fun b c h1 h2 => updateBest_cost_le num_cities digraph b c h1 h2, ?_, rfl, ?_⟩
  · intro best steps x
    rw [bestAfter_append]
    exact searchStep_cost_le num_cities digraph uninit hN _
  · intro steps
    exact bestAfter_cost_le num_cities digraph uninit hN steps _

theorem tourCount_sum_range (total workers : Int) (h0 : 0 ≤ total) (h1 : 1 ≤ workers) (n : Nat)
    (hn : (n : Int) ≤ workers) :
    ((List.range n).map fun (v : Nat) => tourCount total workers (v : Int)).sum
      = (n : Int) * (total / workers) + min (n : Int) (total % workers) := by
  have hq : Int.tdiv total workers = total / workers := Int.tdiv_eq_ediv h0 (by omega)
  have hr : Int.tmod total workers = total % workers := Int.tmod_eq_emod h0 (by omega)
  induction n with
  | zero =>
    have := Int.emod_nonneg total (show workers ≠ 0 by omega)
    simp only [List.range_zero, List.map_nil, List.sum_nil, Nat.cast_zero, zero_mul, zero_add]
    omega
  | succ n ih =>
    have ih2 := ih (by omega)
    rw [List.range_succ, List.map_append, List.sum_append, ih2]
    simp only [List.map_cons, List.map_nil, List.sum_cons, List.sum_nil, tourCount, hq, hr]
    push_cast
    by_cases hlt : (n : Int) < total % workers
    · simp only [hlt, if_true]
      rw [min_eq_left (by omega), min_eq_left (by omega)]
      ring
    · simp only [hlt, if_false]
      rw [min_eq_right (by omega), min_eq_right (by omega)]
      ring

/-- Claim C5: for `total >= 0` staged branches, `workers >= 1` and `0 <= w < workers`,
`tour_count` is the ceiling of `total / workers` when `w < total mod workers` and the floor
otherwise, and `first_tour` is the sum of the `tour_count` of the workers `0 .. w - 1`. -/
theorem share_formulas (total workers w : Int) (h0 : 0 ≤ total) (h1 : 1 ≤ workers)
    (hw0 : 0 ≤ w) (hw : w < workers) :
    tourCount total workers w
      = (if w < total % workers then ⌈(total : ℚ) / (workers : ℚ)⌉
         else ⌊(total : ℚ) / (workers : ℚ)⌋) ∧
    firstTour total workers w
      = ((List.range w.toNat).map fun (v : Nat) => tourCount total workers (v : Int)).sum := by
  have hq : Int.tdiv total workers = total / workers := Int.tdiv_eq_ediv h0 (by omega)
  have hr : Int.tmod total workers = total % workers := Int.tmod_eq_emod h0 (by omega)
  have hdm : workers * (total / workers) + total % workers = total :=
    Int.ediv_add_emod total workers
  have hr0 : 0 ≤ total % workers := Int.emod_nonneg total (by omega)
  have hr1 : total % workers < workers := Int.emod_lt_of_pos total (by omega)
  have hwq : (0 : ℚ) < (workers : ℚ) := by exact_mod_cast (show (0 : Int) < workers by omega)
  have hdmq : (workers : ℚ) * ((total / workers : Int) : ℚ) + ((total % workers : Int) : ℚ)
      = (total : ℚ) := by exact_mod_cast hdm
  have hr0q : (0 : ℚ) ≤ ((total % workers : Int) : ℚ) := by exact_mod_cast hr0
  have hr1q : ((total % workers : Int) : ℚ) < (workers : ℚ) := by exact_mod_cast hr1
  constructor
  · simp only [tourCount, hq, hr]
    by_cases hlt : w < total % workers
    · simp only [hlt, if_true]
      symm
      rw [Int.ceil_eq_iff]
      have hrpos : (0 : ℚ) < ((total % workers : Int) : ℚ) := by
        exact_mod_cast (show (0 : Int) < total % workers by omega)
      constructor
      · rw [lt_div_iff₀ hwq]
        push_cast
        nlinarith
      · rw [div_le_iff₀ hwq]
        push_cast
        nlinarith
    · simp only [hlt, if_false]
      symm
      rw [Int.floor_eq_iff]
      constructor
      · rw [le_div_iff₀ hwq]
        nlinarith
      · rw [div_lt_iff₀ hwq]
        nlinarith
  · rw [tourCount_sum_range total workers h0 h1 w.toNat (by omega)]
    simp only [firstTour, hq, hr]
    have hwn : ((w.toNat : Nat) : Int) = w := by omega
    rw [hwn]
    by_cases hlt : w < total % workers
    · simp only [hlt, if_true]
      rw [min_eq_left (by omega)]
      ring
    · simp only [hlt, if_false]
      rw [min_eq_right (by omega)]

theorem SameTour.refl (t : Tour) : SameTour t t := ⟨rfl, rfl, fun _ _ _ => rfl⟩

theorem SameTour.visitedOf_eq {t u : Tour} (h : SameTour t u) : visitedOf u = visitedOf t := by
  unfold visitedOf
  rw [h.1]
  apply List.map_congr_left
  intro k hk
  have := List.mem_range.mp hk
  exact h.2.2 _ (by omega) (by omega)

theorem SameTour.last_eq {t u : Tour} (h : SameTour t u) (h1 : 1 ≤ t.count) :
    u.cities (u.count - 1) = t.cities (t.count - 1) := by
  rw [h.1]; exact h.2.2 _ (by omega) (by omega)

theorem SameTour.visited_eq {t u : Tour} (h : SameTour t u) (c : Int) :
    visited u c = visited t c := by
  rw [Bool.eq_iff_iff, visited_iff_mem, visited_iff_mem, h.visitedOf_eq]

theorem SameTour.feasible_eq {t u : Tour} (h : SameTour t u) (h1 : 1 ≤ t.count)
    (N : Int) (dg : Int → Int) (best : Tour) (c : Int) :
    feasible N dg best u c = feasible N dg best t c := by
  unfold feasible
  rw [h.visited_eq, h.last_eq h1, h.2.1]

theorem pushCopy_eq (N : Int) (uninit : Tour) (stack : List Tour) (tour : Tour)
    (avail : List Tour) :
    pushCopy N uninit stack tour avail
      = (copyTour N tour (allocTour uninit avail).1 :: stack, (allocTour uninit avail).2) := by
  cases avail <;> rfl

/-- The copy pushed by `addCity` and `pushCopy` is a child, and `removeLastCity` restores the
parent. -/
theorem spawn_spec (N : Int) (dg : Int → Int) (t u temp : Tour) (c : Int) (hs : SameTour t u)
    (h1 : 1 ≤ t.count) (hlt : t.count < N) :
    IsChild N dg t c (copyTour N (addCity N dg u c) temp) ∧
    SameTour t (removeLastCity N dg (addCity N dg u c)) := by
  obtain ⟨hc, hcost, hcells⟩ := hs
  have e1 : u.count - 1 ≠ u.count := by omega
  have e2 : u.count + 1 - 2 = u.count - 1 := by omega
  have e3 : u.count + 1 - 1 = u.count := by omega
  constructor
  · refine ⟨?_, ?_, ?_, ?_⟩
    · simp only [copyTour, addCity, hc]
    · simp only [copyTour, addCity, e1, if_false, hcost]
      rw [hc, hcells _ (by omega) (by omega)]
    · intro i hi0 hi
      have e4 : 0 ≤ i ∧ i < N := by omega
      have e5 : i ≠ u.count := by omega
      simp only [copyTour, addCity, e4, and_self, if_true, e5, if_false]
      exact hcells i hi0 hi
    · have e4 : 0 ≤ t.count ∧ t.count < N := by omega
      simp only [copyTour, addCity, e4, and_self, if_true, hc]
  · refine ⟨?_, ?_, ?_⟩
    · simp only [removeLastCity, addCity]; omega
    · simp only [removeLastCity, addCity, e1, e2, e3, if_false, if_true]; omega
    · intro i hi0 hi
      have e5 : i ≠ u.count := by omega
      have e6 : i ≠ u.count + 1 - 1 := by omega
      simp only [removeLastCity, addCity, e5, e6, if_false]
      exact hcells i hi0 hi

theorem IsChild.visitedOf_append {N : Int} {dg : Int → Int} {t s : Tour} {c : Int}
    (h : IsChild N dg t c s) (h1 : 1 ≤ t.count) : visitedOf s = visitedOf t ++ [c] := by
  obtain ⟨hc, _, hcells, hlast⟩ := h
  unfold visitedOf
  have e : (s.count - 1).toNat = (t.count - 1).toNat + 1 := by omega
  rw [e, List.range_succ, List.map_append, List.map_cons, List.map_nil]
  congr 1
  · apply List.map_congr_left
    intro k hk
    have := List.mem_range.mp hk
    exact hcells _ (by omega) (by omega)
  · have e2 : (((t.count - 1).toNat : Nat) : Int) + 1 = t.count := by omega
    rw [e2, hlast]

theorem IsChild.good {N : Int} {dg : Int → Int} {t s : Tour} {c : Int}
    (h : IsChild N dg t c s) (hg : GoodTour N dg t) (hc : 1 ≤ c ∧ c < N)
    (hnv : c ∉ visitedOf t) : GoodTour N dg s := by
  have hv := h.visitedOf_append hg.1
  obtain ⟨h1, h0, hnd, hr, hcost⟩ := hg
  refine ⟨by rw [h.1]; omega, ?_, ?_, ?_, ?_⟩
  · rw [h.2.2.1 0 (le_refl _) (by omega)]; exact h0
  · rw [hv]
    exact List.Nodup.append hnd (List.nodup_singleton c) (by
      intro x hx hx2
      rw [List.mem_singleton] at hx2
      subst hx2
      exact hnv hx)
  · intro x hx
    rw [hv, List.mem_append, List.mem_singleton] at hx
    rcases hx with hx | hx
    · exact hr x hx
    · subst hx; exact hc
  · rw [hv, costFrom_append, h.2.1, hcost, lastCity_eq t h1 h0]

theorem searchCity_foldl (N : Int) (dg : Int → Int) (uninit best t : Tour) (h1 : 1 ≤ t.count)
    (hlt : t.count < N) :
    ∀ (cs : List Int) (stack avail : List Tour) (u : Tour), SameTour t u →
      ∃ kids avail2 u2,
        cs.foldl (searchCity N dg uninit best) ((stack, avail), u) = ((kids ++ stack, avail2), u2)
        ∧ SameTour t u2
        ∧ List.Forall₂ (fun c s => IsChild N dg t c s)
            ((cs.filter fun c => feasible N dg best t c).reverse) kids := by
  intro cs
  induction cs with
  | nil =>
    intro stack avail u hs
    exact ⟨[], avail, u, rfl, hs, List.Forall₂.nil⟩
  | cons c cs ih =>
    intro stack avail u hs
    rw [List.foldl_cons]
    by_cases hf : feasible N dg best t c = true
    · have hfu : feasible N dg best u c = true := by rw [hs.feasible_eq h1]; exact hf
      have hstep : searchCity N dg uninit best ((stack, avail), u) c
          = ((copyTour N (addCity N dg u c) (allocTour uninit avail).1 :: stack,
              (allocTour uninit avail).2), removeLastCity N dg (addCity N dg u c)) := by
        simp only [searchCity, hfu, if_true, pushCopy_eq]
      rw [hstep]
      obtain ⟨hchild, hsame⟩ := spawn_spec N dg t u (allocTour uninit avail).1 c hs h1 hlt
      obtain ⟨kids, avail2, u2, hfold, hs2, hall⟩ := ih _ (allocTour uninit avail).2 _ hsame
      refine ⟨kids ++ [copyTour N (addCity N dg u c) (allocTour uninit avail).1], avail2, u2,
        ?_, hs2, ?_⟩
      · rw [hfold]; simp
      · rw [List.filter_cons_of_pos (by simpa using hf), List.reverse_cons]
        exact List.rel_append hall (List.Forall₂.cons hchild List.Forall₂.nil)
    · have hfu : ¬ feasible N dg best u c = true := by rw [hs.feasible_eq h1]; exact hf
      have hstep : searchCity N dg uninit best ((stack, avail), u) c = ((stack, avail), u) := by
        simp only [searchCity, hfu, if_false]
        rfl
      rw [hstep]
      obtain ⟨kids, avail2, u2, hfold, hs2, hall⟩ := ih stack avail u hs
      refine ⟨kids, avail2, u2, hfold, hs2, ?_⟩
      rw [List.filter_cons_of_neg (by simpa using hf)]
      exact hall

theorem searchWeight_pos (N : Int) (m : Nat) : 1 ≤ searchWeight N m := by
  cases m <;> simp [searchWeight]

theorem stackWeight_cons (N : Int) (t : Tour) (stack : List Tour) :
    stackWeight N (t :: stack) = searchWeight N (N - t.count).toNat + stackWeight N stack := by
  simp [stackWeight]

theorem stackWeight_append (N : Int) (l1 l2 : List Tour) :
    stackWeight N (l1 ++ l2) = stackWeight N l1 + stackWeight N l2 := by
  simp [stackWeight]

theorem stackWeight_kids (N : Int) (k : Int) (kids : List Tour)
    (h : ∀ s ∈ kids, s.count = k) :
    stackWeight N kids = kids.length * searchWeight N (N - k).toNat := by
  induction kids with
  | nil => simp [stackWeight]
  | cons s kids ih =>
    rw [stackWeight_cons, ih (fun x hx => h x (List.mem_cons_of_mem _ hx)),
      h s (List.mem_cons_self _ _), List.length_cons]
    ring

theorem forall₂_length_mem {α β : Type} {R : α → β → Prop} {l1 : List α} {l2 : List β}
    (h : List.Forall₂ R l1 l2) :
    l1.length = l2.length ∧ (∀ b ∈ l2, ∃ a ∈ l1, R a b) ∧ (∀ a ∈ l1, ∃ b ∈ l2, R a b) := by
  induction h with
  | nil => simp
  | cons hab _ ih =>
    obtain ⟨h1, h2, h3⟩ := ih
    refine ⟨by simp [h1], ?_, ?_⟩
    · intro b hb
      rcases List.mem_cons.mp hb with rfl | hb
      · exact ⟨_, List.mem_cons_self _ _, hab⟩
      · obtain ⟨a, ha, hr⟩ := h2 b hb
        exact ⟨a, List.mem_cons_of_mem _ ha, hr⟩
    · intro a ha
      rcases List.mem_cons.mp ha with rfl | ha
      · exact ⟨_, List.mem_cons_self _ _, hab⟩
      · obtain ⟨b, hb, hr⟩ := h3 a ha
        exact ⟨b, List.mem_cons_of_mem _ hb, hr⟩

theorem mem_citiesDown (N c : Int) : c ∈ citiesDown N ↔ 1 ≤ c ∧ c < N := by
  simp only [citiesDown, List.mem_reverse, mem_citiesUp]

/-- The loop body of the tree search on a complete tour. -/
theorem searchStep_complete (N : Int) (dg : Int → Int) (uninit : Tour) (s : SearchState)
    (t : Tour) (rest : List Tour) (hst : s.stack = t :: rest) (hc : t.count = N) :
    (searchStep N dg uninit s).stack = rest ∧
    (searchStep N dg uninit s).best_tour = updateBest N dg s.best_tour t := by
  unfold searchStep
  rw [hst]
  simp only [pop, hc, if_true]
  refine ⟨trivial, ?_⟩
  by_cases hb : isNewBest N dg s.best_tour t = true
  · simp only [hb, if_true]
  · simp only [hb, if_false, updateBest]
    rfl

/-- The loop body of the tree search on an incomplete tour. -/
theorem searchStep_expand (N : Int) (dg : Int → Int) (uninit : Tour) (s : SearchState)
    (t : Tour) (rest : List Tour) (hst : s.stack = t :: rest) (h1 : 1 ≤ t.count)
    (hlt : t.count < N) :
    ∃ kids, (searchStep N dg uninit s).stack = kids ++ rest ∧
      (searchStep N dg uninit s).best_tour = s.best_tour ∧
      List.Forall₂ (fun c k => IsChild N dg t c k)
        (((citiesDown N).filter fun c => feasible N dg s.best_tour t c).reverse) kids := by
  obtain ⟨kids, avail2, u2, hfold, _, hall⟩ :=
    searchCity_foldl N dg uninit s.best_tour t h1 hlt (citiesDown N) rest s.available_stack t
      (SameTour.refl t)
  refine ⟨kids, ?_, ?_, hall⟩
  · unfold searchStep
    rw [hst]
    have hne : ¬ t.count = N := by omega
    simp only [pop, hne, if_false, hfold]
  · unfold searchStep
    rw [hst]
    have hne : ¬ t.count = N := by omega
    simp only [pop, hne, if_false]

theorem pathOf_eq (t : Tour) (h1 : 1 ≤ t.count) : pathOf t = t.cities 0 :: visitedOf t := by
  unfold pathOf visitedOf
  have e : t.count.toNat = (t.count - 1).toNat + 1 := by omega
  rw [e, List.range_succ_eq_map, List.map_cons, List.map_map]
  congr 1

theorem cycleCost_eq (N : Int) (dg : Int → Int) (o : List Int) :
    cycleCost N dg o = costFrom N dg 0 o + travelCost N dg (endOf 0 o) 0 := by
  simp only [cycleCost, pathCost, costFrom_append]

theorem cycleCost_ge (N : Int) (dg : Int → Int) (hv : ValidMatrix N dg) (o r rest : List Int)
    (c : Int) (ho : o.Perm (citiesUp N)) (hsplit : o = r ++ c :: rest) :
    costFrom N dg 0 (r ++ [c]) ≤ cycleCost N dg o := by
  have hN := hv.1
  have hin : ∀ x ∈ o, 1 ≤ x ∧ x < N := fun x hx => (mem_citiesUp N x).mp (ho.subset hx)
  have hc : 1 ≤ c ∧ c < N := hin c (by rw [hsplit]; simp)
  have e : o ++ [0] = (r ++ [c]) ++ (rest ++ [0]) := by rw [hsplit]; simp
  simp only [cycleCost, pathCost]
  rw [e, costFrom_append_list N dg (r ++ [c]) 0 (rest ++ [0]), endOf_append]
  have := costFrom_nonneg N dg hv (rest ++ [0]) c ⟨by omega, hc.2⟩ (by
    intro x hx
    rw [List.mem_append, List.mem_singleton] at hx
    rcases hx with hx | hx
    · have := hin x (by rw [hsplit]; simp [hx])
      omega
    · subst hx; omega)
  omega

/-- Effect of `updateBest` for a complete tour that satisfies the tour invariant. -/
theorem updateBest_good (N : Int) (dg : Int → Int) (hN : 1 ≤ N) (b t : Tour)
    (hg : GoodTour N dg t) (hc : t.count = N) :
    (updateBest N dg b t).cost ≤ b.cost ∧
    (updateBest N dg b t).cost ≤ cycleCost N dg (visitedOf t) ∧
    (updateBest N dg b t = b ∨ IsCycleRecord N dg (visitedOf t) (updateBest N dg b t)) := by
  obtain ⟨h1, h0, hnd, hr, hcost⟩ := hg
  have hcyc : cycleCost N dg (visitedOf t) = t.cost + travelCost N dg (t.cities (t.count - 1)) 0 := by
    rw [cycleCost_eq, hcost, lastCity_eq t h1 h0]
  have e1 : t.count - 1 ≠ t.count := by omega
  have e2 : 0 ≤ t.count - 1 ∧ t.count - 1 < N := by omega
  by_cases hnew : isNewBest N dg b t = true
  · have hlt := hnew
    simp only [isNewBest, decide_eq_true_eq] at hlt
    have hub : updateBest N dg b t = addCity N dg (copyTour N t b) 0 := by
      simp only [updateBest, hnew, if_true]
    have hcost2 : (updateBest N dg b t).cost = t.cost + travelCost N dg (t.cities (t.count - 1)) 0 := by
      rw [hub]
      simp only [addCity, copyTour, e1, e2, if_false, and_self, if_true]
    refine ⟨by omega, by omega, Or.inr ⟨?_, by omega, ?_⟩⟩
    · rw [hub]; simp only [addCity, copyTour]; omega
    · rw [hub]
      have hn : (N + 1).toNat = N.toNat + 1 := by omega
      have hp := pathOf_eq t h1
      rw [h0] at hp
      rw [← List.cons_append, ← hp]
      simp only [printedTour, pathOf, hn]
      rw [List.range_succ, List.map_append, hc]
      congr 1
      · apply List.map_congr_left
        intro i hi
        have hi2 := List.mem_range.mp hi
        have h3 : (i : Int) ≠ N := by omega
        have h4 : 0 ≤ (i : Int) ∧ (i : Int) < N := by omega
        simp only [addCity, copyTour, hc, h3, h4, if_false, and_self, if_true]
      · have h5 : ((N.toNat : Nat) : Int) = N := by omega
        simp only [List.map_cons, List.map_nil, addCity, copyTour, hc, h5, if_true]
  · have hub : updateBest N dg b t = b := by
      simp only [updateBest, hnew]
      rfl
    simp only [isNewBest, decide_eq_true_eq] at hnew
    rw [hub]
    exact ⟨le_refl _, by omega, Or.inl rfl⟩

theorem searchLoop_nil (N : Int) (dg : Int → Int) (uninit : Tour) (fuel : Nat) (s : SearchState)
    (h : s.stack = []) : searchLoop N dg uninit fuel s = .ok s := by
  cases fuel <;> simp [searchLoop, h]

theorem searchLoop_cons (N : Int) (dg : Int → Int) (uninit : Tour) (fuel : Nat) (s : SearchState)
    (t : Tour) (rest : List Tour) (h : s.stack = t :: rest) :
    searchLoop N dg uninit (fuel + 1) s = searchLoop N dg uninit fuel (searchStep N dg uninit s) := by
  simp [searchLoop, h]

/-- A prefix of an ordering that is shorter than the ordering has a next city. -/
theorem prefix_next {r o : List Int} (hp : r <+: o) (hlen : r.length < o.length) :
    ∃ c rest, o = r ++ c :: rest := by
  obtain ⟨tl, rfl⟩ := hp
  cases tl with
  | nil => simp at hlen
  | cons c rest => exact ⟨c, rest, rfl⟩

theorem searchLoop_spec (N : Int) (dg : Int → Int) (uninit : Tour) (hv : ValidMatrix N dg) :
    ∀ (fuel : Nat) (s : SearchState), (∀ t ∈ s.stack, GoodTour N dg t) →
      stackWeight N s.stack ≤ fuel →
      ∃ s2, searchLoop N dg uninit fuel s = .ok s2 ∧ s2.stack = [] ∧
        SearchPost N dg s.stack s.best_tour s2.best_tour := by
  have hN := hv.1
  intro fuel
  induction fuel with
  | zero =>
    intro s _ hw
    have hst : s.stack = [] := by
      cases hs : s.stack with
      | nil => rfl
      | cons t rest =>
        rw [hs, stackWeight_cons] at hw
        have := searchWeight_pos N (N - t.count).toNat
        omega
    refine ⟨s, searchLoop_nil N dg uninit 0 s hst, hst, le_refl _, ?_, Or.inl rfl⟩
    intro x hx
    rw [hst] at hx
    cases hx
  | succ fuel ih =>
    intro s hgood hw
    cases hst : s.stack with
    | nil =>
      refine ⟨s, searchLoop_nil N dg uninit _ s hst, hst, le_refl _, ?_, Or.inl rfl⟩
      intro x hx
      cases hx
    | cons t rest =>
      rw [searchLoop_cons N dg uninit fuel s t rest hst]
      rw [hst] at hgood hw
      have hgt := hgood t (List.mem_cons_self _ _)
      have hgrest : ∀ x ∈ rest, GoodTour N dg x := fun x hx => hgood x (List.mem_cons_of_mem _ hx)
      have hcle : t.count ≤ N := by
        rcases hgt.count_le with h | h <;> omega
      rw [stackWeight_cons] at hw
      by_cases hc : t.count = N
      · -- complete tour
        obtain ⟨hs1, hs2⟩ := searchStep_complete N dg uninit s t rest hst hc
        have hpos := searchWeight_pos N (N - t.count).toNat
        obtain ⟨s2, hrun, hemp, hle, hall, hex⟩ := ih (searchStep N dg uninit s)
          (by rw [hs1]; exact hgrest) (by rw [hs1]; omega)
        rw [hs1] at hall hex
        rw [hs2] at hle hex
        obtain ⟨hu1, hu2, hu3⟩ := updateBest_good N dg hN s.best_tour t hgt hc
        refine ⟨s2, hrun, hemp, le_trans hle hu1, ?_, ?_⟩
        · intro x hx o ho hp
          rcases List.mem_cons.mp hx with rfl | hx
          · have hlen : (visitedOf x).length = o.length := by
              rw [visitedOf_length, ho.length_eq, citiesUp_length, hc]
            have : visitedOf x = o := hp.eq_of_length hlen
            rw [← this]
            exact le_trans hle hu2
          · exact hall x hx o ho hp
        · rcases hex with h | ⟨x, hx, o, ho, hp, hrec⟩
          · rcases hu3 with h3 | h3
            · left; rw [h, h3]
            · right
              refine ⟨t, List.mem_cons_self _ _, visitedOf t, ?_, List.prefix_refl _, ?_⟩
              · exact perm_citiesUp_of_full N _ hgt.2.2.1 hgt.2.2.2.1
                  (by rw [visitedOf_length, hc])
              · rw [h]; exact h3
          · exact Or.inr ⟨x, List.mem_cons_of_mem _ hx, o, ho, hp, hrec⟩
      · -- incomplete tour
        have hlt : t.count < N := by omega
        obtain ⟨kids, hs1, hs2, hkids⟩ :=
          searchStep_expand N dg uninit s t rest hst hgt.1 hlt
        obtain ⟨hklen, hk1, hk2⟩ := forall₂_length_mem hkids
        have hkid : ∀ k ∈ kids, ∃ c, (1 ≤ c ∧ c < N) ∧ c ∉ visitedOf t ∧ IsChild N dg t c k := by
          intro k hk
          obtain ⟨c, hcmem, hch⟩ := hk1 k hk
          rw [List.mem_reverse, List.mem_filter] at hcmem
          refine ⟨c, (mem_citiesDown N c).mp hcmem.1, ?_, hch⟩
          intro hvis
          have hf := hcmem.2
          simp only [feasible] at hf
          rw [(visited_iff_mem t c).mpr hvis] at hf
          split at hf <;> simp at hf
        have hkgood : ∀ k ∈ kids, GoodTour N dg k := by
          intro k hk
          obtain ⟨c, hcr, hnv, hch⟩ := hkid k hk
          exact hch.good hgt hcr hnv
        have hkw : stackWeight N kids ≤ (N - 1).toNat * searchWeight N (N - (t.count + 1)).toNat := by
          rw [stackWeight_kids N (t.count + 1) kids (by
            intro k hk
            obtain ⟨c, _, _, hch⟩ := hkid k hk
            exact hch.1)]
          apply Nat.mul_le_mul_right
          rw [← hklen, List.length_reverse]
          refine le_trans (List.length_filter_le _ _) ?_
          simp [citiesDown, citiesUp]
        have hwt : searchWeight N (N - t.count).toNat
            = 1 + (N - 1).toNat * searchWeight N (N - (t.count + 1)).toNat := by
          have e : (N - t.count).toNat = (N - (t.count + 1)).toNat + 1 := by omega
          rw [e]; rfl
        obtain ⟨s2, hrun, hemp, hle, hall, hex⟩ := ih (searchStep N dg uninit s)
          (by
            rw [hs1]
            intro x hx
            rcases List.mem_append.mp hx with hx | hx
            · exact hkgood x hx
            · exact hgrest x hx)
          (by rw [hs1, stackWeight_append]; omega)
        rw [hs1] at hall hex
        rw [hs2] at hle hex
        refine ⟨s2, hrun, hemp, hle, ?_, ?_⟩
        · intro x hx o ho hp
          rcases List.mem_cons.mp hx with rfl | hx
          · have hlen : (visitedOf x).length < o.length := by
              rw [visitedOf_length, ho.length_eq, citiesUp_length]
              have := hgt.1
              omega
            obtain ⟨c, tl, hsplit⟩ := prefix_next hp hlen
            have hcin : c ∈ o := by rw [hsplit]; simp
            have hcr : 1 ≤ c ∧ c < N := (mem_citiesUp N c).mp (ho.subset hcin)
            have hond : o.Nodup := ho.nodup_iff.mpr (citiesUp_nodup N)
            have hnv : c ∉ visitedOf x := by
              intro hmem
              rw [hsplit] at hond
              have := (List.nodup_append.mp hond).2.2
              exact this hmem (List.mem_cons_self _ _)
            have hge := cycleCost_ge N dg hv o (visitedOf x) tl c ho hsplit
            rw [costFrom_append, ← hgt.2.2.2.2, ← lastCity_eq x hgt.1 hgt.2.1] at hge
            by_cases hf : feasible N dg s.best_tour x c = true
            · obtain ⟨k, hk, hch⟩ := hk2 c (by
                rw [List.mem_reverse, List.mem_filter]
                exact ⟨(mem_citiesDown N c).mpr hcr, hf⟩)
              refine hall k (List.mem_append_left _ hk) o ho ?_
              rw [hch.visitedOf_append hgt.1, hsplit]
              exact ⟨tl, by simp⟩
            · have hgt2 : x.cost + travelCost N dg (x.cities (x.count - 1)) c
                  > s.best_tour.cost := by
                by_contra hcon
                apply hf
                simp only [feasible, hcon, if_false]
                have : visited x c = false := by
                  rw [Bool.eq_false_iff]
                  intro h
                  exact hnv ((visited_iff_mem x c).mp h)
                simp [this]
              omega
          · exact hall x (List.mem_append_right _ hx) o ho hp
        · rcases hex with h | ⟨x, hx, o, ho, hp, hrec⟩
          · exact Or.inl h
          · right
            rcases List.mem_append.mp hx with hx | hx
            · obtain ⟨c, _, _, hch⟩ := hkid x hx
              refine ⟨t, List.mem_cons_self _ _, o, ho, ?_, hrec⟩
              rw [hch.visitedOf_append hgt.1] at hp
              exact List.IsPrefix.trans (List.prefix_append _ _) hp
            · exact ⟨x, List.mem_cons_of_mem _ hx, o, ho, hp, hrec⟩

theorem partitionCity_foldl (N : Int) (dg : Int → Int) (uninit t : Tour) (h1 : 1 ≤ t.count) :
    ∀ (cs : List Int) (p : PartState) (u : Tour), SameTour t u →
      (∀ c ∈ cs, visited t c = false → t.count < N) →
      ∃ kids avail2 u2,
        cs.foldl (partitionCity N dg uninit) (p, u)
          = ({ initial_partition_stack := kids ++ p.initial_partition_stack
               available_stack := avail2
               current_size := p.current_size + (kids.length : Int) }, u2)
        ∧ SameTour t u2
        ∧ List.Forall₂ (fun c s => IsChild N dg t c s)
            ((cs.filter fun c => !visited t c).reverse) kids := by
  intro cs
  induction cs with
  | nil =>
    intro p u hs _
    exact ⟨[], p.available_stack, u, by simp, hs, List.Forall₂.nil⟩
  | cons c cs ih =>
    intro p u hs hlt
    rw [List.foldl_cons]
    have hlt2 : ∀ c ∈ cs, visited t c = false → t.count < N :=
      fun x hx => hlt x (List.mem_cons_of_mem _ hx)
    by_cases hf : visited t c = true
    · have hfu : visited u c = true := by rw [hs.visited_eq]; exact hf
      have hstep : partitionCity N dg uninit (p, u) c = (p, u) := by
        simp only [partitionCity, hfu, Bool.not_true]
        rfl
      rw [hstep]
      obtain ⟨kids, avail2, u2, hfold, hs2, hall⟩ := ih p u hs hlt2
      refine ⟨kids, avail2, u2, hfold, hs2, ?_⟩
      rw [List.filter_cons_of_neg (by simp [hf])]
      exact hall
    · have hf2 : visited t c = false := by simpa using hf
      have hfu : visited u c = false := by rw [hs.visited_eq]; exact hf2
      have hltc := hlt c (List.mem_cons_self _ _) hf2
      have hstep : partitionCity N dg uninit (p, u) c
          = ({ initial_partition_stack :=
                 copyTour N (addCity N dg u c) (allocTour uninit p.available_stack).1
                   :: p.initial_partition_stack
               available_stack := (allocTour uninit p.available_stack).2
               current_size := p.current_size + 1 },
             removeLastCity N dg (addCity N dg u c)) := by
        simp only [partitionCity, hfu, Bool.not_false, if_true, pushCopy_eq]
      rw [hstep]
      obtain ⟨hchild, hsame⟩ :=
        spawn_spec N dg t u (allocTour uninit p.available_stack).1 c hs h1 hltc
      obtain ⟨kids, avail2, u2, hfold, hs2, hall⟩ := ih _ _ hsame hlt2
      refine ⟨kids ++ [copyTour N (addCity N dg u c) (allocTour uninit p.available_stack).1],
        avail2, u2, ?_, hs2, ?_⟩
      · rw [hfold]
        simp only [List.append_assoc, List.singleton_append, List.length_append,
          List.length_singleton, Nat.cast_add, Nat.cast_one]
        congr 2
        ring
      · rw [List.filter_cons_of_pos (by simp [hf2]), List.reverse_cons]
        exact List.rel_append hall (List.Forall₂.cons hchild List.Forall₂.nil)

theorem forall₂_map_right {α β γ : Type} {R : α → γ → Prop} {f : β → γ} {l1 : List α}
    {l2 : List β} (h : List.Forall₂ (fun a b => R a (f b)) l1 l2) :
    List.Forall₂ R l1 (l2.map f) := by
  induction h with
  | nil => exact List.Forall₂.nil
  | cons hab _ ih => exact List.Forall₂.cons hab ih

theorem forall₂_flip_imp {α β : Type} {R : α → β → Prop} {S : β → α → Prop} {l1 : List α}
    {l2 : List β} (h : List.Forall₂ R l1 l2) (himp : ∀ a b, a ∈ l1 → R a b → S b a) :
    List.Forall₂ S l2 l1 := by
  induction h with
  | nil => exact List.Forall₂.nil
  | cons hab _ ih =>
    exact List.Forall₂.cons (himp _ _ (List.mem_cons_self _ _) hab)
      (ih (fun a b ha hr => himp a b (List.mem_cons_of_mem _ ha) hr))

/-- The loop body of the partition phase, on the visited lists. -/
theorem partitionStep_stack (N : Int) (dg : Int → Int) (uninit : Tour) (p : PartState)
    (r : List Int) (rest : List (List Int))
    (hall : StackRep N dg p.initial_partition_stack (r :: rest)) :
    ∃ p2, partitionStep N dg uninit p = .ok p2 ∧
      StackRep N dg p2.initial_partition_stack (absExpand N r ++ rest) ∧
      p2.current_size = p.current_size - 1 + ((absExpand N r).length : Int) := by
  unfold StackRep at hall ⊢
  cases hst : p.initial_partition_stack with
  | nil => rw [hst] at hall; cases hall
  | cons t stack =>
    rw [hst] at hall
    obtain ⟨⟨hgt, hvt⟩, hrest⟩ := List.forall₂_cons.mp hall
    have hltc : ∀ c ∈ citiesUp N, visited t c = false → t.count < N := by
      intro c hc hv
      have hcr := (mem_citiesUp N c).mp hc
      have hnv : c ∉ visitedOf t := by
        intro hmem
        rw [(visited_iff_mem t c).mpr hmem] at hv
        cases hv
      have hlen := length_le_of_good N (c :: visitedOf t)
        (List.nodup_cons.mpr ⟨hnv, hgt.2.2.1⟩) (by
          intro x hx
          rcases List.mem_cons.mp hx with rfl | hx
          · exact hcr
          · exact hgt.2.2.2.1 x hx)
      rw [List.length_cons, visitedOf_length] at hlen
      have := hgt.1
      omega
    obtain ⟨kids, avail2, u2, hfold, _, hkids⟩ :=
      partitionCity_foldl N dg uninit t hgt.1 (citiesUp N)
        { initial_partition_stack := stack
          available_stack := p.available_stack
          current_size := p.current_size - 1 } t (SameTour.refl t) hltc
    have hfil : ((citiesUp N).filter fun c => decide (c ∉ r))
        = (citiesUp N).filter fun c => !visited t c := by
      apply List.filter_congr
      intro c _
      rw [← hvt]
      by_cases h : visited t c = true
      · have := (visited_iff_mem t c).mp h
        simp [h, this]
      · have h2 : c ∉ visitedOf t := fun hm => h ((visited_iff_mem t c).mpr hm)
        simp [h, h2]
    refine ⟨{ initial_partition_stack := kids ++ stack
              available_stack := push avail2 u2
              current_size := p.current_size - 1 + (kids.length : Int) }, ?_, ?_, ?_⟩
    · simp only [partitionStep, hst, pop, hfold]
    · apply List.rel_append _ hrest
      unfold absExpand
      apply forall₂_map_right
      rw [hfil]
      refine forall₂_flip_imp hkids ?_
      intro c k hc hch
      rw [List.mem_reverse, List.mem_filter] at hc
      have hnv : c ∉ visitedOf t := by
        intro hm
        have := (visited_iff_mem t c).mpr hm
        simp [this] at hc
      exact ⟨hch.good hgt ((mem_citiesUp N c).mp hc.1) hnv, by rw [hch.visitedOf_append hgt.1, hvt]⟩
    · have hlen := (forall₂_length_mem hkids).1
      have hlen2 : (absExpand N r).length = kids.length := by
        unfold absExpand
        rw [List.length_map, ← hlen, hfil]
      rw [hlen2]

theorem partitionStep_spec (N : Int) (dg : Int → Int) (uninit : Tour) (p : PartState)
    (r : List Int) (rest : List (List Int)) (hrep : PartRep N dg p (r :: rest)) :
    ∃ p2, partitionStep N dg uninit p = .ok p2 ∧ PartRep N dg p2 (absExpand N r ++ rest) := by
  obtain ⟨p2, hstep, hstack, hsize⟩ := partitionStep_stack N dg uninit p r rest hrep.1
  refine ⟨p2, hstep, hstack, ?_⟩
  have := hrep.2
  simp only [List.length_append, List.length_cons, Nat.cast_add, Nat.cast_succ] at this ⊢
  omega

theorem partitionStep_nil (N : Int) (dg : Int → Int) (uninit : Tour) (p : PartState)
    (hrep : PartRep N dg p []) : partitionStep N dg uninit p = .error .nullDeref := by
  obtain ⟨hall, _⟩ := hrep
  unfold StackRep at hall
  cases hst : p.initial_partition_stack with
  | nil => simp only [partitionStep, hst, pop]
  | cons t stack => rw [hst] at hall; cases hall

/-- The partition loop follows the loop on the visited lists. -/
theorem partitionLoop_sim (N : Int) (dg : Int → Int) (uninit : Tour) (w : Int) :
    ∀ (fuel : Nat) (p : PartState) (staged : List (List Int)), PartRep N dg p staged →
      match absPartitionLoop N w fuel staged with
      | .ok staged2 =>
        ∃ p2, partitionLoop N dg uninit w fuel p = .ok p2 ∧ PartRep N dg p2 staged2
      | .error e => partitionLoop N dg uninit w fuel p = .error e := by
  intro fuel
  induction fuel with
  | zero =>
    intro p staged hrep
    have hsz := hrep.2
    by_cases h : (staged.length : Int) < w
    · have h2 : p.current_size < w := by omega
      simp only [absPartitionLoop, h, if_true, partitionLoop, h2]
    · have h2 : ¬ p.current_size < w := by omega
      simp only [absPartitionLoop, h, if_false, partitionLoop, h2]
      exact ⟨p, rfl, hrep⟩
  | succ fuel ih =>
    intro p staged hrep
    have hsz := hrep.2
    by_cases h : (staged.length : Int) < w
    · have h2 : p.current_size < w := by omega
      cases staged with
      | nil =>
        simp only [absPartitionLoop, h, if_true, partitionLoop, h2,
          partitionStep_nil N dg uninit p hrep]
      | cons r rest =>
        obtain ⟨p2, hstep, hrep2⟩ := partitionStep_spec N dg uninit p r rest hrep
        simp only [absPartitionLoop, h, if_true, partitionLoop, h2, hstep]
        exact ih p2 _ hrep2
    · have h2 : ¬ p.current_size < w := by omega
      simp only [absPartitionLoop, h, if_false, partitionLoop, h2]
      exact ⟨p, rfl, hrep⟩

theorem drainLoop_spec : ∀ (n : Nat) (shared stack : List Tour), n ≤ shared.length →
    drainLoop n shared stack = .ok (shared.drop n, (shared.take n).reverse ++ stack) := by
  intro n
  induction n with
  | zero => intro shared stack _; simp [drainLoop]
  | succ n ih =>
    intro shared stack h
    cases shared with
    | nil => simp at h
    | cons x shared =>
      simp only [drainLoop, pop, push]
      rw [ih shared (x :: stack) (by simpa using h)]
      simp

theorem drain_rounds (size w t : Int) :
    lastTour size w t - firstTour size w t + 1 = tourCount size w t := by
  unfold lastTour; ring

theorem drainThread_spec (size w : Int) (r : RunState) (t : Nat)
    (h : (tourCount size w (t : Int)).toNat ≤ r.shared.length) :
    drainThread size w r t = .ok
      { r with
        shared := r.shared.drop (tourCount size w (t : Int)).toNat
        thread_stack := fun u =>
          if u = t then (r.shared.take (tourCount size w (t : Int)).toNat).reverse
            ++ r.thread_stack t
          else r.thread_stack u } := by
  simp only [drainThread, drain, drain_rounds, drainLoop_spec _ _ _ h]

theorem drain_all (size w : Int) : ∀ (order : List Nat) (r : RunState),
    drainNeed size w order ≤ r.shared.length →
    ∃ r2, runThreads (drainThread size w) order r = .ok r2 ∧
      r2.shared = r.shared.drop (drainNeed size w order) ∧
      r2.best_tour = r.best_tour ∧ r2.thread_avail = r.thread_avail ∧
      (∀ t, ∀ x ∈ r2.thread_stack t,
        x ∈ r.thread_stack t ∨ x ∈ r.shared.take (drainNeed size w order)) ∧
      (∀ x ∈ r.shared.take (drainNeed size w order), ∃ t ∈ order, x ∈ r2.thread_stack t) ∧
      (∀ t, ∀ x ∈ r.thread_stack t, x ∈ r2.thread_stack t) ∧
      (∀ t, (r2.thread_stack t).length
        ≤ (r.thread_stack t).length + drainNeed size w order) := by
  intro order
  induction order with
  | nil =>
    intro r _
    refine ⟨r, rfl, by simp [drainNeed], rfl, rfl, fun t x hx => Or.inl hx, ?_,
      fun t x hx => hx, fun t => by simp⟩
    intro x hx
    simp [drainNeed] at hx
  | cons t order ih =>
    intro r hneed
    have hsplit : drainNeed size w (t :: order)
        = (tourCount size w (t : Int)).toNat + drainNeed size w order := by
      simp [drainNeed]
    rw [hsplit] at hneed ⊢
    have hstep := drainThread_spec size w r t (by omega)
    obtain ⟨r2, hrun, hsh, hb, ha, hsub, hcov, hmono, hlen⟩ := ih
      { r with
        shared := r.shared.drop (tourCount size w (t : Int)).toNat
        thread_stack := fun u =>
          if u = t then (r.shared.take (tourCount size w (t : Int)).toNat).reverse
            ++ r.thread_stack t
          else r.thread_stack u } (by simp only [List.length_drop]; omega)
    simp only at hsh hb ha hsub hcov hmono hlen
    refine ⟨r2, ?_, ?_, hb, ha, ?_, ?_, ?_, ?_⟩
    · simp only [runThreads, hstep, hrun]
    · rw [hsh, List.drop_drop, Nat.add_comm]
    · intro u x hx
      rw [List.take_add]
      rcases hsub u x hx with h | h
      · by_cases hu : u = t
        · subst hu
          simp only [if_true, List.mem_append, List.mem_reverse] at h
          rcases h with h | h
          · exact Or.inr (List.mem_append_left _ h)
          · exact Or.inl h
        · simp only [hu, if_false] at h
          exact Or.inl h
      · exact Or.inr (List.mem_append_right _ h)
    · intro x hx
      rw [List.take_add, List.mem_append] at hx
      rcases hx with hx | hx
      · refine ⟨t, List.mem_cons_self _ _, hmono t x ?_⟩
        simp only [if_true, List.mem_append, List.mem_reverse]
        exact Or.inl hx
      · obtain ⟨u, hu, hxu⟩ := hcov x hx
        exact ⟨u, List.mem_cons_of_mem _ hu, hxu⟩
    · intro u x hx
      apply hmono u x
      by_cases hu : u = t
      · subst hu
        simp only [if_true, List.mem_append]
        exact Or.inr hx
      · simp only [hu, if_false]
        exact hx
    · intro u
      have := hlen u
      by_cases hu : u = t
      · subst hu
        simp only [if_true, List.length_append, List.length_reverse, List.length_take] at this
        omega
      · simp only [hu, if_false] at this
        omega

theorem search_all (N : Int) (dg : Int → Int) (uninit : Tour) (hv : ValidMatrix N dg)
    (fuel : Nat) : ∀ (order : List Nat) (r : RunState),
    (∀ t, ∀ x ∈ r.thread_stack t, GoodTour N dg x) →
    (∀ t ∈ order, stackWeight N (r.thread_stack t) ≤ fuel) →
    ∃ r2, runThreads (searchThread N dg uninit fuel) order r = .ok r2 ∧
      r2.best_tour.cost ≤ r.best_tour.cost ∧
      (∀ t ∈ order, ∀ x ∈ r.thread_stack t, ∀ o, o.Perm (citiesUp N) → visitedOf x <+: o →
        r2.best_tour.cost ≤ cycleCost N dg o) ∧
      (r2.best_tour = r.best_tour ∨ ∃ t ∈ order, ∃ x ∈ r.thread_stack t, ∃ o,
        o.Perm (citiesUp N) ∧ visitedOf x <+: o ∧ IsCycleRecord N dg o r2.best_tour) := by
  intro order
  induction order with
  | nil =>
    intro r _ _
    refine ⟨r, rfl, le_refl _, ?_, Or.inl rfl⟩
    intro t ht
    cases ht
  | cons t order ih =>
    intro r hgood hw
    obtain ⟨s2, hrun, hemp, hle, hall, hex⟩ := searchLoop_spec N dg uninit hv fuel
      { stack := r.thread_stack t, available_stack := r.thread_avail t, best_tour := r.best_tour }
      (hgood t) (hw t (List.mem_cons_self _ _))
    simp only at hle hall hex
    obtain ⟨r2, hrun2, hle2, hall2, hex2⟩ := ih
      { r with
        best_tour := s2.best_tour
        thread_stack := fun u => if u = t then s2.stack else r.thread_stack u
        thread_avail := fun u => if u = t then s2.available_stack else r.thread_avail u }
      (by
        intro u x hx
        simp only at hx
        by_cases hu : u = t
        · simp only [hu, if_true, hemp] at hx
          cases hx
        · simp only [hu, if_false] at hx
          exact hgood u x hx)
      (by
        intro u hu
        simp only
        by_cases hut : u = t
        · simp only [hut, if_true, hemp]
          simp [stackWeight]
        · simp only [hut, if_false]
          exact hw u (List.mem_cons_of_mem _ hu))
    simp only at hle2 hall2 hex2
    refine ⟨r2, ?_, le_trans hle2 hle, ?_, ?_⟩
    · simp only [runThreads, searchThread, hrun, hrun2]
    · intro u hu x hx o ho hp
      by_cases hut : u = t
      · subst hut
        exact le_trans hle2 (hall x hx o ho hp)
      · rcases List.mem_cons.mp hu with h | h
        · exact absurd h hut
        · exact hall2 u h x (by simp only [hut, if_false]; exact hx) o ho hp
    · rcases hex2 with h | ⟨u, hu, x, hx, o, ho, hp, hrec⟩
      · rcases hex with h2 | ⟨x, hx, o, ho, hp, hrec⟩
        · left; rw [h, h2]
        · right
          exact ⟨t, List.mem_cons_self _ _, x, hx, o, ho, hp, by rw [h]; exact hrec⟩
      · right
        by_cases hut : u = t
        · simp only [hut, if_true, hemp] at hx
          cases hx
        · simp only [hut, if_false] at hx
          exact ⟨u, List.mem_cons_of_mem _ hu, x, hx, o, ho, hp, hrec⟩

theorem tourCount_nonneg (size w t : Int) (h0 : 0 ≤ size) (h1 : 1 ≤ w) :
    0 ≤ tourCount size w t := by
  have hq : Int.tdiv size w = size / w := Int.tdiv_eq_ediv h0 (by omega)
  have : 0 ≤ size / w := Int.ediv_nonneg h0 (by omega)
  simp only [tourCount, hq]
  split <;> omega

theorem sum_toNat_cast (f : Nat → Int) (l : List Nat) (h : ∀ x ∈ l, 0 ≤ f x) :
    (((l.map fun x => (f x).toNat).sum : Nat) : Int) = (l.map f).sum := by
  induction l with
  | nil => simp
  | cons a l ih =>
    have h1 := h a (List.mem_cons_self _ _)
    have h2 := ih (fun x hx => h x (List.mem_cons_of_mem _ hx))
    simp only [List.map_cons, List.sum_cons, Nat.cast_add, h2]
    omega

theorem drainNeed_perm (size w : Int) (h0 : 0 ≤ size) (h1 : 1 ≤ w) (order : List Nat)
    (hp : order.Perm (List.range w.toNat)) : drainNeed size w order = size.toNat := by
  have e1 : drainNeed size w order = drainNeed size w (List.range w.toNat) := by
    unfold drainNeed
    exact (hp.map _).sum_eq
  rw [e1]
  have e2 := sum_toNat_cast (fun t => tourCount size w (t : Int)) (List.range w.toNat)
    (fun x _ => tourCount_nonneg size w _ h0 h1)
  have e3 := tourCount_sum_range size w h0 h1 w.toNat (by omega)
  have hdm : w * (size / w) + size % w = size := Int.ediv_add_emod size w
  have hr0 : 0 ≤ size % w := Int.emod_nonneg size (by omega)
  have hr1 : size % w < w := Int.emod_lt_of_pos size (by omega)
  have hwn : ((w.toNat : Nat) : Int) = w := by omega
  rw [hwn, min_eq_right (by omega)] at e3
  unfold drainNeed
  have : (((List.range w.toNat).map fun (t : Nat) => (tourCount size w (t : Int)).toNat).sum : Int)
      = size := by
    rw [e2, e3]; linarith
  omega

theorem cycleCost_lt (N : Int) (dg : Int → Int) (hv : ValidMatrix N dg) (o : List Int)
    (ho : o.Perm (citiesUp N)) : cycleCost N dg o < INT_MAX := by
  have hN := hv.1
  have hin : ∀ x ∈ o, 1 ≤ x ∧ x < N := fun x hx => (mem_citiesUp N x).mp (ho.subset hx)
  simp only [cycleCost, pathCost]
  rw [costFrom_eq_sum]
  apply hv.2.2.2
  · rw [pairsFrom_length, List.length_append, ho.length_eq, citiesUp_length]
    simp only [List.length_singleton, Nat.cast_add, Nat.cast_one]
    omega
  · intro p hp
    have hmem : ∀ x ∈ o ++ [0], 0 ≤ x ∧ x < N := by
      intro x hx
      rw [List.mem_append, List.mem_singleton] at hx
      rcases hx with hx | hx
      · have := hin x hx; omega
      · subst hx; omega
    obtain ⟨h1, h2⟩ := pairsFrom_mem (o ++ [0]) 0 p hp
    refine ⟨?_, hmem _ h2⟩
    rcases h1 with h1 | h1
    · rw [h1]; omega
    · exact hmem _ h1

theorem searchWeight_mono (N : Int) : ∀ (m k : Nat), m ≤ k → searchWeight N m ≤ searchWeight N k := by
  have hstep : ∀ m, searchWeight N m ≤ searchWeight N (m + 1) := by
    intro m
    induction m with
    | zero => simp [searchWeight]
    | succ m ih =>
      simp only [searchWeight] at ih ⊢
      have := Nat.mul_le_mul_left (N - 1).toNat ih
      omega
  intro m k h
  induction k with
  | zero =>
    have : m = 0 := by omega
    subst this; exact le_refl _
  | succ k ih =>
    rcases Nat.lt_or_ge m (k + 1) with h2 | h2
    · exact le_trans (ih (by omega)) (hstep k)
    · have : m = k + 1 := by omega
      subst this; exact le_refl _

theorem stackWeight_le (N : Int) (dg : Int → Int) (stack : List Tour)
    (hg : ∀ x ∈ stack, GoodTour N dg x) :
    stackWeight N stack ≤ stack.length * searchWeight N (N - 1).toNat := by
  induction stack with
  | nil => simp [stackWeight]
  | cons t stack ih =>
    rw [stackWeight_cons, List.length_cons, Nat.succ_mul]
    have h1 := ih (fun x hx => hg x (List.mem_cons_of_mem _ hx))
    have h2 := (hg t (List.mem_cons_self _ _)).1
    have h3 := searchWeight_mono N (N - t.count).toNat (N - 1).toNat (by omega)
    omega

theorem initTour_good (N : Int) (dg : Int → Int) (t : Tour) :
    GoodTour N dg (initTour N t) ∧ visitedOf (initTour N t) = [] := by
  have hv : visitedOf (initTour N t) = [] := by simp [visitedOf, initTour]
  refine ⟨⟨by simp [initTour], by simp [initTour], ?_, ?_, ?_⟩, hv⟩
  · rw [hv]; exact List.nodup_nil
  · rw [hv]; intro c hc; cases hc
  · rw [hv]; simp [initTour, costFrom]

/-- No sum that the search forms leaves the range of `int`: for a tour that satisfies the
tour invariant and a city `c` in range, `cost` and `cost + travelCost(last city, c)`, the sum
that `feasible`, `isNewBest` and `addCity` compute, lie in `[0, INT_MAX)`. -/
theorem good_sum_in_range (N : Int) (dg : Int → Int) (hv : ValidMatrix N dg) (t : Tour)
    (hg : GoodTour N dg t) (c : Int) (hc : 0 ≤ c ∧ c < N) :
    0 ≤ t.cost ∧ t.cost ≤ t.cost + travelCost N dg (t.cities (t.count - 1)) c ∧
    t.cost + travelCost N dg (t.cities (t.count - 1)) c < INT_MAX := by
  have hN := hv.1
  obtain ⟨h1, h0, hnd, hr, hcost⟩ := hg
  have hr0 : ∀ x ∈ visitedOf t, 0 ≤ x ∧ x < N := fun x hx => ⟨by have := hr x hx; omega, (hr x hx).2⟩
  have hlen := length_le_of_good N (visitedOf t) hnd hr
  have hnon : 0 ≤ t.cost := by
    rw [hcost]; exact costFrom_nonneg N dg hv _ 0 ⟨le_refl _, by omega⟩ hr0
  have hend : 0 ≤ endOf 0 (visitedOf t) ∧ endOf 0 (visitedOf t) < N := by
    rcases endOf_mem (visitedOf t) 0 with h | h
    · rw [h]; omega
    · exact hr0 _ h
  have hstep : 0 ≤ travelCost N dg (t.cities (t.count - 1)) c := by
    rw [lastCity_eq t h1 h0]
    exact travelCost_nonneg N dg hv _ _ hend hc
  refine ⟨hnon, by omega, ?_⟩
  have hsum : t.cost + travelCost N dg (t.cities (t.count - 1)) c
      = costFrom N dg 0 (visitedOf t ++ [c]) := by
    rw [costFrom_append, hcost, lastCity_eq t h1 h0]
  rw [hsum, costFrom_eq_sum]
  have hpl : (pairsFrom 0 (visitedOf t ++ [c])).length = (visitedOf t).length + 1 := by
    rw [pairsFrom_length, List.length_append, List.length_singleton]
  have hmem : ∀ x ∈ visitedOf t ++ [c], 0 ≤ x ∧ x < N := by
    intro x hx
    rw [List.mem_append, List.mem_singleton] at hx
    rcases hx with hx | hx
    · exact hr0 x hx
    · subst hx; exact hc
  have hbound := hv.2.2.2
    (pairsFrom 0 (visitedOf t ++ [c])
      ++ List.replicate ((N - 1).toNat - (visitedOf t).length) ((0 : Int), (0 : Int)))
    (by
      rw [List.length_append, hpl, List.length_replicate]
      push_cast
      omega)
    (by
      intro p hp
      rcases List.mem_append.mp hp with hp | hp
      · obtain ⟨ha, hb⟩ := pairsFrom_mem _ 0 p hp
        refine ⟨?_, hmem _ hb⟩
        rcases ha with ha | ha
        · rw [ha]; omega
        · exact hmem _ ha
      · rw [List.eq_of_mem_replicate hp]
        exact ⟨⟨le_refl _, by omega⟩, ⟨le_refl _, by omega⟩⟩)
  rw [List.map_append, List.sum_append, List.map_replicate, List.sum_replicate,
    hv.2.1 0 (le_refl _) (by omega), smul_zero, add_zero] at hbound
  exact hbound

/-- Correctness of the whole search once the partition phase is known to stage tours that
cover every ordering. -/
theorem treeSearch_of_staged (N : Int) (dg : Int → Int) (uninit : Tour) (hv : ValidMatrix N dg)
    (w : Int) (hw : 1 ≤ w) (staged : List (List Int)) (fuel1 : Nat)
    (hpart : ∀ fuel, fuel1 ≤ fuel → absPartitionLoop N w fuel [[]] = .ok staged)
    (hcov : ∀ o, o.Perm (citiesUp N) → ∃ r ∈ staged, r <+: o)
    (drainOrder searchOrder : List Nat) (hd : drainOrder.Perm (List.range w.toNat))
    (hs : searchOrder.Perm (List.range w.toNat)) :
    ∃ fuel0, ∀ fuel, fuel0 ≤ fuel →
      ∃ best, treeSearch N dg uninit w drainOrder searchOrder fuel = .ok best ∧
        Optimal N dg best := by
  refine ⟨max fuel1 (staged.length * searchWeight N (N - 1).toNat), ?_⟩
  intro fuel hfuel
  have hinit := initTour_good N dg (allocTour uninit []).1
  have hrep0 : PartRep N dg
      { initial_partition_stack := push [] (initTour N (allocTour uninit []).1)
        available_stack := []
        current_size := 0 + 1 } [[]] :=
    ⟨List.Forall₂.cons hinit List.Forall₂.nil, by simp⟩
  have hsim := partitionLoop_sim N dg uninit w fuel _ _ hrep0
  rw [hpart fuel (le_trans (le_max_left _ _) hfuel)] at hsim
  obtain ⟨p, hp, hall, hsize⟩ := hsim
  have hlenp : p.initial_partition_stack.length = staged.length := hall.length_eq
  obtain ⟨_, hpg, hpc⟩ := forall₂_length_mem hall
  have hneed : drainNeed p.current_size w drainOrder = p.initial_partition_stack.length := by
    rw [drainNeed_perm p.current_size w (by omega) hw drainOrder hd, hsize, hlenp]
    omega
  obtain ⟨r1, hr1, _, hb1, _, hsub, hcov1, _, hlen1⟩ := drain_all p.current_size w drainOrder
    { shared := p.initial_partition_stack
      best_tour := initialBest N uninit
      thread_stack := fun _ => []
      thread_avail := fun u => if u = 0 then p.available_stack else [] }
    (by simp only [hneed]; exact le_refl _)
  simp only [hneed, List.take_length, List.length_nil, zero_add] at hsub hcov1 hlen1 hb1
  have hgood1 : ∀ t, ∀ x ∈ r1.thread_stack t, GoodTour N dg x := by
    intro t x hx
    rcases hsub t x hx with h | h
    · cases h
    · obtain ⟨r, _, hg⟩ := hpc x h
      exact hg.1
  obtain ⟨r2, hr2, hle, hbound, hex⟩ := search_all N dg uninit hv fuel searchOrder r1 hgood1 (by
    intro t _
    refine le_trans (stackWeight_le N dg _ (hgood1 t)) ?_
    refine le_trans (Nat.mul_le_mul_right _ (hlen1 t)) ?_
    rw [hlenp]
    exact le_trans (le_max_right _ _) hfuel)
  have hmin : ∀ o, o.Perm (citiesUp N) → r2.best_tour.cost ≤ cycleCost N dg o := by
    intro o ho
    obtain ⟨r, hr, hpre⟩ := hcov o ho
    obtain ⟨x, hx, _, hvx⟩ := hpg r hr
    obtain ⟨t, ht, hxt⟩ := hcov1 x hx
    have hts : t ∈ searchOrder := hs.symm.subset (hd.subset ht)
    exact hbound t hts x hxt o ho (by rw [hvx]; exact hpre)
  refine ⟨r2.best_tour, ?_, ?_, ?_⟩
  · simp only [treeSearch, partitionPhase, hp, hr1, hr2]
  · rcases hex with h | ⟨t, _, x, _, o, ho, _, hrec⟩
    · exfalso
      have h1 := hmin (citiesUp N) (List.Perm.refl _)
      have h2 := cycleCost_lt N dg hv (citiesUp N) (List.Perm.refl _)
      rw [h, hb1] at h1
      have h3 : (initialBest N uninit).cost = INT_MAX := rfl
      omega
    · exact ⟨o, (mem_orderings N o).mpr ho, hrec⟩
  · intro o ho
    exact hmin o ((mem_orderings N o).mp ho)

theorem sum_pairs_le (N : Int) (dg : Int → Int) (M : Int)
    (hM : ∀ i j, 0 ≤ i → i < N → 0 ≤ j → j < N → travelCost N dg i j ≤ M) :
    ∀ l : List (Int × Int), (∀ p ∈ l, (0 ≤ p.1 ∧ p.1 < N) ∧ (0 ≤ p.2 ∧ p.2 < N)) →
      (l.map fun p => travelCost N dg p.1 p.2).sum ≤ (l.length : Int) * M := by
  intro l
  induction l with
  | nil => intro _; simp
  | cons p l ih =>
    intro h
    have h1 := h p (List.mem_cons_self _ _)
    have h2 := ih (fun q hq => h q (List.mem_cons_of_mem _ hq))
    have h3 := hM p.1 p.2 h1.1.1 h1.1.2 h1.2.1 h1.2.2
    simp only [List.map_cons, List.sum_cons, List.length_cons, Nat.cast_add, Nat.cast_one]
    linarith

/-- A matrix with zero diagonal and positive bounded entries is valid. -/
theorem validMatrix_of_bound (N : Int) (dg : Int → Int) (M : Int) (hN : 1 ≤ N)
    (hdiag : ∀ i, 0 ≤ i → i < N → travelCost N dg i i = 0)
    (hpos : ∀ i j, 0 ≤ i → i < N → 0 ≤ j → j < N → i ≠ j → 0 < travelCost N dg i j)
    (hM : ∀ i j, 0 ≤ i → i < N → 0 ≤ j → j < N → travelCost N dg i j ≤ M)
    (hbound : N * M < INT_MAX) : ValidMatrix N dg := by
  refine ⟨hN, hdiag, hpos, ?_⟩
  intro l hlen hl
  have := sum_pairs_le N dg M hM l hl
  rw [hlen] at this
  omega

theorem absPartitionLoop_done (N w : Int) (fuel : Nat) (staged : List (List Int))
    (h : w ≤ (staged.length : Int)) : absPartitionLoop N w fuel staged = .ok staged := by
  have h2 : ¬ (staged.length : Int) < w := by omega
  cases fuel <;> simp only [absPartitionLoop, h2, if_false]

theorem absPartitionLoop_step (N w : Int) (fuel : Nat) (r : List Int) (rest : List (List Int))
    (h : ((r :: rest).length : Int) < w) :
    absPartitionLoop N w (fuel + 1) (r :: rest)
      = absPartitionLoop N w fuel (absExpand N r ++ rest) := by
  simp only [absPartitionLoop, h, if_true]

theorem absExpand_nil (N : Int) : absExpand N [] = (citiesUp N).reverse.map fun c => [c] := by
  simp [absExpand]

/-- With at most `max 1 (num_cities - 1)` threads the partition phase ends after at most one
expansion, and the staged tours cover every ordering. -/
theorem partition_small (N w : Int) (hN : 1 ≤ N) (hwN : w ≤ max 1 (N - 1)) :
    ∃ staged, (∀ fuel, 1 ≤ fuel → absPartitionLoop N w fuel [[]] = .ok staged) ∧
      ∀ o, o.Perm (citiesUp N) → ∃ r ∈ staged, r <+: o := by
  by_cases h1 : w ≤ 1
  · refine ⟨[[]], fun fuel _ => absPartitionLoop_done N w fuel _ (by simpa using h1), ?_⟩
    intro o _
    exact ⟨[], List.mem_singleton.mpr rfl, List.nil_prefix⟩
  · have hwN2 : w ≤ N - 1 := by
      rcases le_max_iff.mp hwN with h | h
      · omega
      · exact h
    refine ⟨absExpand N [], ?_, ?_⟩
    · intro fuel hfuel
      obtain ⟨f, rfl⟩ : ∃ f, fuel = f + 1 := ⟨fuel - 1, by omega⟩
      rw [absPartitionLoop_step N w f [] [] (by simp; omega), List.append_nil]
      apply absPartitionLoop_done
      rw [absExpand_nil, List.length_map, List.length_reverse, citiesUp_length]
      omega
    · intro o ho
      cases o with
      | nil =>
        have := ho.length_eq
        rw [citiesUp_length] at this
        simp at this
        omega
      | cons c tl =>
        refine ⟨[c], ?_, ⟨tl, rfl⟩⟩
        rw [absExpand_nil, List.mem_map]
        exact ⟨c, List.mem_reverse.mpr (ho.subset (List.mem_cons_self _ _)), rfl⟩

theorem range_one_perm : ([0] : List Nat).Perm (List.range (1 : Int).toNat) := by
  decide

/-- Claim C1: for every valid cost matrix and a run with one worker, with enough fuel the
search ends, and the cost recorded in `best_tour` is the minimum over all orderings of the
cities `1 .. num_cities - 1` of the cost of the cycle `0 -> ordering -> 0`: it is the minimum
of the list of these costs, that is, the cost of one such cycle and at most the cost of
each. -/
theorem one_worker_optimal (num_cities : Int) (digraph : Int → Int) (uninit : Tour)
    (hv : ValidMatrix num_cities digraph) :
    ∃ fuel0, ∀ fuel, fuel0 ≤ fuel →
      ∃ best, treeSearch num_cities digraph uninit 1 [0] [0] fuel = .ok best ∧
        ((orderings num_cities).map (cycleCost num_cities digraph)).minimum
          = ((best.cost : Int) : WithTop Int) ∧
        (∃ o ∈ orderings num_cities, best.cost = cycleCost num_cities digraph o) ∧
        (∀ o ∈ orderings num_cities, best.cost ≤ cycleCost num_cities digraph o) := by
  obtain ⟨staged, hpart, hcov⟩ := partition_small num_cities 1 hv.1 (le_max_left _ _)
  obtain ⟨fuel0, h⟩ := treeSearch_of_staged num_cities digraph uninit hv 1 (le_refl _) staged 1
    hpart hcov [0] [0] range_one_perm range_one_perm
  refine ⟨fuel0, fun fuel hf => ?_⟩
  obtain ⟨best, hrun, ⟨o, ho, hrec⟩, hmin⟩ := h fuel hf
  refine ⟨best, hrun, ?_, ⟨o, ho, hrec.2.1⟩, hmin⟩
  rw [List.minimum_eq_coe_iff]
  refine ⟨List.mem_map.mpr ⟨o, ho, hrec.2.1.symm⟩, ?_⟩
  intro a ha
  obtain ⟨o2, ho2, rfl⟩ := List.mem_map.mp ha
  exact hmin o2 ho2

/-- Claim C3, amended: for every valid cost matrix and every thread count `w` with
`1 <= w <= max(1, num_cities - 1)`, whatever order the threads drain the shared stack in and
whatever order they search in, with enough fuel the run ends and records the same best cost
as the run with one worker. -/
theorem worker_count_independent (num_cities : Int) (digraph : Int → Int) (uninit : Tour)
    (hv : ValidMatrix num_cities digraph) (thread_count : Int) (hw : 1 ≤ thread_count)
    (hwN : thread_count ≤ max 1 (num_cities - 1)) (drainOrder searchOrder : List Nat)
    (hd : drainOrder.Perm (List.range thread_count.toNat))
    (hs : searchOrder.Perm (List.range thread_count.toNat)) :
    ∃ fuel0, ∀ fuel, fuel0 ≤ fuel →
      ∃ best best1,
        treeSearch num_cities digraph uninit thread_count drainOrder searchOrder fuel = .ok best ∧
        treeSearch num_cities digraph uninit 1 [0] [0] fuel = .ok best1 ∧
        best.cost = best1.cost := by
  obtain ⟨staged, hpart, hcov⟩ := partition_small num_cities thread_count hv.1 hwN
  obtain ⟨fuelA, hA⟩ := treeSearch_of_staged num_cities digraph uninit hv thread_count hw staged 1
    hpart hcov drainOrder searchOrder hd hs
  obtain ⟨staged1, hpart1, hcov1⟩ :=
    partition_small num_cities 1 hv.1 (le_max_left _ _)
  obtain ⟨fuelB, hB⟩ := treeSearch_of_staged num_cities digraph uninit hv 1 (le_refl _) staged1 1
    hpart1 hcov1 [0] [0] range_one_perm range_one_perm
  refine ⟨max fuelA fuelB, fun fuel hf => ?_⟩
  obtain ⟨best, hrun, ⟨o, ho, hrec⟩, hmin⟩ := hA fuel (le_trans (le_max_left _ _) hf)
  obtain ⟨best1, hrun1, ⟨o1, ho1, hrec1⟩, hmin1⟩ := hB fuel (le_trans (le_max_right _ _) hf)
  refine ⟨best, best1, hrun, hrun1, le_antisymm ?_ ?_⟩
  · rw [hrec1.2.1]; exact hmin o1 ho1
  · rw [hrec.2.1]; exact hmin1 o ho

theorem printedTour_eq (N : Int) (hN : 1 ≤ N) (b : Tour) :
    printedTour N b = b.cities 0 :: ((citiesUp N).map b.cities ++ [b.cities N]) := by
  unfold printedTour citiesUp
  have e : (N + 1).toNat = ((N - 1).toNat + 1) + 1 := by omega
  rw [e, List.range_succ, List.map_append, List.range_succ_eq_map, List.map_cons, List.map_map,
    List.map_map, List.cons_append]
  congr 2
  · simp only [List.map_cons, List.map_nil]
    congr 2
    omega

/-- Claim C4: for every valid cost matrix and a completed run with one worker, the final
`best_tour` holds `num_cities + 1` entries in the cells `0 .. num_cities`; the first and the
last are 0, the cells `1 .. num_cities - 1` are a permutation of the cities
`1 .. num_cities - 1`, and `cost` is the sum of the `num_cities` travel costs between
consecutive entries.  The statement holds from `num_cities >= 1` on, so also for
`num_cities >= 2`. -/
theorem one_worker_tour_shape (num_cities : Int) (digraph : Int → Int) (uninit : Tour)
    (hv : ValidMatrix num_cities digraph) :
    ∃ fuel0, ∀ fuel, fuel0 ≤ fuel →
      ∃ best, treeSearch num_cities digraph uninit 1 [0] [0] fuel = .ok best ∧
        ((printedTour num_cities best).length : Int) = num_cities + 1 ∧
        best.cities 0 = 0 ∧ best.cities num_cities = 0 ∧
        ((citiesUp num_cities).map best.cities).Perm (citiesUp num_cities) ∧
        best.cost = pathCost num_cities digraph (printedTour num_cities best) := by
  obtain ⟨staged, hpart, hcov⟩ := partition_small num_cities 1 hv.1 (le_max_left _ _)
  obtain ⟨fuel0, h⟩ := treeSearch_of_staged num_cities digraph uninit hv 1 (le_refl _) staged 1
    hpart hcov [0] [0] range_one_perm range_one_perm
  refine ⟨fuel0, fun fuel hf => ?_⟩
  obtain ⟨best, hrun, ⟨o, ho, _, hcost, hprint⟩, _⟩ := h fuel hf
  have hperm := (mem_orderings num_cities o).mp ho
  have hshape := printedTour_eq num_cities hv.1 best
  rw [hprint] at hshape
  have h0 : (0 : Int) = best.cities 0 := (List.cons.inj hshape).1
  have htl := (List.cons.inj hshape).2
  have hlen : o.length = ((citiesUp num_cities).map best.cities).length := by
    rw [List.length_map, hperm.length_eq]
  obtain ⟨ho2, hlast⟩ := List.append_inj htl hlen
  refine ⟨best, hrun, ?_, h0.symm, ?_, ?_, ?_⟩
  · have hN := hv.1
    simp only [printedTour, List.length_map, List.length_range]
    omega
  · exact (List.cons.inj hlast).1.symm
  · rw [← ho2]; exact hperm
  · rw [hcost, hprint]; rfl

theorem example_valid : ValidMatrix 4 (digraphOfRows exampleRows) := by
  apply validMatrix_of_bound 4 (digraphOfRows exampleRows) 12 (by decide)
  · intro i h0 h4
    interval_cases i <;> decide
  · intro i j hi0 hi4 hj0 hj4 hne
    interval_cases i <;> interval_cases j <;> first | decide | exact absurd rfl hne
  · intro i j hi0 hi4 hj0 hj4
    interval_cases i <;> interval_cases j <;> decide
  · decide

theorem example_citiesUp : citiesUp 4 = [1, 2, 3] := by decide

theorem example_orderings (o : List Int) (h : o.Perm (citiesUp 4)) :
    o ∈ [[1, 2, 3], [1, 3, 2], [2, 1, 3], [2, 3, 1], [3, 1, 2], [3, 2, 1]] := by
  rw [example_citiesUp] at h
  have hl := h.length_eq
  have hnd : o.Nodup := h.nodup_iff.mpr (by decide)
  match o, hl, h, hnd with
  | [a, b, c], _, h, hnd =>
    have ha : a ∈ [1, 2, 3] := h.subset (by simp)
    have hb : b ∈ [1, 2, 3] := h.subset (by simp)
    have hc : c ∈ [1, 2, 3] := h.subset (by simp)
    simp only [List.mem_cons, List.mem_singleton, List.not_mem_nil, or_false] at ha hb hc
    rcases ha with rfl | rfl | rfl <;> rcases hb with rfl | rfl | rfl <;>
      rcases hc with rfl | rfl | rfl <;> simp at hnd ⊢

theorem example_unique (o : List Int) (h : o.Perm (citiesUp 4))
    (hc : cycleCost 4 (digraphOfRows exampleRows) o ≤ 25) : o = [1, 2, 3] := by
  have hall : ∀ p ∈ [[1, 2, 3], [1, 3, 2], [2, 1, 3], [2, 3, 1], [3, 1, 2], [3, 2, 1]],
      cycleCost 4 (digraphOfRows exampleRows) p ≤ 25 → p = [1, 2, 3] := by decide
  exact hall o (example_orderings o h) hc

theorem example_partition4 :
    (∀ fuel, 2 ≤ fuel → absPartitionLoop 4 4 fuel [[]] = .ok [[3, 2], [3, 1], [2], [1]]) ∧
    ∀ o, o.Perm (citiesUp 4) → ∃ r ∈ [[3, 2], [3, 1], [2], [1]], r <+: o := by
  constructor
  · intro fuel hfuel
    obtain ⟨f, rfl⟩ : ∃ f, fuel = f + 2 := ⟨fuel - 2, by omega⟩
    rw [absPartitionLoop_step 4 4 (f + 1) [] [] (by decide)]
    have e1 : absExpand 4 [] ++ [] = [[3], [2], [1]] := by decide
    rw [e1, absPartitionLoop_step 4 4 f [3] [[2], [1]] (by decide)]
    have e2 : absExpand 4 [3] ++ [[2], [1]] = [[3, 2], [3, 1], [2], [1]] := by decide
    rw [e2]
    exact absPartitionLoop_done 4 4 f _ (by decide)
  · intro o ho
    have hall : ∀ p ∈ ([[1, 2, 3], [1, 3, 2], [2, 1, 3], [2, 3, 1], [3, 1, 2], [3, 2, 1]] :
          List (List Int)),
        ∃ r ∈ ([[3, 2], [3, 1], [2], [1]] : List (List Int)), r <+: p := by decide
    exact hall o (example_orderings o ho)

/-- Claim C2: for the example of the header comment (4 cities, rows `[0,1,2,3]`, `[4,0,5,6]`,
`[7,8,0,9]`, `[10,11,12,0]`) and every thread count from 1 to 4, whatever order the threads
drain the shared stack in and whatever order they search in, with enough fuel the run ends
with `best_tour` holding the cities 0, 1, 2, 3, 0 and the cost 25. -/
theorem example_best_tour (uninit : Tour) (thread_count : Int) (hw1 : 1 ≤ thread_count)
    (hw4 : thread_count ≤ 4) (drainOrder searchOrder : List Nat)
    (hd : drainOrder.Perm (List.range thread_count.toNat))
    (hs : searchOrder.Perm (List.range thread_count.toNat)) :
    ∃ fuel0, ∀ fuel, fuel0 ≤ fuel →
      ∃ best, treeSearch 4 (digraphOfRows exampleRows) uninit thread_count drainOrder
          searchOrder fuel = .ok best ∧
        printedTour 4 best = [0, 1, 2, 3, 0] ∧ best.cost = 25 := by
  have hstaged : ∃ staged fuel1,
      (∀ fuel, fuel1 ≤ fuel → absPartitionLoop 4 thread_count fuel [[]] = .ok staged) ∧
      ∀ o, o.Perm (citiesUp 4) → ∃ r ∈ staged, r <+: o := by
    by_cases h : thread_count ≤ 3
    · obtain ⟨staged, h1, h2⟩ := partition_small 4 thread_count (by decide)
        (by rw [le_max_iff]; right; omega)
      exact ⟨staged, 1, h1, h2⟩
    · have e : thread_count = 4 := by omega
      subst e
      exact ⟨_, 2, example_partition4.1, example_partition4.2⟩
  obtain ⟨staged, fuel1, hpart, hcov⟩ := hstaged
  obtain ⟨fuel0, h⟩ := treeSearch_of_staged 4 (digraphOfRows exampleRows) uninit example_valid
    thread_count hw1 staged fuel1 hpart hcov drainOrder searchOrder hd hs
  refine ⟨fuel0, fun fuel hf => ?_⟩
  obtain ⟨best, hrun, ⟨o, ho, hcnt, hcost, hprint⟩, hmin⟩ := h fuel hf
  have hperm := (mem_orderings 4 o).mp ho
  have h25 : cycleCost 4 (digraphOfRows exampleRows) [1, 2, 3] = 25 := by decide
  have hle := hmin [1, 2, 3] ((mem_orderings 4 _).mpr (by rw [example_citiesUp]))
  rw [h25, hcost] at hle
  have ho123 := example_unique o hperm hle
  subst ho123
  exact ⟨best, hrun, hprint, by rw [hcost, h25]⟩

theorem stackRep_of_good (N : Int) (dg : Int → Int) :
    ∀ stack : List Tour, (∀ t ∈ stack, GoodTour N dg t) →
      StackRep N dg stack (stack.map visitedOf) := by
  intro stack
  induction stack with
  | nil => intro _; exact List.Forall₂.nil
  | cons t stack ih =>
    intro h
    exact List.Forall₂.cons ⟨h t (List.mem_cons_self _ _), rfl⟩
      (ih (fun x hx => h x (List.mem_cons_of_mem _ hx)))

theorem good_of_stackRep (N : Int) (dg : Int → Int) (stack : List Tour)
    (staged : List (List Int)) (h : StackRep N dg stack staged) :
    ∀ t ∈ stack, GoodTour N dg t := by
  intro t ht
  obtain ⟨r, _, hg⟩ := (forall₂_length_mem h).2.2 t ht
  exact hg.1

theorem partitionStep_good (N : Int) (dg : Int → Int) (uninit : Tour) (p p2 : PartState)
    (hg : ∀ t ∈ p.initial_partition_stack, GoodTour N dg t)
    (hstep : partitionStep N dg uninit p = .ok p2) :
    ∀ t ∈ p2.initial_partition_stack, GoodTour N dg t := by
  have hrep := stackRep_of_good N dg _ hg
  cases hst : p.initial_partition_stack with
  | nil => simp [partitionStep, hst, pop] at hstep
  | cons t stack =>
    rw [hst, List.map_cons] at hrep
    rw [← hst] at hrep
    obtain ⟨p3, hstep3, hrep3, _⟩ := partitionStep_stack N dg uninit p _ _ hrep
    rw [hstep] at hstep3
    cases hstep3
    exact good_of_stackRep N dg _ _ hrep3

theorem searchStep_good (N : Int) (dg : Int → Int) (uninit : Tour) (hN : 1 ≤ N)
    (s : SearchState) (hg : ∀ t ∈ s.stack, GoodTour N dg t) :
    ∀ t ∈ (searchStep N dg uninit s).stack, GoodTour N dg t := by
  cases hst : s.stack with
  | nil =>
    have : searchStep N dg uninit s = s := by simp [searchStep, hst, pop]
    rw [this, hst]
    intro t ht
    cases ht
  | cons t rest =>
    rw [hst] at hg
    have hgt := hg t (List.mem_cons_self _ _)
    have hgrest : ∀ x ∈ rest, GoodTour N dg x := fun x hx => hg x (List.mem_cons_of_mem _ hx)
    by_cases hc : t.count = N
    · rw [(searchStep_complete N dg uninit s t rest hst hc).1]
      exact hgrest
    · have hlt : t.count < N := by
        rcases hgt.count_le with h | h <;> omega
      obtain ⟨kids, hs1, _, hkids⟩ := searchStep_expand N dg uninit s t rest hst hgt.1 hlt
      rw [hs1]
      intro x hx
      rcases List.mem_append.mp hx with hx | hx
      · obtain ⟨c, hcmem, hch⟩ := (forall₂_length_mem hkids).2.1 x hx
        rw [List.mem_reverse, List.mem_filter] at hcmem
        refine hch.good hgt ((mem_citiesDown N c).mp hcmem.1) ?_
        intro hvis
        have hf := hcmem.2
        simp only [feasible] at hf
        rw [(visited_iff_mem t c).mpr hvis] at hf
        split at hf <;> simp at hf
      · exact hgrest x hx

theorem drainLoop_mem : ∀ (n : Nat) (shared stack shared2 stack2 : List Tour),
    drainLoop n shared stack = .ok (shared2, stack2) →
    (∀ x ∈ shared2, x ∈ shared) ∧ (∀ x ∈ stack2, x ∈ shared ∨ x ∈ stack) := by
  intro n
  induction n with
  | zero =>
    intro shared stack shared2 stack2 h
    simp only [drainLoop, Except.ok.injEq, Prod.mk.injEq] at h
    obtain ⟨rfl, rfl⟩ := h
    exact ⟨fun x hx => hx, fun x hx => Or.inr hx⟩
  | succ n ih =>
    intro shared stack shared2 stack2 h
    cases shared with
    | nil => simp [drainLoop, pop] at h
    | cons y shared =>
      simp only [drainLoop, pop, push] at h
      obtain ⟨h1, h2⟩ := ih shared (y :: stack) shared2 stack2 h
      refine ⟨fun x hx => List.mem_cons_of_mem _ (h1 x hx), ?_⟩
      intro x hx
      rcases h2 x hx with h3 | h3
      · exact Or.inl (List.mem_cons_of_mem _ h3)
      · rcases List.mem_cons.mp h3 with rfl | h3
        · exact Or.inl (List.mem_cons_self _ _)
        · exact Or.inr h3

theorem stackReach_good (N : Int) (dg : Int → Int) (uninit : Tour) (hN : 1 ≤ N)
    (stack : List Tour) (h : StackReach N dg uninit stack) : ∀ t ∈ stack, GoodTour N dg t := by
  induction h with
  | staging_init =>
    intro t ht
    simp only [push, List.mem_singleton] at ht
    subst ht
    exact (initTour_good N dg _).1
  | staging_step p p2 _ hstep ih => exact partitionStep_good N dg uninit p p2 ih hstep
  | private_init => intro t ht; cases ht
  | drain_shared n shared stack shared2 stack2 _ _ hd ih1 _ =>
    intro t ht
    exact ih1 t ((drainLoop_mem n shared stack shared2 stack2 hd).1 t ht)
  | drain_private n shared stack shared2 stack2 _ _ hd ih1 ih2 =>
    intro t ht
    rcases (drainLoop_mem n shared stack shared2 stack2 hd).2 t ht with h | h
    · exact ih1 t h
    · exact ih2 t h
  | search_step s _ ih => exact searchStep_good N dg uninit hN s ih

theorem good_cells_distinct (N : Int) (dg : Int → Int) (t : Tour) (hg : GoodTour N dg t)
    (i j : Int) (hi : 1 ≤ i) (hij : i < j) (hj : j < t.count) : t.cities i ≠ t.cities j := by
  intro heq
  have hnd := hg.2.2.1
  unfold visitedOf at hnd
  have hinj := List.inj_on_of_nodup_map hnd
  have h1 : (i - 1).toNat ∈ List.range (t.count - 1).toNat := List.mem_range.mpr (by omega)
  have h2 : (j - 1).toNat ∈ List.range (t.count - 1).toNat := List.mem_range.mpr (by omega)
  have e1 : (((i - 1).toNat : Nat) : Int) + 1 = i := by omega
  have e2 : (((j - 1).toNat : Nat) : Int) + 1 = j := by omega
  have := hinj h1 h2 (by simp only [e1, e2]; exact heq)
  omega

theorem good_cost (N : Int) (dg : Int → Int) (t : Tour) (hg : GoodTour N dg t) :
    t.cost = pathCost N dg (pathOf t) := by
  rw [pathOf_eq t hg.1, hg.2.1, hg.2.2.2.2]
  rfl

/-- Claim C9: for a valid matrix, every tour on a stack that occurs during a run (the shared
stack of the partition phase, a thread's stack during the drain and during the tree search,
for any value of `best_tour`) starts with city 0, has no city twice among the positions
`[1, count)`, and has a `cost` equal to the sum of the travel costs between its consecutive
visited cities.  Every tour that a loop body pushes is on the stack when that body ends. -/
theorem pushed_tours_well_formed (num_cities : Int) (digraph : Int → Int) (uninit : Tour)
    (hv : ValidMatrix num_cities digraph) (stack : List Tour)
    (h : StackReach num_cities digraph uninit stack) :
    ∀ t ∈ stack, t.cities 0 = 0 ∧
      (∀ i j, 1 ≤ i → i < j → j < t.count → t.cities i ≠ t.cities j) ∧
      t.cost = pathCost num_cities digraph (pathOf t) := by
  intro t ht
  have hg := stackReach_good num_cities digraph uninit hv.1 stack h t ht
  exact ⟨hg.2.1, fun i j hi hij hj => good_cells_distinct num_cities digraph t hg i j hi hij hj,
    good_cost num_cities digraph t hg⟩

theorem two_cities_valid : ValidMatrix 2 (digraphOfRows twoCityRows) := by
  apply validMatrix_of_bound 2 (digraphOfRows twoCityRows) 1 (by decide)
  · intro i h0 h4
    interval_cases i <;> decide
  · intro i j hi0 hi4 hj0 hj4 hne
    interval_cases i <;> interval_cases j <;> first | decide | exact absurd rfl hne
  · intro i j hi0 hi4 hj0 hj4
    interval_cases i <;> interval_cases j <;> decide
  · decide

theorem two_cities_partition (fuel : Nat) :
    absPartitionLoop 2 3 fuel [[]] = .error .outOfFuel ∨
    absPartitionLoop 2 3 fuel [[]] = .error .nullDeref := by
  match fuel with
  | 0 => left; rfl
  | 1 => left; rfl
  | 2 => left; rfl
  | f + 3 =>
    right
    rw [absPartitionLoop_step 2 3 (f + 2) [] [] (by decide)]
    have e1 : absExpand 2 [] ++ [] = [[1]] := by decide
    rw [e1, absPartitionLoop_step 2 3 (f + 1) [1] [] (by decide)]
    have e2 : absExpand 2 [1] ++ [] = [] := by decide
    rw [e2]
    simp [absPartitionLoop]

theorem treeSearch_partition_error (N : Int) (dg : Int → Int) (uninit : Tour) (w : Int)
    (drainOrder searchOrder : List Nat) (fuel : Nat) (e : Fault)
    (h : absPartitionLoop N w fuel [[]] = .error e) :
    treeSearch N dg uninit w drainOrder searchOrder fuel = .error e := by
  have hinit := initTour_good N dg (allocTour uninit []).1
  have hrep0 : PartRep N dg
      { initial_partition_stack := push [] (initTour N (allocTour uninit []).1)
        available_stack := []
        current_size := 0 + 1 } [[]] :=
    ⟨List.Forall₂.cons hinit List.Forall₂.nil, by simp⟩
  have hsim := partitionLoop_sim N dg uninit w fuel _ _ hrep0
  rw [h] at hsim
  simp only [treeSearch, partitionPhase, hsim]

/-- Counterexample to claim C3 as stated: for the valid matrix `[[0,1],[1,0]]` of 2 cities and 3 threads
(3 is among the thread counts 1, 2, 3 of the claim) no run ends with a recorded best cost,
whatever the fuel and the orders of the threads: the partition phase empties the shared
stack and dereferences the `NULL` that `pop` returns. -/
theorem worker_count_counterexample :
    ValidMatrix 2 (digraphOfRows twoCityRows) ∧
    (¬ ∃ (uninit : Tour) (drainOrder searchOrder : List Nat) (fuel : Nat) (best : Tour),
      treeSearch 2 (digraphOfRows twoCityRows) uninit 3 drainOrder searchOrder fuel
        = .ok best) ∧
    treeSearch 2 (digraphOfRows twoCityRows) zeroTour 3 [0, 1, 2] [0, 1, 2] 3
      = .error .nullDeref := by
  refine ⟨two_cities_valid, ?_, ?_⟩
  · rintro ⟨uninit, drainOrder, searchOrder, fuel, best, h⟩
    rcases two_cities_partition fuel with he | he
    · rw [treeSearch_partition_error _ _ _ _ _ _ _ _ he] at h
      cases h
    · rw [treeSearch_partition_error _ _ _ _ _ _ _ _ he] at h
      cases h
  · exact treeSearch_partition_error _ _ _ _ _ _ _ _ rfl

/-! ## The partition phase, the input, termination and the order of the search -/

theorem descentSize_closed (N : Int) (d : Nat) :
    2 * descentSize N d = 2 + (d : Int) * (2 * N - 3 - (d : Int)) := by
  induction d with
  | zero => simp [descentSize]
  | succ d ih =>
    simp only [descentSize]
    push_cast
    linarith [ih]

theorem descentSize_mono (N : Int) (d k : Nat) (hdk : d ≤ k) (hk : (k : Int) ≤ N - 1) :
    descentSize N d ≤ descentSize N k := by
  induction k with
  | zero =>
    have : d = 0 := by omega
    subst this; exact le_refl _
  | succ k ih =>
    rcases Nat.lt_or_ge d (k + 1) with h | h
    · have := ih (by omega) (by push_cast at hk; omega)
      simp only [descentSize]
      push_cast at hk
      omega
    · have : d = k + 1 := by omega
      subst this; exact le_refl _

theorem descentSize_max (N : Int) (hN : 1 ≤ N) :
    descentSize N (N - 1).toNat = maxStaged N := by
  have h := descentSize_closed N (N - 1).toNat
  have e : (((N - 1).toNat : Nat) : Int) = N - 1 := by omega
  rw [e] at h
  have h2 : (N - 1) * (2 * N - 3 - (N - 1)) = (N - 1) * (N - 2) := by ring
  rw [h2] at h
  unfold maxStaged
  omega

theorem filter_mem_length (l r : List Int) (hl : l.Nodup) (hr : r.Nodup) (hsub : r ⊆ l) :
    (l.filter fun c => decide (c ∉ r)).length = l.length - r.length := by
  have h1 : (l.filter fun c => decide (c ∈ r)).Perm r := by
    apply (List.perm_ext_iff_of_nodup (hl.filter _) hr).mpr
    intro a
    simp only [List.mem_filter, decide_eq_true_eq]
    exact ⟨fun h => h.2, fun h => ⟨hsub h, h⟩⟩
  have h2 := List.filter_append_perm (fun c => decide (c ∈ r)) l
  have h3 := h2.length_eq
  rw [List.length_append, h1.length_eq] at h3
  have h4 : (l.filter fun c => decide (c ∉ r)) = l.filter fun x => !decide (x ∈ r) := by
    apply List.filter_congr
    intro x _
    simp
  rw [h4]
  omega

theorem validVisited_length (N : Int) (r : List Int) (h : ValidVisited N r) :
    r.length ≤ (N - 1).toNat :=
  length_le_of_good N r h.1 h.2

theorem absExpand_length (N : Int) (r : List Int) (h : ValidVisited N r) :
    (absExpand N r).length = (N - 1).toNat - r.length := by
  unfold absExpand
  rw [List.length_map, List.length_reverse,
    filter_mem_length (citiesUp N) r (citiesUp_nodup N) h.1
      (fun c hc => (mem_citiesUp N c).mpr (h.2 c hc)), citiesUp_length]

theorem mem_absExpand (N : Int) (r x : List Int) :
    x ∈ absExpand N r ↔ ∃ c, (1 ≤ c ∧ c < N) ∧ c ∉ r ∧ x = r ++ [c] := by
  unfold absExpand
  simp only [List.mem_map, List.mem_reverse, List.mem_filter, decide_eq_true_eq, mem_citiesUp]
  constructor
  · rintro ⟨c, ⟨hc, hnr⟩, rfl⟩; exact ⟨c, hc, hnr, rfl⟩
  · rintro ⟨c, hc, hnr, rfl⟩; exact ⟨c, ⟨hc, hnr⟩, rfl⟩

theorem absExpand_valid (N : Int) (r : List Int) (h : ValidVisited N r) :
    ∀ x ∈ absExpand N r, ValidVisited N x ∧ x.length = r.length + 1 := by
  intro x hx
  obtain ⟨c, hc, hnr, rfl⟩ := (mem_absExpand N r x).mp hx
  refine ⟨⟨?_, ?_⟩, by simp⟩
  · exact List.Nodup.append h.1 (List.nodup_singleton c) (by
      intro y hy hy2
      rw [List.mem_singleton] at hy2
      subst hy2
      exact hnr hy)
  · intro y hy
    rw [List.mem_append, List.mem_singleton] at hy
    rcases hy with hy | hy
    · exact h.2 y hy
    · subst hy; exact hc

theorem suffixBound_append (N : Int) (d : Nat) (rest : List (List Int))
    (hrest : SuffixBound N rest) :
    ∀ kids : List (List Int), (∀ k ∈ kids, k.length = d) →
      ((kids.length + rest.length : Nat) : Int) ≤ descentSize N d →
      SuffixBound N (kids ++ rest) := by
  intro kids
  induction kids with
  | nil => intro _ _; exact hrest
  | cons k kids ih =>
    intro hk hlen
    refine ⟨?_, ih (fun x hx => hk x (List.mem_cons_of_mem _ hx)) ?_⟩
    · rw [hk k (List.mem_cons_self _ _)]
      show (((k :: (kids ++ rest)).length : Nat) : Int) ≤ _
      simp only [List.length_cons, List.length_append] at hlen ⊢
      push_cast at hlen ⊢
      omega
    · simp only [List.length_cons] at hlen
      push_cast at hlen ⊢
      omega

theorem suffixBound_step (N : Int) (r : List Int) (rest : List (List Int))
    (hv : ValidVisited N r) (h : SuffixBound N (r :: rest)) :
    SuffixBound N (absExpand N r ++ rest) := by
  obtain ⟨hlen, hrest⟩ := h
  have hkl := absExpand_length N r hv
  have hrl := validVisited_length N r hv
  by_cases hc : r.length = (N - 1).toNat
  · have : absExpand N r = [] := List.eq_nil_of_length_eq_zero (by omega)
    rw [this]; exact hrest
  · apply suffixBound_append N (r.length + 1) rest hrest _
      (fun k hk => (absExpand_valid N r hv k hk).2)
    rw [hkl]
    simp only [descentSize, List.length_cons] at hlen ⊢
    push_cast at hlen ⊢
    omega

theorem suffixBound_le_max (N : Int) (hN : 1 ≤ N) (staged : List (List Int))
    (hv : ∀ r ∈ staged, ValidVisited N r) (h : SuffixBound N staged) :
    (staged.length : Int) ≤ maxStaged N := by
  cases staged with
  | nil =>
    have := descentSize_max N hN
    have h2 := descentSize_mono N 0 (N - 1).toNat (by omega) (by omega)
    simp only [descentSize] at h2
    simp only [List.length_nil, Nat.cast_zero]
    omega
  | cons r rest =>
    have hrl := validVisited_length N r (hv r (List.mem_cons_self _ _))
    have h2 := descentSize_mono N r.length (N - 1).toNat hrl (by omega)
    rw [descentSize_max N hN] at h2
    exact le_trans h.1 h2

theorem absWeight_cons (N : Int) (r : List Int) (rest : List (List Int)) :
    absWeight N (r :: rest)
      = searchWeight N (N - 1 - (r.length : Int)).toNat + absWeight N rest := by
  simp [absWeight]

theorem absWeight_append (N : Int) (l1 l2 : List (List Int)) :
    absWeight N (l1 ++ l2) = absWeight N l1 + absWeight N l2 := by
  simp [absWeight]

theorem absWeight_kids (N : Int) (d : Nat) (kids : List (List Int))
    (h : ∀ k ∈ kids, k.length = d) :
    absWeight N kids = kids.length * searchWeight N (N - 1 - (d : Int)).toNat := by
  induction kids with
  | nil => simp [absWeight]
  | cons k kids ih =>
    rw [absWeight_cons, ih (fun x hx => h x (List.mem_cons_of_mem _ hx)),
      h k (List.mem_cons_self _ _), List.length_cons]
    ring

theorem absWeight_step (N : Int) (r : List Int) (rest : List (List Int))
    (hv : ValidVisited N r) :
    absWeight N (absExpand N r ++ rest) + 1 ≤ absWeight N (r :: rest) := by
  have hkl := absExpand_length N r hv
  have hrl := validVisited_length N r hv
  rw [absWeight_append, absWeight_cons,
    absWeight_kids N (r.length + 1) (absExpand N r) (fun k hk => (absExpand_valid N r hv k hk).2)]
  by_cases hc : r.length = (N - 1).toNat
  · rw [hkl, hc]
    have := searchWeight_pos N (N - 1 - ((N - 1).toNat : Int)).toNat
    simp only [Nat.sub_self, Nat.zero_mul]
    omega
  · have e : (N - 1 - (r.length : Int)).toNat = (N - 1 - ((r.length + 1 : Nat) : Int)).toNat + 1 := by
      push_cast; omega
    rw [e]
    simp only [searchWeight]
    have := Nat.mul_le_mul_right (searchWeight N (N - 1 - ((r.length + 1 : Nat) : Int)).toNat)
      (show (absExpand N r).length ≤ (N - 1).toNat by omega)
    omega

/-- Above `maxStaged` threads the partition loop never ends with staged tours. -/
theorem absPartition_never_ok (N w : Int) (hN : 1 ≤ N) (hw : maxStaged N < w) :
    ∀ (fuel : Nat) (staged : List (List Int)), (∀ r ∈ staged, ValidVisited N r) →
      SuffixBound N staged → ∀ x, absPartitionLoop N w fuel staged ≠ .ok x := by
  intro fuel
  induction fuel with
  | zero =>
    intro staged hv hs x
    have hlt : (staged.length : Int) < w :=
      lt_of_le_of_lt (suffixBound_le_max N hN staged hv hs) hw
    simp [absPartitionLoop, hlt]
  | succ fuel ih =>
    intro staged hv hs x
    have hlt : (staged.length : Int) < w :=
      lt_of_le_of_lt (suffixBound_le_max N hN staged hv hs) hw
    cases staged with
    | nil =>
      have h0 : (0 : Int) < w := by simpa using hlt
      simp [absPartitionLoop, h0]
    | cons r rest =>
      rw [absPartitionLoop_step N w fuel r rest hlt]
      have hvr := hv r (List.mem_cons_self _ _)
      apply ih
      · intro y hy
        rcases List.mem_append.mp hy with hy | hy
        · exact (absExpand_valid N r hvr y hy).1
        · exact hv y (List.mem_cons_of_mem _ hy)
      · exact suffixBound_step N r rest hvr hs

/-- Above `maxStaged` threads the partition loop empties the staged list and pops `NULL`. -/
theorem absPartition_exhausts (N w : Int) (hN : 1 ≤ N) (hw : maxStaged N < w) :
    ∀ (fuel : Nat) (staged : List (List Int)), (∀ r ∈ staged, ValidVisited N r) →
      SuffixBound N staged → absWeight N staged < fuel →
      absPartitionLoop N w fuel staged = .error .nullDeref := by
  intro fuel
  induction fuel with
  | zero => intro staged _ _ h; omega
  | succ fuel ih =>
    intro staged hv hs hwt
    have hlt : (staged.length : Int) < w :=
      lt_of_le_of_lt (suffixBound_le_max N hN staged hv hs) hw
    cases staged with
    | nil =>
      have h0 : (0 : Int) < w := by simpa using hlt
      simp [absPartitionLoop, h0]
    | cons r rest =>
      rw [absPartitionLoop_step N w fuel r rest hlt]
      have hvr := hv r (List.mem_cons_self _ _)
      apply ih
      · intro y hy
        rcases List.mem_append.mp hy with hy | hy
        · exact (absExpand_valid N r hvr y hy).1
        · exact hv y (List.mem_cons_of_mem _ hy)
      · exact suffixBound_step N r rest hvr hs
      · have := absWeight_step N r rest hvr
        omega

theorem isPrefixOf_child (r o : List Int) (c c0 : Int) (tl : List Int)
    (ho : o = r ++ c0 :: tl) : (r ++ [c]).isPrefixOf o = decide (c = c0) := by
  rw [Bool.eq_iff_iff, List.isPrefixOf_iff_prefix, decide_eq_true_eq, ho]
  constructor
  · rintro ⟨t, ht⟩
    rw [List.append_assoc] at ht
    have := List.append_cancel_left ht
    simp only [List.singleton_append, List.cons.injEq] at this
    exact this.1
  · rintro rfl
    exact ⟨tl, by simp⟩

theorem exactCover_step (N : Int) (r : List Int) (rest : List (List Int))
    (hlen : r.length < (N - 1).toNat)
    (h : ExactCover N (r :: rest)) : ExactCover N (absExpand N r ++ rest) := by
  intro o ho
  have h1 := h o ho
  rw [List.countP_cons] at h1
  rw [List.countP_append]
  have hond : o.Nodup := ho.nodup_iff.mpr (citiesUp_nodup N)
  by_cases hp : r.isPrefixOf o = true
  · simp only [hp, if_true] at h1
    have hp2 := List.isPrefixOf_iff_prefix.mp hp
    obtain ⟨c0, tl, hsplit⟩ := prefix_next hp2 (by
      rw [ho.length_eq, citiesUp_length]; exact hlen)
    have hc0 : c0 ∈ o := by rw [hsplit]; simp
    have hc0r : 1 ≤ c0 ∧ c0 < N := (mem_citiesUp N c0).mp (ho.subset hc0)
    have hnr : c0 ∉ r := by
      intro hmem
      rw [hsplit] at hond
      exact (List.nodup_append.mp hond).2.2 hmem (List.mem_cons_self _ _)
    have hk : (absExpand N r).countP (fun x => x.isPrefixOf o) = 1 := by
      unfold absExpand
      rw [List.countP_map]
      have hcongr : ∀ c ∈ ((citiesUp N).filter fun c => decide (c ∉ r)).reverse,
          ((fun x : List Int => x.isPrefixOf o) ∘ fun c => r ++ [c]) c = true ↔ (c == c0) = true := by
        intro c _
        simp only [Function.comp, isPrefixOf_child r o c c0 tl hsplit, decide_eq_true_eq,
          beq_iff_eq]
      rw [List.countP_congr hcongr]
      have hnd : (((citiesUp N).filter fun c => decide (c ∉ r)).reverse).Nodup :=
        List.nodup_reverse.mpr ((citiesUp_nodup N).filter _)
      have hmem : c0 ∈ ((citiesUp N).filter fun c => decide (c ∉ r)).reverse := by
        rw [List.mem_reverse, List.mem_filter]
        exact ⟨(mem_citiesUp N c0).mpr hc0r, by simpa using hnr⟩
      exact List.count_eq_one_of_mem hnd hmem
    omega
  · simp only [hp] at h1
    have hk : (absExpand N r).countP (fun x => x.isPrefixOf o) = 0 := by
      rw [List.countP_eq_zero]
      intro x hx hxp
      obtain ⟨c, _, _, rfl⟩ := (mem_absExpand N r x).mp hx
      apply hp
      rw [List.isPrefixOf_iff_prefix] at hxp ⊢
      exact List.IsPrefix.trans (List.prefix_append _ _) hxp
    simp only [Bool.false_eq_true, if_false, zero_add] at h1
    omega

theorem descentInv_init (N : Int) : DescentInv N [[]] := by
  refine ⟨⟨[], [], rfl, by simp [descentSize]⟩, ?_, ?_⟩
  · intro x hx
    rw [List.mem_singleton] at hx
    subst hx
    exact ⟨List.nodup_nil, fun c hc => by cases hc⟩
  · intro o _
    simp [List.countP_cons, List.isPrefixOf]

theorem descentInv_step (N w : Int) (hN : 1 ≤ N) (hw : w ≤ maxStaged N) (r : List Int)
    (rest : List (List Int)) (h : DescentInv N (r :: rest))
    (hlt : ((r :: rest).length : Int) < w) :
    r.length < (N - 1).toNat ∧ DescentInv N (absExpand N r ++ rest) ∧
    ∃ r2 rest2, absExpand N r ++ rest = r2 :: rest2 ∧ r2.length = r.length + 1 := by
  obtain ⟨⟨r0, rest0, heq, hsize⟩, hv, hcov⟩ := h
  obtain ⟨h1, h2⟩ := List.cons.inj heq
  subst h1 h2
  have hvr := hv r (List.mem_cons_self _ _)
  have hrl := validVisited_length N r hvr
  have hkl := absExpand_length N r hvr
  have hd : r.length < (N - 1).toNat := by
    by_contra hcon
    have e : r.length = (N - 1).toNat := by omega
    rw [e, descentSize_max N hN] at hsize
    omega
  cases hk : absExpand N r with
  | nil => rw [hk] at hkl; simp at hkl; omega
  | cons k kids =>
    have hk1 := (absExpand_valid N r hvr k (by rw [hk]; exact List.mem_cons_self _ _)).2
    refine ⟨hd, ⟨⟨k, kids ++ rest, rfl, ?_⟩, ?_, ?_⟩, ⟨k, kids ++ rest, rfl, hk1⟩⟩
    · rw [hk1]
      rw [hk] at hkl
      show (((k :: (kids ++ rest)).length : Nat) : Int) = _
      simp only [descentSize, List.length_append, List.length_cons] at hsize hkl ⊢
      push_cast at hsize ⊢
      omega
    · intro y hy
      rw [← hk] at hy
      rcases List.mem_append.mp hy with hy | hy
      · exact (absExpand_valid N r hvr y hy).1
      · exact hv y (List.mem_cons_of_mem _ hy)
    · rw [← hk]
      exact exactCover_step N r rest hd hcov

/-- Up to `maxStaged` threads, a result of the partition loop has at least `thread_count`
entries and covers every ordering exactly once. -/
theorem absPartition_ok_cover (N w : Int) (hN : 1 ≤ N) (hw : w ≤ maxStaged N) :
    ∀ (fuel : Nat) (staged x : List (List Int)), DescentInv N staged →
      absPartitionLoop N w fuel staged = .ok x →
      w ≤ (x.length : Int) ∧ (∀ r ∈ x, ValidVisited N r) ∧ ExactCover N x := by
  intro fuel
  induction fuel with
  | zero =>
    intro staged x hinv hrun
    by_cases hlt : (staged.length : Int) < w
    · simp [absPartitionLoop, hlt] at hrun
    · rw [absPartitionLoop_done N w 0 staged (by omega)] at hrun
      cases hrun
      exact ⟨by omega, hinv.2.1, hinv.2.2⟩
  | succ fuel ih =>
    intro staged x hinv hrun
    by_cases hlt : (staged.length : Int) < w
    · obtain ⟨⟨r, rest, rfl, _⟩, _, _⟩ := id hinv
      rw [absPartitionLoop_step N w fuel r rest hlt] at hrun
      exact ih _ x (descentInv_step N w hN hw r rest hinv hlt).2.1 hrun
    · rw [absPartitionLoop_done N w _ staged (by omega)] at hrun
      cases hrun
      exact ⟨by omega, hinv.2.1, hinv.2.2⟩

/-- Up to `maxStaged` threads, the partition loop ends within `num_cities` loop bodies. -/
theorem absPartition_ends (N w : Int) (hN : 1 ≤ N) (hw : w ≤ maxStaged N) :
    ∀ (k : Nat) (r : List Int) (rest : List (List Int)), DescentInv N (r :: rest) →
      (N - 1).toNat - r.length ≤ k →
      ∀ fuel, k ≤ fuel → ∃ x, absPartitionLoop N w fuel (r :: rest) = .ok x := by
  intro k
  induction k with
  | zero =>
    intro r rest hinv hk fuel _
    by_cases hlt : (((r :: rest).length : Nat) : Int) < w
    · have := (descentInv_step N w hN hw r rest hinv hlt).1
      omega
    · exact ⟨_, absPartitionLoop_done N w fuel _ (by omega)⟩
  | succ k ih =>
    intro r rest hinv hk fuel hfuel
    by_cases hlt : (((r :: rest).length : Nat) : Int) < w
    · obtain ⟨f, rfl⟩ : ∃ f, fuel = f + 1 := ⟨fuel - 1, by omega⟩
      rw [absPartitionLoop_step N w f r rest hlt]
      obtain ⟨hd, hinv2, r2, rest2, heq, hr2⟩ := descentInv_step N w hN hw r rest hinv hlt
      rw [heq] at hinv2 ⊢
      exact ih r2 rest2 hinv2 (by omega) f (by omega)
    · exact ⟨_, absPartitionLoop_done N w fuel _ (by omega)⟩

theorem partRep_init (N : Int) (dg : Int → Int) (uninit : Tour) :
    PartRep N dg
      { initial_partition_stack := push [] (initTour N (allocTour uninit []).1)
        available_stack := []
        current_size := 0 + 1 } [[]] :=
  ⟨List.Forall₂.cons (initTour_good N dg (allocTour uninit []).1) List.Forall₂.nil, by simp⟩

theorem partitionPhase_sim (N : Int) (dg : Int → Int) (uninit : Tour) (w : Int) (fuel : Nat) :
    match absPartitionLoop N w fuel [[]] with
    | .ok staged2 =>
      ∃ p2, partitionPhase N dg uninit w fuel = .ok p2 ∧ PartRep N dg p2 staged2
    | .error e => partitionPhase N dg uninit w fuel = .error e :=
  partitionLoop_sim N dg uninit w fuel _ _ (partRep_init N dg uninit)

theorem partitionPhase_ok_abs (N : Int) (dg : Int → Int) (uninit : Tour) (w : Int) (fuel : Nat)
    (p : PartState) (h : partitionPhase N dg uninit w fuel = .ok p) :
    ∃ staged, absPartitionLoop N w fuel [[]] = .ok staged ∧ PartRep N dg p staged := by
  have hsim := partitionPhase_sim N dg uninit w fuel
  cases habs : absPartitionLoop N w fuel [[]] with
  | error e =>
    rw [habs] at hsim
    simp only at hsim
    rw [hsim] at h
    cases h
  | ok staged =>
    rw [habs] at hsim
    obtain ⟨p2, hp2, hrep⟩ := hsim
    rw [hp2] at h
    cases h
    exact ⟨staged, rfl, hrep⟩

theorem init_valid (N : Int) : ∀ r ∈ ([[]] : List (List Int)), ValidVisited N r := by
  intro r hr
  rw [List.mem_singleton] at hr
  subst hr
  exact ⟨List.nodup_nil, fun c hc => by cases hc⟩

theorem init_suffixBound (N : Int) : SuffixBound N [[]] := by
  simp [SuffixBound, descentSize]

/-- Up to `maxStaged` threads the partition phase ends with at least `thread_count` staged
tours, counted by `current_size`. -/
theorem partitionPhase_ends (N : Int) (dg : Int → Int) (uninit : Tour) (w : Int) (hN : 1 ≤ N)
    (hw : w ≤ maxStaged N) :
    ∀ fuel, (N - 1).toNat ≤ fuel →
      ∃ p, partitionPhase N dg uninit w fuel = .ok p ∧
        w ≤ (p.initial_partition_stack.length : Int) ∧
        p.current_size = (p.initial_partition_stack.length : Int) := by
  intro fuel hfuel
  obtain ⟨x, hx⟩ := absPartition_ends N w hN hw (N - 1).toNat [] [] (descentInv_init N)
    (by simp) fuel hfuel
  have hsim := partitionPhase_sim N dg uninit w fuel
  rw [hx] at hsim
  obtain ⟨p, hp, hrep, hsize⟩ := hsim
  have hlen : p.initial_partition_stack.length = x.length := hrep.length_eq
  have hprops := absPartition_ok_cover N w hN hw fuel [[]] x (descentInv_init N) hx
  exact ⟨p, hp, by rw [hlen]; exact hprops.1, by rw [hlen]; exact hsize⟩

/-- Above `maxStaged` threads the partition phase pops `NULL` and dereferences it. -/
theorem partitionPhase_faults (N : Int) (dg : Int → Int) (uninit : Tour) (w : Int) (hN : 1 ≤ N)
    (hw : maxStaged N < w) :
    (∀ fuel, absWeight N [[]] < fuel → partitionPhase N dg uninit w fuel = .error .nullDeref) ∧
    ∀ fuel p, partitionPhase N dg uninit w fuel ≠ .ok p := by
  constructor
  · intro fuel hfuel
    have hsim := partitionPhase_sim N dg uninit w fuel
    rw [absPartition_exhausts N w hN hw fuel [[]] (init_valid N) (init_suffixBound N) hfuel]
      at hsim
    exact hsim
  · intro fuel p hp
    obtain ⟨staged, habs, _⟩ := partitionPhase_ok_abs N dg uninit w fuel p hp
    exact absPartition_never_ok N w hN hw fuel [[]] (init_valid N) (init_suffixBound N) staged habs

/-- Claim C11, amended: for every city count `num_cities >= 1` and every thread count `w`
with `1 <= w <= 1 + (num_cities - 1)(num_cities - 2)/2`, with enough fuel the partition phase
ends without a fault (it never pops from an empty shared stack) and leaves a shared stack that
holds at least `w` tours. -/
theorem partition_terminates (num_cities : Int) (digraph : Int → Int) (uninit : Tour)
    (thread_count : Int) (hN : 1 ≤ num_cities)
    (hw : thread_count ≤ 1 + (num_cities - 1) * (num_cities - 2) / 2) :
    ∃ fuel0, ∀ fuel, fuel0 ≤ fuel →
      ∃ p, partitionPhase num_cities digraph uninit thread_count fuel = .ok p ∧
        thread_count ≤ (p.initial_partition_stack.length : Int) := by
  refine ⟨(num_cities - 1).toNat, fun fuel hfuel => ?_⟩
  obtain ⟨p, hp, hlen, _⟩ :=
    partitionPhase_ends num_cities digraph uninit thread_count hN hw fuel hfuel
  exact ⟨p, hp, hlen⟩

/-- Counterexample to claim C11 as stated: with 4 cities and 5 threads (5 is at most
`(4-1)! = 6`) the partition phase never ends with staged tours; it empties the shared stack
and dereferences the `NULL` that `pop` returns. -/
theorem partition_terminates_counterexample :
    (1 : Int) ≤ 4 ∧ (1 : Int) ≤ 5 ∧ (5 : Int) ≤ ((Nat.factorial (4 - 1) : Nat) : Int) ∧
    (¬ ∃ (digraph : Int → Int) (uninit : Tour) (fuel : Nat) (p : PartState),
      partitionPhase 4 digraph uninit 5 fuel = .ok p) ∧
    partitionPhase 4 (digraphOfRows exampleRows) zeroTour 5 17 = .error .nullDeref := by
  refine ⟨by decide, by decide, by decide, ?_, ?_⟩
  · rintro ⟨dg, uninit, fuel, p, hp⟩
    exact (partitionPhase_faults 4 dg uninit 5 (by decide) (by decide)).2 fuel p hp
  · have hsim := partitionPhase_sim 4 (digraphOfRows exampleRows) zeroTour 5 17
    have habs : absPartitionLoop 4 5 17 [[]] = .error .nullDeref := by rfl
    rw [habs] at hsim
    exact hsim

/-- Claim C18: for every `num_cities >= 1` and thread count `w`, the partition phase ends with
at least `w` staged tours if and only if `w <= 1 + (num_cities - 1)(num_cities - 2)/2`: up to
that count it ends, with enough fuel, with at least `w` staged tours; for every larger `w` it
never ends with staged tours, and with enough fuel the shared stack runs empty and the loop
pops the null tour, which the code dereferences. -/
theorem partition_threshold (num_cities : Int) (digraph : Int → Int) (uninit : Tour)
    (thread_count : Int) (hN : 1 ≤ num_cities) :
    ((∃ fuel p, partitionPhase num_cities digraph uninit thread_count fuel = .ok p ∧
        thread_count ≤ (p.initial_partition_stack.length : Int)) ↔
      thread_count ≤ 1 + (num_cities - 1) * (num_cities - 2) / 2) ∧
    (thread_count ≤ 1 + (num_cities - 1) * (num_cities - 2) / 2 →
      ∃ fuel0, ∀ fuel, fuel0 ≤ fuel →
        ∃ p, partitionPhase num_cities digraph uninit thread_count fuel = .ok p ∧
          thread_count ≤ (p.initial_partition_stack.length : Int)) ∧
    (1 + (num_cities - 1) * (num_cities - 2) / 2 < thread_count →
      ∃ fuel0, ∀ fuel, fuel0 ≤ fuel →
        partitionPhase num_cities digraph uninit thread_count fuel = .error .nullDeref) := by
  have hends : thread_count ≤ 1 + (num_cities - 1) * (num_cities - 2) / 2 →
      ∃ fuel0, ∀ fuel, fuel0 ≤ fuel →
        ∃ p, partitionPhase num_cities digraph uninit thread_count fuel = .ok p ∧
          thread_count ≤ (p.initial_partition_stack.length : Int) := by
    intro hw
    refine ⟨(num_cities - 1).toNat, fun fuel hfuel => ?_⟩
    obtain ⟨p, hp, hlen, _⟩ :=
      partitionPhase_ends num_cities digraph uninit thread_count hN hw fuel hfuel
    exact ⟨p, hp, hlen⟩
  refine ⟨⟨?_, ?_⟩, hends, ?_⟩
  · rintro ⟨fuel, p, hp, _⟩
    by_contra hcon
    exact (partitionPhase_faults num_cities digraph uninit thread_count hN
      (by unfold maxStaged; omega)).2 fuel p hp
  · intro hw
    obtain ⟨fuel0, h⟩ := hends hw
    obtain ⟨p, hp, hlen⟩ := h fuel0 (le_refl _)
    exact ⟨fuel0, p, hp, hlen⟩
  · intro hw
    refine ⟨absWeight num_cities [[]] + 1, fun fuel hfuel => ?_⟩
    exact (partitionPhase_faults num_cities digraph uninit thread_count hN hw).1 fuel
      (by omega)

theorem stackRep_pathOf (N : Int) (dg : Int → Int) (stack : List Tour)
    (staged : List (List Int)) (h : StackRep N dg stack staged) :
    stack.map pathOf = staged.map fun r => 0 :: r := by
  unfold StackRep at h
  induction h with
  | nil => rfl
  | cons hab _ ih =>
    rw [List.map_cons, List.map_cons, ih, pathOf_eq _ hab.1.1, hab.1.2.1, hab.2]

/-- Claim C19: whenever the partition phase ends normally, the staged tours cover the search
space exactly: every complete tour (city 0 followed by an ordering of the cities
`1 .. num_cities - 1`) has exactly one staged tour as a prefix, so no complete tour was
discarded and no two staged branches overlap; the staged size is at least the thread
count. -/
theorem partition_exact_cover (num_cities : Int) (digraph : Int → Int) (uninit : Tour)
    (thread_count : Int) (fuel : Nat) (p : PartState) (hN : 1 ≤ num_cities)
    (hp : partitionPhase num_cities digraph uninit thread_count fuel = .ok p) :
    thread_count ≤ (p.initial_partition_stack.length : Int) ∧
    ∀ o ∈ orderings num_cities,
      (p.initial_partition_stack.map pathOf).countP (fun q => q.isPrefixOf (0 :: o)) = 1 := by
  obtain ⟨staged, habs, hrep, _⟩ :=
    partitionPhase_ok_abs num_cities digraph uninit thread_count fuel p hp
  have hlen : p.initial_partition_stack.length = staged.length := hrep.length_eq
  by_cases hw : thread_count ≤ maxStaged num_cities
  · obtain ⟨h1, _, hcov⟩ := absPartition_ok_cover num_cities thread_count hN hw fuel [[]] staged
      (descentInv_init num_cities) habs
    refine ⟨by rw [hlen]; exact h1, ?_⟩
    intro o ho
    rw [stackRep_pathOf num_cities digraph _ _ hrep, List.countP_map]
    have := hcov o ((mem_orderings num_cities o).mp ho)
    rw [← this]
    apply List.countP_congr
    intro r _
    simp [List.isPrefixOf]
  · exact absurd habs (absPartition_never_ok num_cities thread_count hN (by omega) fuel [[]]
      (init_valid num_cities) (init_suffixBound num_cities) staged)

theorem checkEntry_none_iff (i j v : Int) : checkEntry i j v = none ↔ ¬ Offending i j v := by
  unfold checkEntry Offending
  by_cases h1 : i = j ∧ v ≠ 0
  · rw [if_pos h1]
    exact ⟨fun h => (by cases h), fun h => absurd (Or.inl h1) h⟩
  · rw [if_neg h1]
    by_cases h2 : i ≠ j ∧ v ≤ 0
    · rw [if_pos h2]
      exact ⟨fun h => (by cases h), fun h => absurd (Or.inr h2) h⟩
    · rw [if_neg h2]
      refine ⟨fun _ h => ?_, fun _ => rfl⟩
      rcases h with h | h
      · exact h1 h
      · exact h2 h

theorem findSome_range_first {β : Type} (g : Nat → Option β) (e : β) :
    ∀ (n k : Nat), k < n → (∀ m, m < k → g m = none) → g k = some e →
      (List.range n).findSome? g = some e := by
  intro n
  induction n with
  | zero => intro k hk; omega
  | succ n ih =>
    intro k hk hbefore hat
    rw [List.range_succ, List.findSome?_append]
    rcases Nat.lt_or_ge k n with h | h
    · rw [ih k h hbefore hat]; rfl
    · have e1 : k = n := by omega
      subst e1
      have hnone : (List.range k).findSome? g = none := by
        rw [List.findSome?_eq_none_iff]
        intro x hx
        exact hbefore x (List.mem_range.mp hx)
      rw [hnone]
      simp [List.findSome?, hat]

/-- Claim C12: reading a cost matrix fails if and only if `num_cities <= 0`, or some diagonal
entry is nonzero, or some entry off the diagonal is `<= 0`; the failure reported is the one of
the first offending entry in row-major order; and the input `2` with rows `[1,1]`, `[1,0]` is
rejected with the diagonal diagnostic, so that `main` ends before any search starts. -/
theorem readDigraph_fails_iff (garbage : Int → Int) (tokens : List Int) :
    ((∃ e, readDigraph garbage tokens = .error e) ↔
      (tokens.headD 0 ≤ 0 ∨ ∃ i j : Nat, (i : Int) < tokens.headD 0 ∧ (j : Int) < tokens.headD 0 ∧
        Offending (i : Int) (j : Int)
          (fileCell garbage tokens ((i : Int) * tokens.headD 0 + (j : Int))))) ∧
    (tokens.headD 0 ≤ 0 → readDigraph garbage tokens = .error .notPositive) ∧
    (∀ (i j : Nat) (e : ReadFault), (i : Int) < tokens.headD 0 → (j : Int) < tokens.headD 0 →
      checkEntry (i : Int) (j : Int)
        (fileCell garbage tokens ((i : Int) * tokens.headD 0 + (j : Int))) = some e →
      (∀ i2 j2 : Nat, (j2 : Int) < tokens.headD 0 → (i2 < i ∨ (i2 = i ∧ j2 < j)) →
        ¬ Offending (i2 : Int) (j2 : Int)
          (fileCell garbage tokens ((i2 : Int) * tokens.headD 0 + (j2 : Int)))) →
      readDigraph garbage tokens = .error e) ∧
    readDigraph garbage [2, 1, 1, 1, 0] = .error .diagonalNotZero ∧
    (∀ (uninit : Tour) (thread_count : Int) (drainOrder searchOrder : List Nat) (fuel : Nat),
      mainRun garbage uninit thread_count [2, 1, 1, 1, 0] drainOrder searchOrder fuel
        = .error .diagonalNotZero) := by
  refine ⟨?_, ?_, ?_, rfl, fun _ _ _ _ _ => rfl⟩
  · by_cases hN : tokens.headD 0 ≤ 0
    · refine ⟨fun _ => Or.inl hN, fun _ => ⟨.notPositive, ?_⟩⟩
      unfold readDigraph
      simp only [hN, if_true]
    · simp only [hN, false_or]
      unfold readDigraph
      simp only [hN, if_false]
      cases hfind : (List.range (tokens.headD 0).toNat).findSome? fun (i : Nat) =>
          (List.range (tokens.headD 0).toNat).findSome? fun (j : Nat) =>
            checkEntry (i : Int) (j : Int)
              (fileCell garbage tokens ((i : Int) * tokens.headD 0 + (j : Int))) with
      | none =>
        simp only [List.findSome?_eq_none_iff, List.mem_range] at hfind
        constructor
        · rintro ⟨e, he⟩; cases he
        · rintro ⟨i, j, hi, hj, hoff⟩
          exact absurd hoff ((checkEntry_none_iff _ _ _).mp (hfind i (by omega) j (by omega)))
      | some e =>
        refine ⟨fun _ => ?_, fun _ => ⟨e, rfl⟩⟩
        obtain ⟨l1, i, l2, hsplit, hi, _⟩ := List.findSome?_eq_some_iff.mp hfind
        obtain ⟨m1, j, m2, hsplit2, hj, _⟩ := List.findSome?_eq_some_iff.mp hi
        have hir : i ∈ List.range (tokens.headD 0).toNat := by rw [hsplit]; simp
        have hjr : j ∈ List.range (tokens.headD 0).toNat := by rw [hsplit2]; simp
        rw [List.mem_range] at hir hjr
        refine ⟨i, j, by omega, by omega, ?_⟩
        by_contra hno
        rw [(checkEntry_none_iff _ _ _).mpr hno] at hj
        cases hj
  · intro hN
    unfold readDigraph
    simp only [hN, if_true]
  · intro i j e hi hj hcheck hbefore
    have hN : ¬ tokens.headD 0 ≤ 0 := by omega
    unfold readDigraph
    simp only [hN, if_false]
    have hrow : ((List.range (tokens.headD 0).toNat).findSome? fun (j : Nat) =>
        checkEntry (i : Int) (j : Int)
          (fileCell garbage tokens ((i : Int) * tokens.headD 0 + (j : Int)))) = some e := by
      apply findSome_range_first _ e _ j (by omega) _ hcheck
      intro m hm
      exact (checkEntry_none_iff _ _ _).mpr (hbefore i m (by omega) (Or.inr ⟨rfl, hm⟩))
    have hall := findSome_range_first (fun (i : Nat) =>
        (List.range (tokens.headD 0).toNat).findSome? fun (j : Nat) =>
          checkEntry (i : Int) (j : Int)
            (fileCell garbage tokens ((i : Int) * tokens.headD 0 + (j : Int)))) e
      (tokens.headD 0).toNat i (by omega) (by
        intro m hm
        simp only [List.findSome?_eq_none_iff, List.mem_range]
        intro x hx
        exact (checkEntry_none_iff _ _ _).mpr (hbefore m x (by omega) (Or.inl hm))) hrow
    rw [hall]

/-- Claim C13: a recycled tour never leaks its old contents.  For every source tour and every
stack of available tours, the tour that `pushCopy` puts on the stack has the city array (all
`num_cities` cells), `count` and `cost` of the source, whatever the recycled instance held;
and two runs that differ only in the contents of the recycled instance push tours with the
same city array, `count` and `cost` and leave the same stack of available tours. -/
theorem pushCopy_no_leak (num_cities : Int) (uninit : Tour) (stack : List Tour) (src : Tour) :
    (∀ available_stack : List Tour,
      ∃ t, (pushCopy num_cities uninit stack src available_stack).1 = t :: stack ∧
        cityArray num_cities t = cityArray num_cities src ∧
        t.count = src.count ∧ t.cost = src.cost) ∧
    (∀ (temp temp2 : Tour) (rest : List Tour),
      ∃ t t2,
        pushCopy num_cities uninit stack src (temp :: rest) = (t :: stack, rest) ∧
        pushCopy num_cities uninit stack src (temp2 :: rest) = (t2 :: stack, rest) ∧
        cityArray num_cities t = cityArray num_cities t2 ∧
        t.count = t2.count ∧ t.cost = t2.cost) := by
  have hcopy : ∀ temp : Tour,
      cityArray num_cities (copyTour num_cities src temp) = cityArray num_cities src := by
    intro temp
    unfold cityArray
    apply List.map_congr_left
    intro i hi
    have := List.mem_range.mp hi
    have h2 : 0 ≤ (i : Int) ∧ (i : Int) < num_cities := by omega
    simp only [copyTour, h2, and_self, if_true]
  constructor
  · intro avail
    rw [pushCopy_eq]
    exact ⟨_, rfl, hcopy _, rfl, rfl⟩
  · intro temp temp2 rest
    refine ⟨copyTour num_cities src temp, copyTour num_cities src temp2, rfl, rfl, ?_, rfl, rfl⟩
    rw [hcopy, hcopy]

theorem searchCity_counts (N : Int) (dg : Int → Int) (uninit best : Tour) :
    ∀ (cs : List Int) (stack avail : List Tour) (u : Tour),
      ∃ kids avail2 u2,
        cs.foldl (searchCity N dg uninit best) ((stack, avail), u) = ((kids ++ stack, avail2), u2)
        ∧ u2.count = u.count ∧ kids.length ≤ cs.length
        ∧ ∀ k ∈ kids, k.count = u.count + 1 := by
  intro cs
  induction cs with
  | nil =>
    intro stack avail u
    exact ⟨[], avail, u, rfl, rfl, le_refl _, fun k hk => by cases hk⟩
  | cons c cs ih =>
    intro stack avail u
    rw [List.foldl_cons]
    by_cases hf : feasible N dg best u c = true
    · have hstep : searchCity N dg uninit best ((stack, avail), u) c
          = ((copyTour N (addCity N dg u c) (allocTour uninit avail).1 :: stack,
              (allocTour uninit avail).2), removeLastCity N dg (addCity N dg u c)) := by
        simp only [searchCity, hf, if_true, pushCopy_eq]
      rw [hstep]
      obtain ⟨kids, avail2, u2, hfold, hc, hlen, hk⟩ :=
        ih (copyTour N (addCity N dg u c) (allocTour uninit avail).1 :: stack)
          (allocTour uninit avail).2 (removeLastCity N dg (addCity N dg u c))
      have hcu : (removeLastCity N dg (addCity N dg u c)).count = u.count := by
        simp only [removeLastCity, addCity]; omega
      refine ⟨kids ++ [copyTour N (addCity N dg u c) (allocTour uninit avail).1], avail2, u2,
        ?_, by rw [hc, hcu], ?_, ?_⟩
      · rw [hfold]; simp
      · simp only [List.length_append, List.length_singleton, List.length_cons, List.length_nil]
        omega
      · intro k hk2
        rcases List.mem_append.mp hk2 with h | h
        · rw [hk k h, hcu]
        · rw [List.mem_singleton] at h
          subst h
          simp only [copyTour, addCity]
    · have hstep : searchCity N dg uninit best ((stack, avail), u) c = ((stack, avail), u) := by
        simp only [searchCity, hf, if_false]
        rfl
      rw [hstep]
      obtain ⟨kids, avail2, u2, hfold, hc, hlen, hk⟩ := ih stack avail u
      exact ⟨kids, avail2, u2, hfold, hc, by simp only [List.length_cons]; omega, hk⟩

/-- The search loop ends with an empty stack when no tour of the stack has more than
`num_cities` cities. -/
theorem searchLoop_terminates (N : Int) (dg : Int → Int) (uninit : Tour) :
    ∀ (fuel : Nat) (s : SearchState), (∀ t ∈ s.stack, t.count ≤ N) →
      stackWeight N s.stack ≤ fuel →
      ∃ s2, searchLoop N dg uninit fuel s = .ok s2 ∧ s2.stack = [] := by
  intro fuel
  induction fuel with
  | zero =>
    intro s _ hw
    have hst : s.stack = [] := by
      cases hs : s.stack with
      | nil => rfl
      | cons t rest =>
        rw [hs, stackWeight_cons] at hw
        have := searchWeight_pos N (N - t.count).toNat
        omega
    exact ⟨s, searchLoop_nil N dg uninit 0 s hst, hst⟩
  | succ fuel ih =>
    intro s hcnt hw
    cases hst : s.stack with
    | nil => exact ⟨s, searchLoop_nil N dg uninit _ s hst, hst⟩
    | cons t rest =>
      rw [searchLoop_cons N dg uninit fuel s t rest hst]
      rw [hst] at hcnt hw
      rw [stackWeight_cons] at hw
      have hrest : ∀ x ∈ rest, x.count ≤ N := fun x hx => hcnt x (List.mem_cons_of_mem _ hx)
      have ht := hcnt t (List.mem_cons_self _ _)
      have hpos := searchWeight_pos N (N - t.count).toNat
      by_cases hc : t.count = N
      · have hs1 := (searchStep_complete N dg uninit s t rest hst hc).1
        exact ih _ (by rw [hs1]; exact hrest) (by rw [hs1]; omega)
      · obtain ⟨kids, avail2, u2, hfold, _, hlen, hk⟩ :=
          searchCity_counts N dg uninit s.best_tour (citiesDown N) rest s.available_stack t
        have hs1 : (searchStep N dg uninit s).stack = kids ++ rest := by
          unfold searchStep
          rw [hst]
          simp only [pop, hc, if_false, hfold]
        have hkw : stackWeight N kids
            ≤ (N - 1).toNat * searchWeight N (N - (t.count + 1)).toNat := by
          rw [stackWeight_kids N (t.count + 1) kids hk]
          apply Nat.mul_le_mul_right
          refine le_trans hlen ?_
          simp [citiesDown, citiesUp]
        have hwt : searchWeight N (N - t.count).toNat
            = 1 + (N - 1).toNat * searchWeight N (N - (t.count + 1)).toNat := by
          have e : (N - t.count).toNat = (N - (t.count + 1)).toNat + 1 := by omega
          rw [e]; rfl
        apply ih
        · rw [hs1]
          intro x hx
          rcases List.mem_append.mp hx with hx | hx
          · rw [hk x hx]; omega
          · exact hrest x hx
        · rw [hs1, stackWeight_append]; omega

/-- Claim C14: for every initial stack of a thread whose tours have at most `num_cities`
cities (as the tour invariant `1 <= count <= num_cities` demands), every matrix and every
`best_tour`, with enough fuel the loop of the tree search ends, and it ends with the thread's
stack empty.  Validity of the matrix and absence of duplicates are not needed. -/
theorem search_terminates (num_cities : Int) (digraph : Int → Int) (uninit : Tour)
    (s : SearchState) (h : ∀ t ∈ s.stack, t.count ≤ num_cities) :
    ∃ fuel0, ∀ fuel, fuel0 ≤ fuel →
      ∃ s2, searchLoop num_cities digraph uninit fuel s = .ok s2 ∧ s2.stack = [] :=
  ⟨stackWeight num_cities s.stack,
    fun fuel hfuel => searchLoop_terminates num_cities digraph uninit fuel s h hfuel⟩

theorem drainNeed_cons (size w : Int) (t : Nat) (order : List Nat) :
    drainNeed size w (t :: order)
      = (tourCount size w (t : Int)).toNat + drainNeed size w order := by
  simp [drainNeed]

/-- Draining in an order without repetition moves the top of the shared stack, share by
share, to the stacks of the threads. -/
theorem drain_perm (size w : Int) : ∀ (order : List Nat) (r : RunState), order.Nodup →
    (∀ t ∈ order, r.thread_stack t = []) →
    drainNeed size w order ≤ r.shared.length →
    ∃ r2, runThreads (drainThread size w) order r = .ok r2 ∧
      r2.shared = r.shared.drop (drainNeed size w order) ∧
      ((order.map r2.thread_stack).flatten).Perm (r.shared.take (drainNeed size w order)) ∧
      (∀ u, u ∉ order → r2.thread_stack u = r.thread_stack u) ∧
      (∀ t ∈ order, (r2.thread_stack t).length = (tourCount size w (t : Int)).toNat) := by
  intro order
  induction order with
  | nil =>
    intro r _ _ _
    exact ⟨r, rfl, by simp [drainNeed], by simp [drainNeed], fun _ _ => rfl,
      fun t ht => by cases ht⟩
  | cons t order ih =>
    intro r hnd hempty hneed
    rw [drainNeed_cons] at hneed ⊢
    obtain ⟨htn, hnd2⟩ := List.nodup_cons.mp hnd
    have hstep := drainThread_spec size w r t (by omega)
    obtain ⟨r2, hrun, hsh, hperm, hother, hlen⟩ := ih
      { r with
        shared := r.shared.drop (tourCount size w (t : Int)).toNat
        thread_stack := fun u =>
          if u = t then (r.shared.take (tourCount size w (t : Int)).toNat).reverse
            ++ r.thread_stack t
          else r.thread_stack u } hnd2
      (by
        intro u hu
        have hut : u ≠ t := fun h => htn (h ▸ hu)
        simp only [hut, if_false]
        exact hempty u (List.mem_cons_of_mem _ hu))
      (by simp only [List.length_drop]; omega)
    simp only at hsh hperm hother hlen
    have ht2 : r2.thread_stack t = (r.shared.take (tourCount size w (t : Int)).toNat).reverse := by
      rw [hother t htn]
      simp only [if_true, hempty t (List.mem_cons_self _ _), List.append_nil]
    refine ⟨r2, ?_, ?_, ?_, ?_, ?_⟩
    · simp only [runThreads, hstep, hrun]
    · rw [hsh, List.drop_drop, Nat.add_comm]
    · rw [List.map_cons, List.flatten_cons, List.take_add, ht2]
      exact List.Perm.append (List.reverse_perm _) hperm
    · intro u hu
      have hut : u ≠ t := fun h => hu (h ▸ List.mem_cons_self _ _)
      rw [hother u (fun h => hu (List.mem_cons_of_mem _ h))]
      simp only [hut, if_false]
    · intro u hu
      rcases List.mem_cons.mp hu with h | h
      · subst h
        rw [ht2, List.length_reverse, List.length_take]
        omega
      · exact hlen u h

/-- Claim C15: for every staged total `>= 0` and `workers >= 1` the shares `tour_count` of the
workers `0 .. workers - 1` sum to exactly `total`; and draining a shared stack of `total`
tours share by share, in any order of the workers, never pops from the empty shared stack
(there is no fault), leaves the shared stack empty, and moves every staged tour to exactly one
worker's stack: the stacks of the workers together are a rearrangement of the staged tours, and
worker `t` holds `tour_count` of them. -/
theorem drain_shares (staged : List Tour) (workers : Int) (hw : 1 ≤ workers)
    (order : List Nat) (hperm : order.Perm (List.range workers.toNat)) (r : RunState)
    (hshared : r.shared = staged) (hempty : ∀ t, r.thread_stack t = []) :
    ((List.range workers.toNat).map fun (t : Nat) =>
        tourCount (staged.length : Int) workers (t : Int)).sum = (staged.length : Int) ∧
    ∃ r2, runThreads (drainThread (staged.length : Int) workers) order r = .ok r2 ∧
      r2.shared = [] ∧
      ((order.map r2.thread_stack).flatten).Perm staged ∧
      ∀ t ∈ order, ((r2.thread_stack t).length : Int)
        = tourCount (staged.length : Int) workers (t : Int) := by
  have h0 : (0 : Int) ≤ (staged.length : Int) := Int.natCast_nonneg _
  have hneed := drainNeed_perm (staged.length : Int) workers h0 hw order hperm
  rw [Int.toNat_natCast] at hneed
  constructor
  · have e3 := tourCount_sum_range (staged.length : Int) workers h0 hw workers.toNat (by omega)
    have hdm : workers * ((staged.length : Int) / workers) + (staged.length : Int) % workers
        = (staged.length : Int) := Int.ediv_add_emod _ _
    have hr0 : 0 ≤ (staged.length : Int) % workers := Int.emod_nonneg _ (by omega)
    have hr1 : (staged.length : Int) % workers < workers := Int.emod_lt_of_pos _ (by omega)
    have hwn : ((workers.toNat : Nat) : Int) = workers := by omega
    rw [hwn, min_eq_right (by omega)] at e3
    rw [e3]; linarith
  · obtain ⟨r2, hrun, hsh, hp, _, hlen⟩ := drain_perm (staged.length : Int) workers order r
      (hperm.nodup_iff.mpr (List.nodup_range _)) (fun t _ => hempty t)
      (by rw [hneed, hshared])
    rw [hneed, hshared] at hsh hp
    refine ⟨r2, hrun, by simpa using hsh, by simpa using hp, ?_⟩
    intro t ht
    rw [hlen t ht]
    have := tourCount_nonneg (staged.length : Int) workers (t : Int) h0 hw
    omega

theorem searchStep_best_cases (N : Int) (dg : Int → Int) (uninit : Tour) (s : SearchState) :
    (searchStep N dg uninit s).best_tour = s.best_tour ∨
    ∃ t ∈ s.stack, t.count = N ∧
      (searchStep N dg uninit s).best_tour = updateBest N dg s.best_tour t := by
  cases hst : s.stack with
  | nil =>
    left
    simp [searchStep, hst, pop]
  | cons t rest =>
    by_cases hc : t.count = N
    · right
      exact ⟨t, List.mem_cons_self _ _, hc,
        (searchStep_complete N dg uninit s t rest hst hc).2⟩
    · left
      unfold searchStep
      rw [hst]
      simp only [pop, hc, if_false]

/-- In the partition phase and in the tree search `addCity` writes below the end of the
array: a tour that satisfies the tour invariant and lacks a city has `count < num_cities`. -/
theorem addCity_stack_in_bounds (N : Int) (dg : Int → Int) (t : Tour) (hg : GoodTour N dg t)
    (c : Int) (hc : 1 ≤ c ∧ c < N) (hv : visited t c = false) :
    0 ≤ addCityIndex t ∧ addCityIndex t < allocatedCells N := by
  have hnv : c ∉ visitedOf t := by
    intro hmem
    rw [(visited_iff_mem t c).mpr hmem] at hv
    cases hv
  have hlen := length_le_of_good N (c :: visitedOf t)
    (List.nodup_cons.mpr ⟨hnv, hg.2.2.1⟩) (by
      intro x hx
      rcases List.mem_cons.mp hx with rfl | hx
      · exact hc
      · exact hg.2.2.2.1 x hx)
  rw [List.length_cons, visitedOf_length] at hlen
  have := hg.1
  unfold addCityIndex allocatedCells
  omega

/-- Claim C20 fails on the code: in the run with one thread on the example of the header
comment, the fourth loop body of the tree search pops the complete tour `0, 1, 2, 3`
(`count == 4`), `isNewBest` holds against the `best_tour` of that moment, and the `addCity`
inside `updateBest` then writes `best_tour->cities[4]`, while `allocTour` reserved 4 cells
(indices 0 to 3); after that loop body `best_tour` has `count == 5`, and the indices that
`main` prints end with 4 as well. -/
theorem addCity_best_tour_out_of_bounds :
    ((fun (s : SearchState) => s.stack.head?.map fun curr =>
        (pathOf curr, isNewBest 4 (digraphOfRows exampleRows) s.best_tour curr,
          addCityIndex (copyTour 4 curr s.best_tour)))
      ((searchStep 4 (digraphOfRows exampleRows) zeroTour)^[3]
        { stack := [initTour 4 zeroTour], available_stack := [],
          best_tour := initialBest 4 zeroTour }))
      = some ([0, 1, 2, 3], true, 4) ∧
    allocatedCells 4 = 4 ∧
    ¬ (4 : Int) < allocatedCells 4 ∧
    (∀ b t : Tour, isNewBest 4 (digraphOfRows exampleRows) b t = true →
      updateBest 4 (digraphOfRows exampleRows) b t
        = addCity 4 (digraphOfRows exampleRows) (copyTour 4 t b) 0) ∧
    ((searchStep 4 (digraphOfRows exampleRows) zeroTour)^[4]
        { stack := [initTour 4 zeroTour], available_stack := [],
          best_tour := initialBest 4 zeroTour }).best_tour.count = 5 ∧
    (printedIndices 4).getLast? = some 4 := by
  refine ⟨by decide, by decide, by decide, ?_, by decide, by decide⟩
  intro b t h
  simp only [updateBest, h, if_true]

theorem lexLess_append_left (p : List Int) {a b : List Int} (h : LexLess a b) :
    LexLess (p ++ a) (p ++ b) := by
  induction p with
  | nil => exact h
  | cons x p ih => exact List.Lex.cons ih

theorem lexLess_append_right {a b : List Int} (h : LexLess a b) (c : List Int)
    (hlen : a.length = b.length) : LexLess (a ++ c) (b ++ c) := by
  unfold LexLess at *
  induction h with
  | nil => simp at hlen
  | cons h ih => exact List.Lex.cons (ih (by simpa using hlen))
  | rel h => exact List.Lex.rel h

theorem before_lexLess {r r2 o o2 : List Int} (h : Before r r2) (hp : r <+: o)
    (hp2 : r2 <+: o2) : LexLess o o2 := by
  obtain ⟨p, c, c2, x, y, rfl, rfl, hc⟩ := h
  obtain ⟨t, rfl⟩ := hp
  obtain ⟨t2, rfl⟩ := hp2
  rw [List.append_assoc, List.append_assoc, List.cons_append, List.cons_append]
  exact lexLess_append_left p (List.Lex.rel hc)

theorem Before.extend {r r2 : List Int} (h : Before r r2) (c : Int) :
    Before (r ++ [c]) r2 := by
  obtain ⟨p, c1, c2, x, y, rfl, rfl, hc⟩ := h
  exact ⟨p, c1, c2, x ++ [c], y, by simp, rfl, hc⟩

theorem citiesUp_sorted (N : Int) : (citiesUp N).Pairwise (fun a b => a < b) := by
  unfold citiesUp
  rw [List.pairwise_map]
  exact (List.pairwise_lt_range _).imp (by intro a b h; omega)

/-- The cities that pass a test, taken from `citiesDown` and reversed, are in ascending
order: the children are pushed in descending order, so the smallest is on top. -/
theorem kids_ascending (N : Int) (p : Int → Bool) :
    (((citiesDown N).filter p).reverse).Pairwise (fun a b => a < b) := by
  rw [List.pairwise_reverse]
  apply List.Pairwise.filter
  unfold citiesDown
  rw [List.pairwise_reverse]
  exact citiesUp_sorted N

theorem kids_visitedOf (N : Int) (dg : Int → Int) (t : Tour) (h1 : 1 ≤ t.count) :
    ∀ (cs : List Int) (kids : List Tour),
      List.Forall₂ (fun c k => IsChild N dg t c k) cs kids →
      kids.map visitedOf = cs.map fun c => visitedOf t ++ [c] := by
  intro cs kids h
  induction h with
  | nil => rfl
  | cons hch _ ih =>
    rw [List.map_cons, List.map_cons, ih, hch.visitedOf_append h1]

/-- Expanding the top of a sorted stack leaves the stack sorted. -/
theorem stackSorted_expand (N : Int) (dg : Int → Int) (b t : Tour) (h1 : 1 ≤ t.count)
    (rest kids : List Tour) (hs : StackSorted (t :: rest))
    (hkids : List.Forall₂ (fun c k => IsChild N dg t c k)
      (((citiesDown N).filter fun c => feasible N dg b t c).reverse) kids) :
    StackSorted (kids ++ rest) := by
  unfold StackSorted at *
  rw [List.map_cons, List.pairwise_cons] at hs
  rw [List.map_append, List.pairwise_append, kids_visitedOf N dg t h1 _ _ hkids]
  refine ⟨?_, hs.2, ?_⟩
  · rw [List.pairwise_map]
    refine (kids_ascending N _).imp ?_
    intro c c2 hc
    exact ⟨visitedOf t, c, c2, [], [], rfl, rfl, hc⟩
  · intro a ha x hx
    obtain ⟨c, _, rfl⟩ := List.mem_map.mp ha
    exact (hs.1 x hx).extend c

/-- The two cases of `updateBest` on a complete tour: the record stays, and the tour is not
cheaper; or the tour is strictly cheaper and becomes the record. -/
theorem updateBest_cases (N : Int) (dg : Int → Int) (hN : 1 ≤ N) (b t : Tour)
    (hg : GoodTour N dg t) (hc : t.count = N) :
    (updateBest N dg b t = b ∧ b.cost ≤ cycleCost N dg (visitedOf t)) ∨
    (IsCycleRecord N dg (visitedOf t) (updateBest N dg b t) ∧
      cycleCost N dg (visitedOf t) < b.cost) := by
  have hcyc : cycleCost N dg (visitedOf t)
      = t.cost + travelCost N dg (t.cities (t.count - 1)) 0 := by
    rw [cycleCost_eq, hg.2.2.2.2, lastCity_eq t hg.1 hg.2.1]
  obtain ⟨_, _, hu3⟩ := updateBest_good N dg hN b t hg hc
  by_cases hnew : isNewBest N dg b t = true
  · have hlt := hnew
    simp only [isNewBest, decide_eq_true_eq] at hlt
    right
    rcases hu3 with h | h
    · exfalso
      have hub : updateBest N dg b t = addCity N dg (copyTour N t b) 0 := by
        simp only [updateBest, hnew, if_true]
      have e1 : t.count - 1 ≠ t.count := by omega
      have e2 : 0 ≤ t.count - 1 ∧ t.count - 1 < N := by have := hg.1; omega
      have hcost2 : (updateBest N dg b t).cost
          = t.cost + travelCost N dg (t.cities (t.count - 1)) 0 := by
        rw [hub]
        simp only [addCity, copyTour, e1, e2, if_false, and_self, if_true]
      rw [h] at hcost2
      omega
    · exact ⟨h, by omega⟩
  · left
    have hub : updateBest N dg b t = b := by
      simp only [updateBest, hnew]
      rfl
    simp only [isNewBest, decide_eq_true_eq] at hnew
    exact ⟨hub, by omega⟩

/-- A complete tour has one completion: itself. -/
theorem complete_unique (N : Int) (t : Tour) (hc : t.count = N)
    (o : List Int) (ho : o.Perm (citiesUp N)) (hp : visitedOf t <+: o) : o = visitedOf t := by
  have hlen : (visitedOf t).length = o.length := by
    rw [visitedOf_length, ho.length_eq, citiesUp_length, hc]
  exact (hp.eq_of_length hlen).symm

theorem complete_perm (N : Int) (dg : Int → Int) (t : Tour) (hg : GoodTour N dg t)
    (hc : t.count = N) : (visitedOf t).Perm (citiesUp N) :=
  perm_citiesUp_of_full N _ hg.2.2.1 hg.2.2.2.1 (by rw [visitedOf_length, hc])

/-- Every completion of an expanded tour either passes through one of the children that were
pushed, or costs more than the record: only branches that are already too expensive are
pruned. -/
theorem expand_cover (N : Int) (dg : Int → Int) (hv : ValidMatrix N dg) (b t : Tour)
    (hgt : GoodTour N dg t) (hlt : t.count < N) (kids : List Tour)
    (hkids : List.Forall₂ (fun c k => IsChild N dg t c k)
      (((citiesDown N).filter fun c => feasible N dg b t c).reverse) kids)
    (o : List Int) (ho : o.Perm (citiesUp N)) (hp : visitedOf t <+: o) :
    (∃ k ∈ kids, visitedOf k <+: o) ∨ b.cost < cycleCost N dg o := by
  obtain ⟨_, _, hk2⟩ := forall₂_length_mem hkids
  have hlen : (visitedOf t).length < o.length := by
    rw [visitedOf_length, ho.length_eq, citiesUp_length]
    have := hgt.1
    omega
  obtain ⟨c, tl, hsplit⟩ := prefix_next hp hlen
  have hcin : c ∈ o := by rw [hsplit]; simp
  have hcr : 1 ≤ c ∧ c < N := (mem_citiesUp N c).mp (ho.subset hcin)
  have hond : o.Nodup := ho.nodup_iff.mpr (citiesUp_nodup N)
  have hnv : c ∉ visitedOf t := by
    intro hmem
    rw [hsplit] at hond
    have := (List.nodup_append.mp hond).2.2
    exact this hmem (List.mem_cons_self _ _)
  have hge := cycleCost_ge N dg hv o (visitedOf t) tl c ho hsplit
  rw [costFrom_append, ← hgt.2.2.2.2, ← lastCity_eq t hgt.1 hgt.2.1] at hge
  by_cases hf : feasible N dg b t c = true
  · left
    obtain ⟨k, hk, hch⟩ := hk2 c (by
      rw [List.mem_reverse, List.mem_filter]
      exact ⟨(mem_citiesDown N c).mpr hcr, hf⟩)
    refine ⟨k, hk, ?_⟩
    rw [hch.visitedOf_append hgt.1, hsplit]
    exact ⟨tl, by simp⟩
  · right
    have hgt2 : t.cost + travelCost N dg (t.cities (t.count - 1)) c > b.cost := by
      by_contra hcon
      apply hf
      simp only [feasible, hcon, if_false]
      have : visited t c = false := by
        rw [Bool.eq_false_iff]
        intro h
        exact hnv ((visited_iff_mem t c).mp h)
      simp [this]
    omega

/-- The children pushed for a tour satisfy the tour invariant and extend the tour. -/
theorem expand_kids (N : Int) (dg : Int → Int) (b t : Tour) (hgt : GoodTour N dg t)
    (kids : List Tour)
    (hkids : List.Forall₂ (fun c k => IsChild N dg t c k)
      (((citiesDown N).filter fun c => feasible N dg b t c).reverse) kids) :
    ∀ k ∈ kids, GoodTour N dg k ∧ ∃ c, visitedOf k = visitedOf t ++ [c] := by
  obtain ⟨_, hk1, _⟩ := forall₂_length_mem hkids
  intro k hk
  obtain ⟨c, hcmem, hch⟩ := hk1 k hk
  rw [List.mem_reverse, List.mem_filter] at hcmem
  have hnv : c ∉ visitedOf t := by
    intro hvis
    have hf := hcmem.2
    simp only [feasible] at hf
    rw [(visited_iff_mem t c).mpr hvis] at hf
    split at hf <;> simp at hf
  exact ⟨hch.good hgt ((mem_citiesDown N c).mp hcmem.1) hnv, c, hch.visitedOf_append hgt.1⟩

/-- A finished tree search of a sorted stack leaves in `best_tour` either the old record, when
nothing below the stack is cheaper, or the first cheapest cycle below the stack. -/
theorem searchLoop_lex (N : Int) (dg : Int → Int) (uninit : Tour) (hv : ValidMatrix N dg) :
    ∀ (fuel : Nat) (s s2 : SearchState), (∀ t ∈ s.stack, GoodTour N dg t) →
      StackSorted s.stack → searchLoop N dg uninit fuel s = .ok s2 →
      LexPost N dg s.stack s.best_tour s2.best_tour := by
  have hN := hv.1
  have hnil : ∀ (fuel : Nat) (s s2 : SearchState), s.stack = [] →
      searchLoop N dg uninit fuel s = .ok s2 →
      LexPost N dg s.stack s.best_tour s2.best_tour := by
    intro fuel s s2 hst hrun
    rw [searchLoop_nil N dg uninit fuel s hst] at hrun
    have e : s = s2 := by injection hrun
    subst e
    left
    refine ⟨rfl, ?_⟩
    intro x hx
    rw [hst] at hx
    cases hx
  intro fuel
  induction fuel with
  | zero =>
    intro s s2 _ _ hrun
    cases hst : s.stack with
    | nil => rw [← hst]; exact hnil 0 s s2 hst hrun
    | cons t rest => simp [searchLoop, hst] at hrun
  | succ fuel ih =>
    intro s s2 hgood hsorted hrun
    cases hst : s.stack with
    | nil => rw [← hst]; exact hnil _ s s2 hst hrun
    | cons t rest =>
      rw [searchLoop_cons N dg uninit fuel s t rest hst] at hrun
      rw [hst] at hgood hsorted
      have hgt := hgood t (List.mem_cons_self _ _)
      have hgrest : ∀ x ∈ rest, GoodTour N dg x := fun x hx => hgood x (List.mem_cons_of_mem _ hx)
      have hcle : t.count ≤ N := by
        rcases hgt.count_le with h | h <;> omega
      have hsplit := hsorted
      unfold StackSorted at hsplit
      rw [List.map_cons, List.pairwise_cons] at hsplit
      by_cases hc : t.count = N
      · -- complete tour
        obtain ⟨hs1, hs2⟩ := searchStep_complete N dg uninit s t rest hst hc
        have hpost := ih (searchStep N dg uninit s) s2 (by rw [hs1]; exact hgrest)
          (by rw [hs1]; exact hsplit.2) hrun
        rw [hs1, hs2] at hpost
        have hperm := complete_perm N dg t hgt hc
        rcases updateBest_cases N dg hN s.best_tour t hgt hc with ⟨hu, hle⟩ | ⟨hrec, hlt⟩
        · rw [hu] at hpost
          rcases hpost with ⟨hb, hall⟩ | ⟨o, ho, ⟨x, hx, hpx⟩, hrec, hlt, hall⟩
          · left
            refine ⟨hb, ?_⟩
            intro x hx o ho hp
            rcases List.mem_cons.mp hx with rfl | hx
            · rw [complete_unique N x hc o ho hp]; exact hle
            · exact hall x hx o ho hp
          · right
            refine ⟨o, ho, ⟨x, List.mem_cons_of_mem _ hx, hpx⟩, hrec, hlt, ?_⟩
            intro y hy o2 ho2 hp2
            rcases List.mem_cons.mp hy with rfl | hy
            · rw [complete_unique N y hc o2 ho2 hp2]
              exact ⟨by omega, fun h => by omega⟩
            · exact hall y hy o2 ho2 hp2
        · have hbc : (updateBest N dg s.best_tour t).cost = cycleCost N dg (visitedOf t) :=
            hrec.2.1
          rcases hpost with ⟨hb, hall⟩ | ⟨o, ho, ⟨x, hx, hpx⟩, hrec2, hlt2, hall⟩
          · right
            refine ⟨visitedOf t, hperm, ⟨t, List.mem_cons_self _ _, List.prefix_refl _⟩, ?_,
              hlt, ?_⟩
            · rw [hb]; exact hrec
            · intro y hy o2 ho2 hp2
              rcases List.mem_cons.mp hy with rfl | hy
              · rw [complete_unique N y hc o2 ho2 hp2]
                exact ⟨le_refl _, fun _ => Or.inl rfl⟩
              · have h1 := hall y hy o2 ho2 hp2
                rw [hbc] at h1
                refine ⟨h1, fun _ => Or.inr ?_⟩
                exact before_lexLess (hsplit.1 _ (List.mem_map.mpr ⟨y, hy, rfl⟩))
                  (List.prefix_refl _) hp2
          · right
            rw [hbc] at hlt2
            refine ⟨o, ho, ⟨x, List.mem_cons_of_mem _ hx, hpx⟩, hrec2, by omega, ?_⟩
            intro y hy o2 ho2 hp2
            rcases List.mem_cons.mp hy with rfl | hy
            · rw [complete_unique N y hc o2 ho2 hp2]
              exact ⟨by omega, fun h => by omega⟩
            · exact hall y hy o2 ho2 hp2
      · -- incomplete tour
        have hlt : t.count < N := by omega
        obtain ⟨kids, hs1, hs2, hkids⟩ :=
          searchStep_expand N dg uninit s t rest hst hgt.1 hlt
        have hkg := expand_kids N dg s.best_tour t hgt kids hkids
        have hpost := ih (searchStep N dg uninit s) s2
          (by
            rw [hs1]
            intro x hx
            rcases List.mem_append.mp hx with hx | hx
            · exact (hkg x hx).1
            · exact hgrest x hx)
          (by rw [hs1]; exact stackSorted_expand N dg s.best_tour t hgt.1 rest kids hsorted hkids)
          hrun
        rw [hs1, hs2] at hpost
        rcases hpost with ⟨hb, hall⟩ | ⟨o, ho, ⟨x, hx, hpx⟩, hrec, hlt2, hall⟩
        · left
          refine ⟨hb, ?_⟩
          intro y hy o2 ho2 hp2
          rcases List.mem_cons.mp hy with rfl | hy
          · rcases expand_cover N dg hv s.best_tour y hgt hlt kids hkids o2 ho2 hp2 with
              ⟨k, hk, hpk⟩ | h
            · exact hall k (List.mem_append_left _ hk) o2 ho2 hpk
            · omega
          · exact hall y (List.mem_append_right _ hy) o2 ho2 hp2
        · right
          refine ⟨o, ho, ?_, hrec, hlt2, ?_⟩
          · rcases List.mem_append.mp hx with hx | hx
            · obtain ⟨_, c, hvc⟩ := hkg x hx
              refine ⟨t, List.mem_cons_self _ _, ?_⟩
              rw [hvc] at hpx
              exact List.IsPrefix.trans (List.prefix_append _ _) hpx
            · exact ⟨x, List.mem_cons_of_mem _ hx, hpx⟩
          · intro y hy o2 ho2 hp2
            rcases List.mem_cons.mp hy with rfl | hy
            · rcases expand_cover N dg hv s.best_tour y hgt hlt kids hkids o2 ho2 hp2 with
                ⟨k, hk, hpk⟩ | h
              · exact hall k (List.mem_append_left _ hk) o2 ho2 hpk
              · exact ⟨by omega, fun h2 => by omega⟩
            · exact hall y (List.mem_append_right _ hy) o2 ho2 hp2

/-- The run with one worker is the tree search of the stack that holds the hometown tour. -/
theorem treeSearch_one (N : Int) (dg : Int → Int) (uninit : Tour) (fuel : Nat) :
    treeSearch N dg uninit 1 [0] [0] fuel =
      match searchLoop N dg uninit fuel
          { stack := [initTour N (allocTour uninit []).1], available_stack := [],
            best_tour := initialBest N uninit } with
      | .error e => .error e
      | .ok s => .ok s.best_tour := by
  have hp : partitionPhase N dg uninit 1 fuel =
      .ok { initial_partition_stack := [initTour N (allocTour uninit []).1]
            available_stack := []
            current_size := 1 } := by
    cases fuel <;> simp [partitionPhase, partitionLoop, push]
  have hd : drain 1 1 ((0 : Nat) : Int) [initTour N (allocTour uninit []).1] []
      = .ok ([], [initTour N (allocTour uninit []).1]) := by
    have e : (lastTour 1 1 ((0 : Nat) : Int) - firstTour 1 1 ((0 : Nat) : Int) + 1).toNat = 1 := by
      decide
    simp only [drain, e, drainLoop, pop, push]
  simp only [treeSearch, hp, runThreads, drainThread, hd, searchThread, if_true]
  cases searchLoop N dg uninit fuel
      { stack := [initTour N (allocTour uninit []).1], available_stack := [],
        best_tour := initialBest N uninit } <;> rfl

/-- Claim C17: with one worker and a valid cost matrix (no overflow), with enough fuel the
run ends, and the cycle left in `best_tour` has minimum cost and is lexicographically smaller
than every other cycle of minimum cost, both as an ordering of the cities
`1 .. num_cities - 1` and as the printed sequence `0, ordering, 0`. -/
theorem one_worker_lex_smallest (num_cities : Int) (digraph : Int → Int) (uninit : Tour)
    (hv : ValidMatrix num_cities digraph) :
    ∃ fuel0, ∀ fuel, fuel0 ≤ fuel →
      ∃ best o, treeSearch num_cities digraph uninit 1 [0] [0] fuel = .ok best ∧
        o ∈ orderings num_cities ∧ IsCycleRecord num_cities digraph o best ∧
        (∀ o2 ∈ orderings num_cities,
          cycleCost num_cities digraph o ≤ cycleCost num_cities digraph o2) ∧
        (∀ o2 ∈ orderings num_cities,
          cycleCost num_cities digraph o2 = cycleCost num_cities digraph o → o2 ≠ o →
          LexLess o o2 ∧ LexLess (printedTour num_cities best) (0 :: (o2 ++ [0]))) := by
  obtain ⟨hg0, hv0⟩ := initTour_good num_cities digraph (allocTour uninit []).1
  refine ⟨searchWeight num_cities (num_cities - 1).toNat, fun fuel hf => ?_⟩
  have hgood : ∀ t ∈ [initTour num_cities (allocTour uninit []).1],
      GoodTour num_cities digraph t := by
    intro t ht
    rw [List.mem_singleton.mp ht]
    exact hg0
  obtain ⟨s2, hrun, _, _⟩ := searchLoop_spec num_cities digraph uninit hv fuel
    { stack := [initTour num_cities (allocTour uninit []).1], available_stack := [],
      best_tour := initialBest num_cities uninit }
    hgood
    (by
      have := stackWeight_le num_cities digraph _ hgood
      simp only [List.length_singleton, one_mul] at this
      exact le_trans this hf)
  have hpost := searchLoop_lex num_cities digraph uninit hv fuel _ s2 hgood
    (by simp [StackSorted]) hrun
  have hpre : ∀ o : List Int, visitedOf (initTour num_cities (allocTour uninit []).1) <+: o := by
    intro o
    rw [hv0]
    exact List.nil_prefix
  rcases hpost with ⟨hb, hall⟩ | ⟨o, ho, _, hrec, _, hall⟩
  · exfalso
    have h1 := hall _ (List.mem_singleton.mpr rfl) (citiesUp num_cities) (List.Perm.refl _)
      (hpre _)
    have h2 := cycleCost_lt num_cities digraph hv (citiesUp num_cities) (List.Perm.refl _)
    have h3 : (initialBest num_cities uninit).cost = INT_MAX := rfl
    simp only [h3] at h1
    omega
  · refine ⟨s2.best_tour, o, ?_, (mem_orderings num_cities o).mpr ho, hrec, ?_, ?_⟩
    · rw [treeSearch_one, hrun]
    · intro o2 ho2
      exact (hall _ (List.mem_singleton.mpr rfl) o2 ((mem_orderings num_cities o2).mp ho2)
        (hpre _)).1
    · intro o2 ho2 hcost hne
      have ho2p := (mem_orderings num_cities o2).mp ho2
      have h := (hall _ (List.mem_singleton.mpr rfl) o2 ho2p (hpre _)).2 hcost
      rcases h with h | h
      · exact absurd h hne
      · refine ⟨h, ?_⟩
        rw [hrec.2.2]
        exact lexLess_append_left [0]
          (lexLess_append_right h [0] (by rw [ho.length_eq, ho2p.length_eq]))

/-! ## Sums in the range of `int`, and the record at every point -/

theorem wrapInt_eq (x : Int) (hlo : INT_MIN ≤ x) (hhi : x ≤ INT_MAX) : wrapInt x = x := by
  unfold wrapInt
  unfold INT_MIN at hlo
  unfold INT_MAX at hhi
  omega

theorem wrapInt_range (x : Int) : INT_MIN ≤ wrapInt x ∧ wrapInt x ≤ INT_MAX := by
  unfold wrapInt INT_MIN INT_MAX
  omega

/-- Where the sum is in the range of `int`, `feasible` with 32-bit sums is `feasible` with
exact sums. -/
theorem feasible32_eq (N : Int) (dg : Int → Int) (b t : Tour) (c : Int)
    (hlo : INT_MIN ≤ t.cost + travelCost N dg (t.cities (t.count - 1)) c)
    (hhi : t.cost + travelCost N dg (t.cities (t.count - 1)) c ≤ INT_MAX) :
    feasible32 N dg b t c = feasible N dg b t c := by
  unfold feasible32 feasible
  rw [wrapInt_eq _ hlo hhi]

theorem isNewBest32_eq (N : Int) (dg : Int → Int) (b t : Tour)
    (hlo : INT_MIN ≤ t.cost + travelCost N dg (t.cities (t.count - 1)) 0)
    (hhi : t.cost + travelCost N dg (t.cities (t.count - 1)) 0 ≤ INT_MAX) :
    isNewBest32 N dg b t = isNewBest N dg b t := by
  unfold isNewBest32 isNewBest
  simp only [wrapInt_eq _ hlo hhi]

theorem addCity32_eq (N : Int) (dg : Int → Int) (t : Tour) (c : Int)
    (h1 : t.count - 1 ≠ t.count)
    (hlo : INT_MIN ≤ t.cost + travelCost N dg (t.cities (t.count - 1)) c)
    (hhi : t.cost + travelCost N dg (t.cities (t.count - 1)) c ≤ INT_MAX) :
    addCity32 N dg t c = addCity N dg t c := by
  unfold addCity32 addCity
  simp only [h1, if_false, wrapInt_eq _ hlo hhi]

/-- On a valid matrix and a tour that satisfies the tour invariant, the functions with 32-bit
sums are the functions with exact sums: no sum of the search overflows. -/
theorem good_sums_exact (N : Int) (dg : Int → Int) (hv : ValidMatrix N dg) (b t : Tour)
    (hg : GoodTour N dg t) (c : Int) (hc : 0 ≤ c ∧ c < N) :
    feasible32 N dg b t c = feasible N dg b t c ∧
    addCity32 N dg t c = addCity N dg t c ∧
    (c = 0 → isNewBest32 N dg b t = isNewBest N dg b t) := by
  obtain ⟨h0, h1, h2⟩ := good_sum_in_range N dg hv t hg c hc
  have hlo : INT_MIN ≤ t.cost + travelCost N dg (t.cities (t.count - 1)) c := by
    unfold INT_MIN; omega
  have hhi : t.cost + travelCost N dg (t.cities (t.count - 1)) c ≤ INT_MAX := by omega
  refine ⟨feasible32_eq N dg b t c hlo hhi, addCity32_eq N dg t c (by omega) hlo hhi, ?_⟩
  intro h
  subst h
  exact isNewBest32_eq N dg b t hlo hhi

/-- Claim C6, amended: for every tour and every city `c` for which the sum
`tour.cost + cost(last visited city, c)` is in the range of `int`, `feasible(tour, c)` returns
true if and only if `c` occurs at no position of `[1, count)` of the tour and the sum is at
most `best_tour.cost`; in particular an unvisited city whose extension costs exactly the
current bound is feasible.  There the function with 32-bit sums and the function with exact
sums agree.  The statement needs neither `1 <= count` nor `c` in `1 .. num_cities - 1`. -/
theorem feasible_iff (num_cities : Int) (digraph : Int → Int) (best_tour tour : Tour)
    (c : Int)
    (hlo : INT_MIN
      ≤ tour.cost + travelCost num_cities digraph (tour.cities (tour.count - 1)) c)
    (hhi : tour.cost + travelCost num_cities digraph (tour.cities (tour.count - 1)) c
      ≤ INT_MAX) :
    (feasible32 num_cities digraph best_tour tour c = true ↔
      (∀ i, 1 ≤ i → i < tour.count → tour.cities i ≠ c) ∧
      tour.cost + travelCost num_cities digraph (tour.cities (tour.count - 1)) c
        ≤ best_tour.cost) ∧
    ((∀ i, 1 ≤ i → i < tour.count → tour.cities i ≠ c) →
      tour.cost + travelCost num_cities digraph (tour.cities (tour.count - 1)) c
        = best_tour.cost →
      feasible32 num_cities digraph best_tour tour c = true) ∧
    feasible32 num_cities digraph best_tour tour c
      = feasible num_cities digraph best_tour tour c := by
  have e := feasible32_eq num_cities digraph best_tour tour c hlo hhi
  rw [e]
  obtain ⟨h1, h2⟩ := feasible_exact_iff num_cities digraph best_tour tour c
  exact ⟨h1, h2, rfl⟩

/-- Counterexample to claim C6 as stated: three cities at distance `INT_MAX` of each other.
The first loop body of the tree search pushes the tours `0, 1` and `0, 2`, each of cost
`INT_MAX`.  For the tour `0, 1` and city 2 the exact sum `INT_MAX + INT_MAX` exceeds the bound
`best_tour.cost = INT_MAX`, but the `int` sum is `-2` and `feasible` returns true: city 2 is
unvisited, yet the equivalence of the claim fails. -/
theorem feasible_iff_counterexample :
    ((searchStep 3 (digraphOfRows hugeRows) zeroTour
        { stack := [initTour 3 zeroTour], available_stack := [],
          best_tour := initialBest 3 zeroTour }).stack.map fun t =>
      (pathOf t, t.cost, feasible32 3 (digraphOfRows hugeRows) (initialBest 3 zeroTour) t 2))
      = [([0, 1], INT_MAX, true), ([0, 2], INT_MAX, false)] ∧
    pathOf hugeTour = [0, 1] ∧ hugeTour.cost = INT_MAX ∧ 1 ≤ hugeTour.count ∧
    wrapInt (hugeTour.cost
      + travelCost 3 (digraphOfRows hugeRows) (hugeTour.cities (hugeTour.count - 1)) 2) = -2 ∧
    feasible32 3 (digraphOfRows hugeRows) (initialBest 3 zeroTour) hugeTour 2 = true ∧
    ¬ (hugeTour.cost
        + travelCost 3 (digraphOfRows hugeRows) (hugeTour.cities (hugeTour.count - 1)) 2
      ≤ (initialBest 3 zeroTour).cost) ∧
    ¬ (feasible32 3 (digraphOfRows hugeRows) (initialBest 3 zeroTour) hugeTour 2 = true ↔
      (∀ i, 1 ≤ i → i < hugeTour.count → hugeTour.cities i ≠ 2) ∧
      hugeTour.cost
          + travelCost 3 (digraphOfRows hugeRows) (hugeTour.cities (hugeTour.count - 1)) 2
        ≤ (initialBest 3 zeroTour).cost) := by
  have hf : feasible32 3 (digraphOfRows hugeRows) (initialBest 3 zeroTour) hugeTour 2 = true := by
    decide
  have hn : ¬ (hugeTour.cost
        + travelCost 3 (digraphOfRows hugeRows) (hugeTour.cities (hugeTour.count - 1)) 2
      ≤ (initialBest 3 zeroTour).cost) := by decide
  refine ⟨by decide, by decide, by decide, by decide, by decide, hf, hn, ?_⟩
  intro h
  exact hn (h.mp hf).2

/-- With the sum in the range of `int`, `updateBest` with 32-bit sums leaves in `best_tour`
what `updateBest` with exact sums leaves. -/
theorem updateBest32_eq (N : Int) (dg : Int → Int) (b t : Tour) (hN : 1 ≤ N)
    (hc : t.count = N)
    (hlo : INT_MIN ≤ t.cost + travelCost N dg (t.cities (N - 1)) 0)
    (hhi : t.cost + travelCost N dg (t.cities (N - 1)) 0 ≤ INT_MAX) :
    (updateBest32 N dg { best_tour := b, newBest := t }).best_tour = updateBest N dg b t := by
  have hnew : isNewBest32 N dg b t = isNewBest N dg b t :=
    isNewBest32_eq N dg b t (by rw [hc]; exact hlo) (by rw [hc]; exact hhi)
  have e2 : 0 ≤ N - 1 ∧ N - 1 < N := by omega
  have hadd : addCity32 N dg (copyTour N t b) 0 = addCity N dg (copyTour N t b) 0 := by
    apply addCity32_eq
    · omega
    · simp only [copyTour, hc, e2, and_self, if_true]; exact hlo
    · simp only [copyTour, hc, e2, and_self, if_true]; exact hhi
  unfold updateBest32 updateBest
  simp only [hnew]
  by_cases h : isNewBest N dg b t = true
  · simp only [h, if_true, hadd]
  · simp only [h]
    rfl

/-- Claim C7, amended: for a complete candidate (`count == num_cities`) whose sum
`candidate.cost + cost(last city, 0)` is in the range of `int`, `updateBest` overwrites
`best_tour` only when that sum is strictly less than `best_tour.cost`; then the cells
`0 .. num_cities` of `best_tour` are the candidate's `num_cities` cities followed by 0 and
`best_tour.cost` is the sum; otherwise `best_tour` is unchanged in every field.  The candidate
is the same after the call as before.  There `updateBest` with 32-bit sums and `updateBest`
with exact sums agree. -/
theorem updateBest_frame (num_cities : Int) (digraph : Int → Int)
    (best_tour candidate : Tour) (hN : 1 ≤ num_cities) (hc : candidate.count = num_cities)
    (hlo : INT_MIN
      ≤ candidate.cost
        + travelCost num_cities digraph (candidate.cities (num_cities - 1)) 0)
    (hhi : candidate.cost + travelCost num_cities digraph (candidate.cities (num_cities - 1)) 0
      ≤ INT_MAX) :
    (candidate.cost + travelCost num_cities digraph (candidate.cities (num_cities - 1)) 0
        < best_tour.cost →
      printedTour num_cities
          (updateBest32 num_cities digraph
            { best_tour := best_tour, newBest := candidate }).best_tour
          = pathOf candidate ++ [0] ∧
      (updateBest32 num_cities digraph
          { best_tour := best_tour, newBest := candidate }).best_tour.cost
          = candidate.cost
            + travelCost num_cities digraph (candidate.cities (num_cities - 1)) 0) ∧
    (¬ candidate.cost + travelCost num_cities digraph (candidate.cities (num_cities - 1)) 0
        < best_tour.cost →
      (updateBest32 num_cities digraph
          { best_tour := best_tour, newBest := candidate }).best_tour = best_tour) ∧
    ((updateBest32 num_cities digraph
          { best_tour := best_tour, newBest := candidate }).best_tour ≠ best_tour →
      candidate.cost + travelCost num_cities digraph (candidate.cities (num_cities - 1)) 0
        < best_tour.cost) ∧
    (updateBest32 num_cities digraph
        { best_tour := best_tour, newBest := candidate }).newBest = candidate ∧
    (updateBest32 num_cities digraph
        { best_tour := best_tour, newBest := candidate }).best_tour
      = updateBest num_cities digraph best_tour candidate := by
  have e := updateBest32_eq num_cities digraph best_tour candidate hN hc hlo hhi
  obtain ⟨h1, h2⟩ := updateBest_exact_frame num_cities digraph best_tour candidate hN hc
  rw [e]
  refine ⟨h1, h2, ?_, ?_, rfl⟩
  · intro hne
    by_contra hcon
    exact hne (h2 hcon)
  · unfold updateBest32
    split <;> rfl

/-- Counterexample to claim C7 as stated: two cities at distance `INT_MAX` from 0 to 1 and 1
from 1 to 0, a matrix that `readDigraph` accepts.  The complete tour `0, 1` costs `INT_MAX`;
its exact sum with the closing edge, `INT_MAX + 1`, is not less than `best_tour.cost =
INT_MAX`, so the claim leaves `best_tour` unchanged; but the `int` sum is `INT_MIN`,
`isNewBest` holds, and `updateBest` overwrites the record with `0, 1, 0` at cost `INT_MIN`. -/
theorem updateBest_frame_counterexample :
    lopsidedTour.count = 2 ∧ pathOf lopsidedTour = [0, 1] ∧ lopsidedTour.cost = INT_MAX ∧
    travelCost 2 (digraphOfRows lopsidedRows) (lopsidedTour.cities (2 - 1)) 0 = 1 ∧
    (initialBest 2 zeroTour).cost = INT_MAX ∧ (initialBest 2 zeroTour).count = 1 ∧
    ¬ (lopsidedTour.cost
        + travelCost 2 (digraphOfRows lopsidedRows) (lopsidedTour.cities (2 - 1)) 0
      < (initialBest 2 zeroTour).cost) ∧
    isNewBest32 2 (digraphOfRows lopsidedRows) (initialBest 2 zeroTour) lopsidedTour = true ∧
    (updateBest32 2 (digraphOfRows lopsidedRows)
        { best_tour := initialBest 2 zeroTour, newBest := lopsidedTour }).best_tour.cost
      = INT_MIN ∧
    (updateBest32 2 (digraphOfRows lopsidedRows)
        { best_tour := initialBest 2 zeroTour, newBest := lopsidedTour }).best_tour.count = 3 ∧
    printedTour 2 (updateBest32 2 (digraphOfRows lopsidedRows)
        { best_tour := initialBest 2 zeroTour, newBest := lopsidedTour }).best_tour
      = [0, 1, 0] ∧
    (updateBest32 2 (digraphOfRows lopsidedRows)
        { best_tour := initialBest 2 zeroTour, newBest := lopsidedTour }).best_tour
      ≠ initialBest 2 zeroTour := by
  refine ⟨by decide, by decide, by decide, by decide, by decide, by decide, by decide,
    by decide, by decide, by decide, by decide, ?_⟩
  intro h
  have hcount := congrArg Tour.count h
  revert hcount
  decide

theorem cityArray_congr (N : Int) (x t : Tour)
    (h : ∀ i, 0 ≤ i → i < N → x.cities i = t.cities i) : cityArray N x = cityArray N t := by
  unfold cityArray
  apply List.map_congr_left
  intro i hi
  have := List.mem_range.mp hi
  exact h _ (by omega) (by omega)

theorem cityArray_complete (N : Int) (dg : Int → Int) (t : Tour) (hg : GoodTour N dg t)
    (hc : t.count = N) : cityArray N t = 0 :: visitedOf t := by
  have h := pathOf_eq t hg.1
  rw [hg.2.1] at h
  rw [← h]
  unfold cityArray pathOf
  rw [hc]

/-- The third value of `best_tour` inside `updateBest` is the result of `copyTour`, and the
last is the result of `updateBest`. -/
theorem updateBestPoints_ends (N : Int) (dg : Int → Int) (b t : Tour)
    (h : isNewBest N dg b t = true) :
    (updateBestPoints N dg b t).map Tour.count
      = [b.count, t.count, t.count, t.count, t.count, t.count + 1] ∧
    (updateBestPoints N dg b t).get? 2 = some (copyTour N t b) ∧
    (updateBestPoints N dg b t).getLast? = some (updateBest N dg b t) := by
  simp only [updateBestPoints, updateBest, h, if_true]
  exact ⟨rfl, rfl, rfl⟩

/-- Inside `updateBest` with a complete tour, `best_tour` holds that tour in its cells
`0 .. num_cities - 1` throughout, and `count` is `num_cities` from the second assignment to
the last but one. -/
theorem updateBestPoints_spec (N : Int) (dg : Int → Int) (b t : Tour) (hc : t.count = N) :
    ∀ x ∈ updateBestPoints N dg b t,
      (x.count = N ∨ x.count = b.count ∨ x.count = N + 1) ∧
      cityArray N x = cityArray N t := by
  intro x hx
  unfold updateBestPoints at hx
  by_cases h : isNewBest N dg b t = true
  · simp only [h, if_true, List.mem_cons, List.mem_singleton, List.not_mem_nil, or_false] at hx
    have harr : ∀ (y : Tour), (∀ i, 0 ≤ i → i < N → y.cities i = t.cities i) →
        cityArray N y = cityArray N t := fun y hy => cityArray_congr N y t hy
    rcases hx with rfl | rfl | rfl | rfl | rfl | rfl
    · refine ⟨Or.inr (Or.inl rfl), harr _ ?_⟩
      intro i h0 h1
      simp only [h0, h1, and_self, if_true]
    · refine ⟨Or.inl hc, harr _ ?_⟩
      intro i h0 h1
      simp only [h0, h1, and_self, if_true]
    · refine ⟨Or.inl hc, harr _ ?_⟩
      intro i h0 h1
      simp only [h0, h1, and_self, if_true]
    · refine ⟨Or.inl hc, harr _ ?_⟩
      intro i h0 h1
      have hne : i ≠ t.count := by omega
      simp only [h0, h1, and_self, if_true, hne, if_false]
    · refine ⟨Or.inl hc, harr _ ?_⟩
      intro i h0 h1
      have hne : i ≠ t.count := by omega
      simp only [h0, h1, and_self, if_true, hne, if_false]
    · refine ⟨Or.inr (Or.inr (by simp only [hc])), harr _ ?_⟩
      intro i h0 h1
      have hne : i ≠ t.count := by omega
      simp only [h0, h1, and_self, if_true, hne, if_false]
  · simp only [h] at hx
    cases hx

theorem BestSettled.count {N : Int} {dg : Int → Int} {uninit b : Tour}
    (h : BestSettled N dg uninit b) : b.count = 1 ∨ b.count = N + 1 := by
  rcases h with h | h
  · exact Or.inl h.2.1
  · exact Or.inr h.1

/-- After a loop body of the tree search on a stack of tours that satisfy the tour invariant,
a record that was at rest is at rest again. -/
theorem searchStep_settled (N : Int) (dg : Int → Int) (uninit : Tour) (hN : 1 ≤ N)
    (s : SearchState) (hgood : ∀ t ∈ s.stack, GoodTour N dg t)
    (hb : BestSettled N dg uninit s.best_tour) :
    BestSettled N dg uninit (searchStep N dg uninit s).best_tour := by
  rcases searchStep_best_cases N dg uninit s with h | ⟨t, ht, hc, h⟩
  · rw [h]; exact hb
  · rw [h]
    have hgt := hgood t ht
    obtain ⟨_, _, hcase⟩ := updateBest_good N dg hN s.best_tour t hgt hc
    rcases hcase with h2 | h2
    · rw [h2]; exact hb
    · right
      exact ⟨h2.1, visitedOf t, (mem_orderings N _).mpr (complete_perm N dg t hgt hc), h2⟩

/-- The values of `best_tour` inside a loop body of the tree search are values inside
`updateBest`. -/
theorem searchStepPoints_spec (N : Int) (dg : Int → Int) (uninit : Tour) (s : SearchState)
    (hgood : ∀ t ∈ s.stack, GoodTour N dg t)
    (hb : BestSettled N dg uninit s.best_tour) :
    ∀ x ∈ searchStepPoints N dg s, BestInUpdate N x := by
  intro x hx
  unfold searchStepPoints at hx
  cases hst : s.stack with
  | nil =>
    rw [hst] at hx
    simp only [pop] at hx
    cases hx
  | cons t rest =>
    rw [hst] at hx
    simp only [pop] at hx
    have hgt := hgood t (by rw [hst]; exact List.mem_cons_self _ _)
    by_cases hc : t.count = N
    · by_cases hnew : isNewBest N dg s.best_tour t = true
      · simp only [hc, hnew, if_true] at hx
        obtain ⟨hcount, harr⟩ := updateBestPoints_spec N dg s.best_tour t hc x hx
        refine ⟨?_, visitedOf t, (mem_orderings N _).mpr (complete_perm N dg t hgt hc), ?_⟩
        · rcases hcount with h | h | h
          · exact Or.inl h
          · rcases hb.count with h2 | h2
            · exact Or.inr (Or.inl (by rw [h, h2]))
            · exact Or.inr (Or.inr (by rw [h, h2]))
          · exact Or.inr (Or.inr h)
        · rw [harr, cityArray_complete N dg t hgt hc]
      · simp only [hc, hnew, if_true] at hx
        cases hx
    · simp only [hc, if_false] at hx
      cases hx

/-- Every value that `best_tour` takes during a sequence of loop bodies is at rest or inside
`updateBest`. -/
theorem bestPoints_spec (N : Int) (dg : Int → Int) (uninit : Tour) (hN : 1 ≤ N) :
    ∀ (steps : List (List Tour × List Tour)) (best : Tour),
      BestSettled N dg uninit best →
      (∀ sa ∈ steps, ∀ t ∈ sa.1, GoodTour N dg t) →
      ∀ b ∈ bestPoints N dg uninit best steps,
        BestSettled N dg uninit b ∨ BestInUpdate N b := by
  intro steps
  induction steps with
  | nil =>
    intro best hb _ b hmem
    simp only [bestPoints, List.mem_singleton] at hmem
    rw [hmem]
    exact Or.inl hb
  | cons sa steps ih =>
    intro best hb hgood b hmem
    simp only [bestPoints, List.mem_cons, List.mem_append] at hmem
    have hg : ∀ t ∈ sa.1, GoodTour N dg t := hgood sa (List.mem_cons_self _ _)
    rcases hmem with h | h | h
    · rw [h]; exact Or.inl hb
    · exact Or.inr (searchStepPoints_spec N dg uninit
        { stack := sa.1, available_stack := sa.2, best_tour := best } hg hb b h)
    · exact ih _ (searchStep_settled N dg uninit hN
          { stack := sa.1, available_stack := sa.2, best_tour := best } hg hb)
        (fun x hx => hgood x (List.mem_cons_of_mem _ hx)) b h

/-- The values of `best_tour` between the loop bodies are among its values. -/
theorem bestAfter_mem_points (N : Int) (dg : Int → Int) (uninit : Tour) :
    ∀ (steps : List (List Tour × List Tour)) (best : Tour) (k : Nat),
      bestAfter N dg uninit best (steps.take k) ∈ bestPoints N dg uninit best steps := by
  intro steps
  induction steps with
  | nil =>
    intro best k
    simp [bestAfter, bestPoints]
  | cons sa steps ih =>
    intro best k
    cases k with
    | zero => simp [bestAfter, bestPoints]
    | succ k =>
      have := ih (searchStep N dg uninit
        { stack := sa.1, available_stack := sa.2, best_tour := best }).best_tour k
      simp only [bestPoints, List.take_succ_cons, List.mem_cons, List.mem_append]
      right; right
      exact this

/-- Claim C16, amended: on a valid cost matrix, at every point of a run after `main` has
created `best_tour`, the record is in one of three states.  Between the loop bodies of the
tree search it is either as created (only city 0, `count == 1`, cost `INT_MAX`) or the record
of a complete cycle with `count == num_cities + 1`: the `num_cities` cities of a tour followed
by the closing city 0, with the cost of the cycle.  Inside `updateBest`, after each of its
assignments, its cells `0 .. num_cities - 1` hold a complete tour and `count` is
`num_cities`, except right after the `memcpy`, when it is still 1 or `num_cities + 1`, and
after the last assignment, when it is `num_cities + 1`.  A run is any sequence of loop bodies
on stacks of tours that satisfy the tour invariant; the points are those of `bestPoints`,
which contain the record after every loop body and, for every update, the result of
`copyTour` (`count == num_cities`) and the result of `updateBest`. -/
theorem best_tour_record (num_cities : Int) (digraph : Int → Int) (uninit : Tour)
    (hv : ValidMatrix num_cities digraph) (steps : List (List Tour × List Tour))
    (hgood : ∀ sa ∈ steps, ∀ t ∈ sa.1, GoodTour num_cities digraph t) :
    (∀ b ∈ bestPoints num_cities digraph uninit (initialBest num_cities uninit) steps,
      (b = initialBest num_cities uninit ∧ b.count = 1 ∧ b.cost = INT_MAX) ∨
      (b.count = num_cities + 1 ∧
        ∃ o ∈ orderings num_cities, IsCycleRecord num_cities digraph o b) ∨
      ((b.count = num_cities ∨ b.count = 1 ∨ b.count = num_cities + 1) ∧
        ∃ o ∈ orderings num_cities, cityArray num_cities b = 0 :: o)) ∧
    (∀ k : Nat,
      bestAfter num_cities digraph uninit (initialBest num_cities uninit) (steps.take k)
          ∈ bestPoints num_cities digraph uninit (initialBest num_cities uninit) steps ∧
      ((bestAfter num_cities digraph uninit (initialBest num_cities uninit) (steps.take k)
            = initialBest num_cities uninit ∧
          (initialBest num_cities uninit).count = 1 ∧
          (initialBest num_cities uninit).cost = INT_MAX) ∨
        ((bestAfter num_cities digraph uninit (initialBest num_cities uninit)
            (steps.take k)).count = num_cities + 1 ∧
          ∃ o ∈ orderings num_cities, IsCycleRecord num_cities digraph o
            (bestAfter num_cities digraph uninit (initialBest num_cities uninit)
              (steps.take k))))) ∧
    (∀ b t : Tour, isNewBest num_cities digraph b t = true →
      (updateBestPoints num_cities digraph b t).map Tour.count
        = [b.count, t.count, t.count, t.count, t.count, t.count + 1] ∧
      (updateBestPoints num_cities digraph b t).get? 2 = some (copyTour num_cities t b) ∧
      (updateBestPoints num_cities digraph b t).getLast?
        = some (updateBest num_cities digraph b t)) ∧
    (∀ sa ∈ steps, ∀ t ∈ sa.1, ∀ b : Tour, t.count = num_cities →
      isNewBest32 num_cities digraph b t = isNewBest num_cities digraph b t ∧
      addCity32 num_cities digraph (copyTour num_cities t b) 0
        = addCity num_cities digraph (copyTour num_cities t b) 0) := by
  have hN := hv.1
  have h0 : BestSettled num_cities digraph uninit (initialBest num_cities uninit) :=
    Or.inl ⟨rfl, rfl, rfl⟩
  refine ⟨?_, ?_, ?_, ?_⟩
  · intro b hb
    rcases bestPoints_spec num_cities digraph uninit hN steps _ h0 hgood b hb with h | h
    · rcases h with h | h
      · exact Or.inl h
      · exact Or.inr (Or.inl h)
    · exact Or.inr (Or.inr h)
  · intro k
    refine ⟨bestAfter_mem_points num_cities digraph uninit steps _ k, ?_⟩
    have hmem := bestAfter_mem_points num_cities digraph uninit (steps.take k)
      (initialBest num_cities uninit) k
    rw [List.take_take, min_self] at hmem
    have hsub : ∀ sa ∈ steps.take k, ∀ t ∈ sa.1, GoodTour num_cities digraph t :=
      fun sa hsa => hgood sa (List.mem_of_mem_take hsa)
    have key : ∀ (l : List (List Tour × List Tour)) (best : Tour),
        BestSettled num_cities digraph uninit best →
        (∀ sa ∈ l, ∀ t ∈ sa.1, GoodTour num_cities digraph t) →
        BestSettled num_cities digraph uninit (bestAfter num_cities digraph uninit best l) := by
      intro l
      induction l with
      | nil => intro best hb _; exact hb
      | cons sa l ih =>
        intro best hb hg
        exact ih _ (searchStep_settled num_cities digraph uninit hN
            { stack := sa.1, available_stack := sa.2, best_tour := best }
            (hg sa (List.mem_cons_self _ _)) hb)
          (fun x hx => hg x (List.mem_cons_of_mem _ hx))
    rcases key (steps.take k) _ h0 hsub with h | h
    · exact Or.inl ⟨h.1, rfl, rfl⟩
    · exact Or.inr h
  · intro b t h
    exact updateBestPoints_ends num_cities digraph b t h
  · intro sa hsa t ht b hc
    have hgt := hgood sa hsa t ht
    obtain ⟨_, _, h3⟩ := good_sums_exact num_cities digraph hv b t hgt 0 ⟨le_refl _, by omega⟩
    refine ⟨h3 rfl, ?_⟩
    obtain ⟨_, h1, h2⟩ := good_sum_in_range num_cities digraph hv t hgt 0 ⟨le_refl _, by omega⟩
    have hg1 := hgt.1
    have e2 : 0 ≤ t.count - 1 ∧ t.count - 1 < num_cities := by omega
    apply addCity32_eq
    · omega
    · simp only [copyTour, e2, and_self, if_true]
      have := (good_sum_in_range num_cities digraph hv t hgt 0 ⟨le_refl _, by omega⟩).1
      unfold INT_MIN
      omega
    · simp only [copyTour, e2, and_self, if_true]
      omega

/-- Counterexample to claim C16 as stated: with the 4 cities of the header comment the
`best_tour` that `main` creates has `count == 1`; `updateBest` with the complete tour
`0, 1, 2, 3` takes it through `count == 1` and cost `INT_MAX` (after the `memcpy`),
`count == 4` with the costs `INT_MAX`, 15, 15 and 25, and leaves `count == 5` with cost 25:
at rest the count is never 4.  On the two cities of `farRows`, outside the valid matrices, the
`int` sum of `isNewBest` wraps and the cost recorded for the cycle `0, 1, 0` is `-2`, not the
cost `4294967294` of the cycle. -/
theorem best_tour_record_counterexample :
    (initialBest 4 zeroTour).count = 1 ∧
    exampleTour.count = 4 ∧
    (updateBest 4 (digraphOfRows exampleRows) (initialBest 4 zeroTour) exampleTour).count = 5 ∧
    (initialBest 4 zeroTour).count ≠ 4 ∧
    (updateBest 4 (digraphOfRows exampleRows) (initialBest 4 zeroTour) exampleTour).count
      ≠ 4 ∧
    ((updateBestPoints 4 (digraphOfRows exampleRows) (initialBest 4 zeroTour) exampleTour).map
        fun b => (b.count, b.cost))
      = [(1, INT_MAX), (4, INT_MAX), (4, 15), (4, 15), (4, 25), (5, 25)] ∧
    (updateBest32 2 (digraphOfRows farRows)
        { best_tour := initialBest 2 zeroTour, newBest := farTour }).best_tour.cost = -2 ∧
    cycleCost 2 (digraphOfRows farRows) [1] = 4294967294 := by
  decide

/-! ## Instances at concrete inputs -/

/-- The one-worker optimum at the example of the header comment. -/
theorem one_worker_optimal_witness :
    ValidMatrix 4 (digraphOfRows exampleRows) ∧
    ∃ fuel0, ∀ fuel, fuel0 ≤ fuel →
      ∃ best, treeSearch 4 (digraphOfRows exampleRows) zeroTour 1 [0] [0] fuel = .ok best ∧
        ((orderings 4).map (cycleCost 4 (digraphOfRows exampleRows))).minimum
          = ((best.cost : Int) : WithTop Int) ∧
        (∃ o ∈ orderings 4, best.cost = cycleCost 4 (digraphOfRows exampleRows) o) ∧
        (∀ o ∈ orderings 4, best.cost ≤ cycleCost 4 (digraphOfRows exampleRows) o) :=
  ⟨example_valid, one_worker_optimal 4 (digraphOfRows exampleRows) zeroTour example_valid⟩

/-- The example of the header comment with 4 threads that drain in the order 0, 1, 2, 3 and
search in the order 3, 1, 2, 0. -/
theorem example_best_tour_witness :
    ∃ fuel0, ∀ fuel, fuel0 ≤ fuel →
      ∃ best, treeSearch 4 (digraphOfRows exampleRows) zeroTour 4 [0, 1, 2, 3] [3, 1, 2, 0]
          fuel = .ok best ∧
        printedTour 4 best = [0, 1, 2, 3, 0] ∧ best.cost = 25 :=
  example_best_tour zeroTour 4 (by decide) (by decide) [0, 1, 2, 3] [3, 1, 2, 0]
    (by decide) (by decide)

/-- The example of the header comment with 3 threads against the run with one thread. -/
theorem worker_count_independent_witness :
    ValidMatrix 4 (digraphOfRows exampleRows) ∧
    ∃ fuel0, ∀ fuel, fuel0 ≤ fuel →
      ∃ best best1,
        treeSearch 4 (digraphOfRows exampleRows) zeroTour 3 [2, 0, 1] [1, 2, 0] fuel
          = .ok best ∧
        treeSearch 4 (digraphOfRows exampleRows) zeroTour 1 [0] [0] fuel = .ok best1 ∧
        best.cost = best1.cost :=
  ⟨example_valid,
    worker_count_independent 4 (digraphOfRows exampleRows) zeroTour example_valid 3
      (by decide) (by decide) [2, 0, 1] [1, 2, 0] (by decide) (by decide)⟩

/-- The shape of the final tour at the example of the header comment. -/
theorem one_worker_tour_shape_witness :
    ValidMatrix 4 (digraphOfRows exampleRows) ∧
    ∃ fuel0, ∀ fuel, fuel0 ≤ fuel →
      ∃ best, treeSearch 4 (digraphOfRows exampleRows) zeroTour 1 [0] [0] fuel = .ok best ∧
        ((printedTour 4 best).length : Int) = 4 + 1 ∧
        best.cities 0 = 0 ∧ best.cities 4 = 0 ∧
        ((citiesUp 4).map best.cities).Perm (citiesUp 4) ∧
        best.cost = pathCost 4 (digraphOfRows exampleRows) (printedTour 4 best) :=
  ⟨example_valid, one_worker_tour_shape 4 (digraphOfRows exampleRows) zeroTour example_valid⟩

/-- The share of worker 1 of 3 workers for 7 staged branches. -/
theorem share_formulas_witness :
    tourCount 7 3 1
      = (if (1 : Int) < 7 % 3 then ⌈((7 : Int) : ℚ) / ((3 : Int) : ℚ)⌉
         else ⌊((7 : Int) : ℚ) / ((3 : Int) : ℚ)⌋) ∧
    firstTour 7 3 1
      = ((List.range (1 : Int).toNat).map fun (v : Nat) => tourCount 7 3 (v : Int)).sum :=
  share_formulas 7 3 1 (by decide) (by decide) (by decide) (by decide)

/-- The bound never increases in a search over two cities. -/
theorem best_cost_never_increases_witness :
    (∀ best_tour candidate : Tour, 1 ≤ candidate.count → candidate.count ≤ 2 →
      (updateBest 2 (digraphOfRows twoCityRows) best_tour candidate).cost ≤ best_tour.cost) ∧
    (∀ (best : Tour) (steps : List (List Tour × List Tour)) (x : List Tour × List Tour),
      (bestAfter 2 (digraphOfRows twoCityRows) zeroTour best (steps ++ [x])).cost
        ≤ (bestAfter 2 (digraphOfRows twoCityRows) zeroTour best steps).cost) ∧
    (initialBest 2 zeroTour).cost = INT_MAX ∧
    (∀ steps : List (List Tour × List Tour),
      (bestAfter 2 (digraphOfRows twoCityRows) zeroTour (initialBest 2 zeroTour) steps).cost
        ≤ INT_MAX) :=
  best_cost_never_increases 2 (digraphOfRows twoCityRows) zeroTour (by decide)

/-- The three tours that the first loop body of the tree search pushes in a run with one
thread on the example of the header comment are well formed. -/
theorem pushed_tours_well_formed_witness :
    (searchStep 4 (digraphOfRows exampleRows) zeroTour
      { stack := [initTour 4 zeroTour], available_stack := [],
        best_tour := initialBest 4 zeroTour }).stack.length = 3 ∧
    ∀ t ∈ (searchStep 4 (digraphOfRows exampleRows) zeroTour
      { stack := [initTour 4 zeroTour], available_stack := [],
        best_tour := initialBest 4 zeroTour }).stack,
      t.cities 0 = 0 ∧
      (∀ i j, 1 ≤ i → i < j → j < t.count → t.cities i ≠ t.cities j) ∧
      t.cost = pathCost 4 (digraphOfRows exampleRows) (pathOf t) :=
  ⟨by decide,
    pushed_tours_well_formed 4 (digraphOfRows exampleRows) zeroTour example_valid _
      (StackReach.search_step
        { stack := [initTour 4 zeroTour], available_stack := [],
          best_tour := initialBest 4 zeroTour }
        StackReach.staging_init)⟩

/-- Adding city 2 to the tour that holds the hometown only, of 3 cities, and removing it. -/
theorem removeLastCity_addCity_witness :
    removeLastCity 3 (digraphOfRows exampleRows)
      (addCity 3 (digraphOfRows exampleRows) (initTour 3 zeroTour) 2) = initTour 3 zeroTour :=
  removeLastCity_addCity 3 (digraphOfRows exampleRows) (initTour 3 zeroTour) 2 (by decide)
    (fun i h1 h2 => by
      have h3 : 1 ≤ i := h1
      simp only [initTour, h3, h2, and_self, if_true])

/-- The partition phase for 4 cities and 4 threads, the largest count that it can serve. -/
theorem partition_terminates_witness :
    ∃ fuel0, ∀ fuel, fuel0 ≤ fuel →
      ∃ p, partitionPhase 4 (digraphOfRows exampleRows) zeroTour 4 fuel = .ok p ∧
        (4 : Int) ≤ (p.initial_partition_stack.length : Int) :=
  partition_terminates 4 (digraphOfRows exampleRows) zeroTour 4 (by decide) (by decide)

/-- The threshold for 4 cities is 4 threads; 5 threads are past it. -/
theorem partition_threshold_witness :
    ((∃ fuel p, partitionPhase 4 (digraphOfRows exampleRows) zeroTour 5 fuel = .ok p ∧
        (5 : Int) ≤ (p.initial_partition_stack.length : Int)) ↔
      (5 : Int) ≤ 1 + (4 - 1) * (4 - 2) / 2) ∧
    ((5 : Int) ≤ 1 + (4 - 1) * (4 - 2) / 2 →
      ∃ fuel0, ∀ fuel, fuel0 ≤ fuel →
        ∃ p, partitionPhase 4 (digraphOfRows exampleRows) zeroTour 5 fuel = .ok p ∧
          (5 : Int) ≤ (p.initial_partition_stack.length : Int)) ∧
    ((1 : Int) + (4 - 1) * (4 - 2) / 2 < 5 →
      ∃ fuel0, ∀ fuel, fuel0 ≤ fuel →
        partitionPhase 4 (digraphOfRows exampleRows) zeroTour 5 fuel = .error .nullDeref) :=
  partition_threshold 4 (digraphOfRows exampleRows) zeroTour 5 (by decide)

/-- The partition phase for 4 cities and 4 threads ends within 3 loop bodies, and its staged
tours cover every complete tour exactly once. -/
theorem partition_exact_cover_witness :
    ∃ p, partitionPhase 4 (digraphOfRows exampleRows) zeroTour 4 3 = .ok p ∧
      (4 : Int) ≤ (p.initial_partition_stack.length : Int) ∧
      ∀ o ∈ orderings 4,
        (p.initial_partition_stack.map pathOf).countP (fun q => q.isPrefixOf (0 :: o)) = 1 := by
  obtain ⟨p, hp, _⟩ := partitionPhase_ends 4 (digraphOfRows exampleRows) zeroTour 4
    (by decide) (by decide) 3 (by decide)
  exact ⟨p, hp, partition_exact_cover 4 (digraphOfRows exampleRows) zeroTour 4 3 p
    (by decide) hp⟩

/-- The tree search of one thread on the example of the header comment ends with an empty
stack. -/
theorem search_terminates_witness :
    ∃ fuel0, ∀ fuel, fuel0 ≤ fuel →
      ∃ s2, searchLoop 4 (digraphOfRows exampleRows) zeroTour fuel
          { stack := [initTour 4 zeroTour], available_stack := [],
            best_tour := initialBest 4 zeroTour } = .ok s2 ∧ s2.stack = [] :=
  search_terminates 4 (digraphOfRows exampleRows) zeroTour
    { stack := [initTour 4 zeroTour], available_stack := [],
      best_tour := initialBest 4 zeroTour }
    (by
      intro t ht
      rw [List.mem_singleton.mp ht]
      decide)

/-- Three staged tours drained by 2 threads, thread 1 first: thread 0 gets 2 tours, thread 1
gets 1. -/
theorem drain_shares_witness :
    ((List.range (2 : Int).toNat).map fun (t : Nat) =>
        tourCount (([zeroTour, twoCityTour, exampleTour] : List Tour).length : Int) 2 (t : Int)).sum
      = (([zeroTour, twoCityTour, exampleTour] : List Tour).length : Int) ∧
    ∃ r2, runThreads
        (drainThread (([zeroTour, twoCityTour, exampleTour] : List Tour).length : Int) 2) [1, 0]
        { shared := [zeroTour, twoCityTour, exampleTour], best_tour := zeroTour,
          thread_stack := fun _ => [], thread_avail := fun _ => [] } = .ok r2 ∧
      r2.shared = [] ∧
      ((([1, 0] : List Nat).map r2.thread_stack).flatten).Perm
        [zeroTour, twoCityTour, exampleTour] ∧
      ∀ t ∈ ([1, 0] : List Nat), ((r2.thread_stack t).length : Int)
        = tourCount (([zeroTour, twoCityTour, exampleTour] : List Tour).length : Int) 2
            (t : Int) :=
  drain_shares [zeroTour, twoCityTour, exampleTour] 2 (by decide) [1, 0] (by decide)
    { shared := [zeroTour, twoCityTour, exampleTour], best_tour := zeroTour,
      thread_stack := fun _ => [], thread_avail := fun _ => [] } rfl (fun _ => rfl)

/-- The lexicographically smallest optimum at the example of the header comment. -/
theorem one_worker_lex_smallest_witness :
    ValidMatrix 4 (digraphOfRows exampleRows) ∧
    ∃ fuel0, ∀ fuel, fuel0 ≤ fuel →
      ∃ best o, treeSearch 4 (digraphOfRows exampleRows) zeroTour 1 [0] [0] fuel = .ok best ∧
        o ∈ orderings 4 ∧ IsCycleRecord 4 (digraphOfRows exampleRows) o best ∧
        (∀ o2 ∈ orderings 4,
          cycleCost 4 (digraphOfRows exampleRows) o ≤ cycleCost 4 (digraphOfRows exampleRows) o2) ∧
        (∀ o2 ∈ orderings 4,
          cycleCost 4 (digraphOfRows exampleRows) o2 = cycleCost 4 (digraphOfRows exampleRows) o →
          o2 ≠ o →
          LexLess o o2 ∧ LexLess (printedTour 4 best) (0 :: (o2 ++ [0]))) :=
  ⟨example_valid, one_worker_lex_smallest 4 (digraphOfRows exampleRows) zeroTour example_valid⟩

/-- City 1 at the root of the example of the header comment: the sum is 1. -/
theorem feasible_iff_witness :
    (feasible32 4 (digraphOfRows exampleRows) (initialBest 4 zeroTour) (initTour 4 zeroTour) 1
        = true ↔
      (∀ i, 1 ≤ i → i < (initTour 4 zeroTour).count → (initTour 4 zeroTour).cities i ≠ 1) ∧
      (initTour 4 zeroTour).cost
          + travelCost 4 (digraphOfRows exampleRows)
            ((initTour 4 zeroTour).cities ((initTour 4 zeroTour).count - 1)) 1
        ≤ (initialBest 4 zeroTour).cost) ∧
    feasible32 4 (digraphOfRows exampleRows) (initialBest 4 zeroTour) (initTour 4 zeroTour) 1
      = feasible 4 (digraphOfRows exampleRows) (initialBest 4 zeroTour) (initTour 4 zeroTour) 1 :=
  ⟨(feasible_iff 4 (digraphOfRows exampleRows) (initialBest 4 zeroTour) (initTour 4 zeroTour) 1
      (by decide) (by decide)).1,
    (feasible_iff 4 (digraphOfRows exampleRows) (initialBest 4 zeroTour) (initTour 4 zeroTour) 1
      (by decide) (by decide)).2.2⟩

/-- The update of the initial `best_tour` by the complete tour `0, 1` of two cities at
distance 1. -/
theorem updateBest_frame_witness :
    printedTour 2 (updateBest32 2 (digraphOfRows twoCityRows)
        { best_tour := initialBest 2 zeroTour, newBest := twoCityTour }).best_tour
      = [0, 1, 0] ∧
    (updateBest32 2 (digraphOfRows twoCityRows)
        { best_tour := initialBest 2 zeroTour, newBest := twoCityTour }).best_tour.cost = 2 ∧
    (updateBest32 2 (digraphOfRows twoCityRows)
        { best_tour := initialBest 2 zeroTour, newBest := twoCityTour }).newBest
      = twoCityTour :=
  have h := updateBest_frame 2 (digraphOfRows twoCityRows) (initialBest 2 zeroTour)
    twoCityTour (by decide) (by decide) (by decide) (by decide)
  ⟨(h.1 (by decide)).1, (h.1 (by decide)).2, h.2.2.2.1⟩

/-- The record during one loop body that pops the complete tour `0, 1, 2, 3` of the example
of the header comment. -/
theorem best_tour_record_witness :
    ValidMatrix 4 (digraphOfRows exampleRows) ∧
    ∀ b ∈ bestPoints 4 (digraphOfRows exampleRows) zeroTour (initialBest 4 zeroTour)
        [([exampleTour], [])],
      (b = initialBest 4 zeroTour ∧ b.count = 1 ∧ b.cost = INT_MAX) ∨
      (b.count = 4 + 1 ∧
        ∃ o ∈ orderings 4, IsCycleRecord 4 (digraphOfRows exampleRows) o b) ∨
      ((b.count = 4 ∨ b.count = 1 ∨ b.count = 4 + 1) ∧
        ∃ o ∈ orderings 4, cityArray 4 b = 0 :: o) :=
  ⟨example_valid,
    (best_tour_record 4 (digraphOfRows exampleRows) zeroTour example_valid
      [([exampleTour], [])]
      (by
        intro sa hsa t ht
        rw [List.mem_singleton.mp hsa] at ht
        rw [List.mem_singleton.mp ht]
        unfold GoodTour
        decide)).1⟩

end TreeSearch
